import Mathlib

/-!
# tarp: the HTML annotation engine (`html.go`)

A shallow embedding of `htmlGen` and of the helpers it relies on, followed by
the properties of the rendering that the specification states.

Conventions of the embedding

* A Go `[]byte` / `string` that is scanned byte by byte is a `List Char`, one
  character per byte.
* Go `int` values (`Offset`, `Count`, line numbers, the level `n`) are `Int`;
  the loop index `i` of `for i := range src` is a `Nat`.  Where the code can
  leave the range of `int` (the level `n`, the colours, the sums of
  `percentCovered`) the result is wrapped to 64 bits.
* A finite `float64` is a significand of at most 53 bits with a binary
  exponent; the product `Norm*9` is rounded to nearest, ties to even, as the
  hardware does.
* The bytes written to the `bufio.Writer` are recorded as a list of `Piece`s,
  one per write call; the output is their concatenation.
-/

namespace Tarp

/-! ## Data model -/

/-- A finite `float64`: the value `mant * 2^exp`, the significand holding at
most 53 bits (every finite `float64` has this form, with `exp >= -1074`).  One
value may have several such forms (`1 = 2 * 2^(-1)`); the infinities and NaN
have none. -/
structure Float64 where
  mant : Int
  exp : Int
  mant_lt : mant.natAbs < 2 ^ 53
  deriving DecidableEq

/-- The number a `Float64` stands for. -/
def Float64.toRat (x : Float64) : ℚ := x.mant * (2 : ℚ) ^ x.exp

/-- The fields of `cover.Boundary` that `htmlGen` reads. -/
structure Boundary where
  Offset : Int
  Start : Bool
  Count : Int
  Norm : Float64
  deriving DecidableEq

/-- Modelled from the spec: the type `tarpFunc` is declared outside `html.go`;
`htmlGen` reads its `Name`, its `Filename` and the line of `RBracePos`
(the spec's function declaration: name, source file, closing line). -/
structure tarpFunc where
  Name : String
  Filename : String
  RBraceLine : Int
  deriving DecidableEq

/-- Modelled from the spec: the type `tarpReport` is declared outside
`html.go`; `htmlGen` reads `DeclaredDetails` and asks `Called.Has(name)`.
The directly-called set is a collection of names with a membership test. -/
structure tarpReport where
  DeclaredDetails : List tarpFunc
  Called : List String

/-- The membership test `report.Called.Has(name)`. -/
def tarpReport.calledHas (report : tarpReport) (name : String) : Bool :=
  decide (name ∈ report.Called)

/-- The zero value of `tarpFunc` (`var relevantFunc tarpFunc`). -/
def tarpFunc.zero : tarpFunc := ⟨"", "", 0⟩

/-! ## Library behaviour used by `htmlGen` -/

/-- The test `strings.Contains(s, sub)`: `sub` occurs in `s` as a contiguous
run of bytes. -/
def stringsContains : List Char → List Char → Bool
  | [], sub => sub.isEmpty
  | c :: cs, sub => sub.isPrefixOf (c :: cs) || stringsContains cs sub

/-- The verb `%v` applied to a Go `int`: decimal digits, with a leading minus
sign for a negative value. -/
def fmtInt : Int → List Char
  | Int.ofNat m => Nat.toDigits 10 m
  | Int.negSucc m => '-' :: Nat.toDigits 10 (m + 1)

/-- The number of bits by which `x` exceeds 53 bits, for `x` below `2^57`: the
ninefold of a 53-bit significand is below `9 * 2^53 < 2^57`. -/
def excessBits (x : Nat) : Nat :=
  if x < 2 ^ 53 then 0
  else if x < 2 ^ 54 then 1
  else if x < 2 ^ 55 then 2
  else if x < 2 ^ 56 then 3
  else 4

/-- The quotient of `x` by `2^s`, rounded to nearest, ties to even. -/
def roundShift (x s : Nat) : Nat :=
  let q := x / 2 ^ s
  let r := x % 2 ^ s
  if 2 * r < 2 ^ s then q
  else if 2 * r = 2 ^ s ∧ q % 2 = 0 then q
  else q + 1

/-- The `float64` product `norm * 9`, as significand and exponent: the exact
product, rounded to 53 significant bits.  For a `norm` above `2^1020` the
product of Go is an infinity; the embedding keeps the rounded value, which the
conversion `toInt64` treats as it treats an infinity. -/
def mulNine (norm : Float64) : Int × Int :=
  let p := 9 * norm.mant.natAbs
  let s := excessBits p
  (norm.mant.sign * (roundShift p s : Int), norm.exp + s)

/-- The value of `math.Floor(x)` for `x = v.1 * 2^v.2`: the largest integer
not above it, which is a `float64` again. -/
def floorInt (v : Int × Int) : Int :=
  if 0 ≤ v.2 then v.1 * 2 ^ v.2.toNat else v.1 / 2 ^ (-v.2).toNat

/-- Go `int` and `int64` arithmetic: a result wrapped to 64 bits, two's
complement. -/
def wrap64 (x : Int) : Int := (x + 2 ^ 63) % 2 ^ 64 - 2 ^ 63

/-- The conversion `int(x)` of a `float64` whose value is the integer `f`: the
value itself when it lies in the range of `int`.  For a value outside the
range (an infinity included) the Go specification leaves the result to the
implementation; the embedding takes the result of amd64, which is `-2^63`. -/
def toInt64 (f : Int) : Int := if -2 ^ 63 ≤ f ∧ f < 2 ^ 63 then f else -2 ^ 63

/-! ## `htmlGen` -/

/-- The constant `tarpClassName`. -/
def tarpClassName : List Char := "tarp-uncovered".toList

/-- One write to the output buffer. -/
inductive Piece where
  /-- an opening tag written by one of the two `Fprintf` calls -/
  | openSpan (cls : List Char) (title : List Char)
  /-- the closing tag written by `WriteString("</span>")` -/
  | closeSpan
  /-- the text written for one source byte -/
  | text (s : List Char)
  deriving DecidableEq

/-- The bytes of a write. -/
def Piece.render : Piece → List Char
  | .openSpan cls title =>
      "<span class=\"".toList ++ cls ++ "\" title=\"".toList ++ title ++ "\">".toList
  | .closeSpan => "</span>".toList
  | .text s => s

/-- The declaration loop of `htmlGen`: the first declaration, in list order,
whose `Filename` contains `filename` and whose closing line is `currentLine`;
the zero value when there is none. -/
def relevantFunc (filename : String) (decls : List tarpFunc) (currentLine : Int) : tarpFunc :=
  match decls with
  | [] => tarpFunc.zero
  | d :: ds =>
    if stringsContains d.Filename.toList filename.toList then
      if d.RBraceLine = currentLine then d
      else relevantFunc filename ds currentLine
    else relevantFunc filename ds currentLine

/-- The level `n` of a start boundary: `0`, or
`int(math.Floor(b.Norm*9)) + 1` in `int` arithmetic when `Count > 0`. -/
def coverLevel (b : Boundary) : Int :=
  if b.Count > 0 then wrap64 (toInt64 (floorInt (mulNine b.Norm)) + 1) else 0

/-- The write made for a start boundary. -/
def openTag (filename : String) (report : tarpReport) (currentLine : Int) (b : Boundary) : Piece :=
  let rf := relevantFunc filename report.DeclaredDetails currentLine
  let relevantFuncCalled := report.calledHas rf.Name
  let n := coverLevel b
  if rf.Name ≠ "" ∧ n > 0 ∧ ¬ relevantFuncCalled then
    .openSpan tarpClassName (fmtInt b.Count)
  else
    .openSpan ("cov".toList ++ fmtInt n) (fmtInt b.Count)

/-- The write made for a boundary: an opening tag or the closing tag. -/
def boundaryTag (filename : String) (report : tarpReport) (currentLine : Int) (b : Boundary) : Piece :=
  if b.Start then openTag filename report currentLine b else .closeSpan

/-- The inner loop of `htmlGen` at position `i`: while the head boundary has
offset `i`, write its tag and drop it.  Returns the writes and the boundaries
that remain. -/
def drain (filename : String) (report : tarpReport) (currentLine : Int) (i : Nat) :
    List Boundary → List Piece × List Boundary
  | [] => ([], [])
  | b :: bs =>
    if b.Offset = (i : Int) then
      let r := drain filename report currentLine i bs
      (boundaryTag filename report currentLine b :: r.1, r.2)
    else ([], b :: bs)

/-- The `switch` on a source byte: the text written for it. -/
def escapeByte (b : Char) : List Char :=
  if b = '>' then "&gt;".toList
  else if b = '<' then "&lt;".toList
  else if b = '&' then "&amp;".toList
  else if b = '\t' then "    ".toList
  else [b]

/-- The outer loop of `htmlGen` from position `i` on, with the running
`currentLine` and the remaining boundaries. -/
def scan (filename : String) (report : tarpReport) :
    Int → Nat → List Char → List Boundary → List Piece
  | _, _, [], _ => []
  | currentLine, i, c :: cs, boundaries =>
    let r := drain filename report currentLine i boundaries
    r.1 ++ Piece.text (escapeByte c) ::
      scan filename report (if c = '\n' then currentLine + 1 else currentLine) (i + 1) cs r.2

/-- The writes of `htmlGen`, in order. -/
def htmlGenPieces (src : List Char) (filename : String) (boundaries : List Boundary)
    (report : tarpReport) : List Piece :=
  scan filename report 1 0 src boundaries

/-- The output of `htmlGen`: everything written, flushed to `w`. -/
def htmlGen (src : List Char) (filename : String) (boundaries : List Boundary)
    (report : tarpReport) : List Char :=
  ((htmlGenPieces src filename boundaries report).map Piece.render).flatten

/-! ## Vocabulary of the specification -/

/-- The rational value of a significand/exponent pair. -/
def pairValue (v : Int × Int) : ℚ := v.1 * (2 : ℚ) ^ v.2

/-- The escaped form of a run of source bytes. -/
def escape (src : List Char) : List Char := src.flatMap escapeByte

/-- The writes made for a run of source bytes between two boundaries. -/
def textPieces (src : List Char) : List Piece := src.map (fun c => Piece.text (escapeByte c))

/-- A write is a tag (opening or closing), not text. -/
def Piece.isTag : Piece → Bool
  | .text _ => false
  | _ => true

/-- A write is an opening tag. -/
def Piece.isOpen : Piece → Bool
  | .openSpan _ _ => true
  | _ => false

/-- A write is the closing tag. -/
def Piece.isClose : Piece → Bool
  | .closeSpan => true
  | _ => false

/-- The text of a write: its bytes when it is text, nothing when it is a tag. -/
def Piece.textBytes : Piece → List Char
  | .text s => s
  | _ => []

/-- The output with the generated tags removed. -/
def textOf (ps : List Piece) : List Char := ps.flatMap Piece.textBytes

/-- The generated tags of the output, in order. -/
def tagsOf (ps : List Piece) : List Piece := ps.filter Piece.isTag

/-- The value of `currentLine` after the bytes `cs`, starting from `line`. -/
def lineAfter (line : Int) (cs : List Char) : Int := line + (cs.count '\n' : Nat)

/-- The value of `currentLine` when the scan of `src` is at offset `off`:
one more than the number of newlines before it. -/
def lineAt (src : List Char) (off : Nat) : Int := lineAfter 1 (src.take off)

/-- Boundaries ordered by offset (coincident offsets allowed). -/
def offsetOrdered (bs : List Boundary) : Prop :=
  bs.Pairwise (fun a b => a.Offset ≤ b.Offset)

/-- All offsets are positions of bytes of a source of length `len`. -/
def offsetsWithin (len : Nat) (bs : List Boundary) : Prop :=
  ∀ b ∈ bs, 0 ≤ b.Offset ∧ b.Offset < (len : Int)

/-- Starts and ends pair up like parentheses, `depth` spans being open. -/
def nestedFrom : Nat → List Boundary → Bool
  | depth, [] => depth == 0
  | depth, b :: bs =>
    if b.Start then nestedFrom (depth + 1) bs
    else match depth with
      | 0 => false
      | d + 1 => nestedFrom d bs

/-- A well-nested boundary list. -/
def wellNested (bs : List Boundary) : Prop := nestedFrom 0 bs = true

/-- The number of places of a text at which the pattern starts. -/
def countOcc (pat : List Char) : List Char → Nat
  | [] => 0
  | c :: cs => (if pat.isPrefixOf (c :: cs) then 1 else 0) + countOcc pat cs

/-- The text with its tags removed, read from the bytes alone: a tag runs from
a `<` to the next `>`; `inTag` tells whether the reader is inside a tag. -/
def stripFrom : Bool → List Char → List Char
  | _, [] => []
  | true, c :: cs => if c = '>' then stripFrom false cs else stripFrom true cs
  | false, c :: cs => if c = '<' then stripFrom true cs else c :: stripFrom false cs

/-- The output bytes with every tag removed. -/
def stripTags (out : List Char) : List Char := stripFrom false out

/-- A byte that is neither `<` nor `>`. -/
def plainByte (c : Char) : Prop := c ≠ '<' ∧ c ≠ '>'

/-- The bytes of an opening tag between its `<` and its `>`. -/
def tagBody (cls title : List Char) : List Char :=
  "span class=\"".toList ++ (cls ++ ("\" title=\"".toList ++ (title ++ "\"".toList)))

/-- A write whose bytes, apart from the `<` and `>` that delimit a tag, hold
neither `<` nor `>`. -/
def Piece.plain : Piece → Prop
  | .openSpan cls title => (∀ c ∈ cls, plainByte c) ∧ (∀ c ∈ title, plainByte c)
  | .closeSpan => True
  | .text s => ∀ c ∈ s, plainByte c

/-- The text after an ampersand starts with the rest of an entity. -/
def entityFollows (post : List Char) : Prop :=
  "lt;".toList <+: post ∨ "gt;".toList <+: post ∨ "amp;".toList <+: post

/-- Every ampersand of the text starts one of the three entities. -/
def ampersandsEscaped (t : List Char) : Prop :=
  ∀ pre post : List Char, t = pre ++ '&' :: post → entityFollows post

instance (bs : List Boundary) : Decidable (offsetOrdered bs) := by
  unfold offsetOrdered; infer_instance

instance (len : Nat) (bs : List Boundary) : Decidable (offsetsWithin len bs) := by
  unfold offsetsWithin; infer_instance

instance (bs : List Boundary) : Decidable (wellNested bs) := by
  unfold wellNested; infer_instance

/-! ## Colours -/

/-- The constant `tarpColor`. -/
def tarpColor : List Char := "rgb(252, 242, 106)".toList

/-- The three local variables `r`, `g`, `b` of `rgb`. -/
def rgbGradient (n : Int) : Int × Int × Int :=
  (wrap64 (128 - wrap64 (12 * wrap64 (n - 1))),
   wrap64 (128 + wrap64 (12 * wrap64 (n - 1))),
   wrap64 (128 + wrap64 (3 * wrap64 (n - 1))))

/-- The format `rgb(%v, %v, %v)` of `fmt.Sprintf` applied to three `int`s. -/
def fmtRGB (c : Int × Int × Int) : List Char :=
  "rgb(".toList ++ fmtInt c.1 ++ ", ".toList ++ fmtInt c.2.1 ++ ", ".toList ++ fmtInt c.2.2
    ++ ")".toList

/-- The function `rgb`: the colour of a coverage level. -/
def rgb (n : Int) : List Char :=
  if n = 0 then "rgb(192, 0, 0)".toList
  else fmtRGB (rgbGradient n)

/-- The red, green and blue channels of the colour `rgb n`. -/
def rgbChannels (n : Int) : Int × Int × Int :=
  if n = 0 then (192, 0, 0) else rgbGradient n

/-- One pass of the loop of `CSScolors`: the rule written for level `i`. -/
def covRule (i : Nat) : List Char :=
  ".cov".toList ++ fmtInt i ++ " \x7b color: ".toList ++ rgb i ++ " \x7d\n\t\t\t".toList

/-- The function `CSScolors`: the rules of the levels 0 to 10, then the rule
of the tarp class. -/
def CSScolors : List Char :=
  (List.range 11).flatMap covRule
    ++ (".".toList ++ tarpClassName ++ " \x7b color: ".toList ++ tarpColor ++ " \x7d\n".toList)

/-! ## Vocabulary for the scan of arbitrary boundary lists -/

/-- The boundaries that the scan can reach, from a list in any state: the
longest run at the head of the list whose offsets do not decrease, start at
`lo` or later and stay below `hi`. -/
def renderedRun (hi : Int) : Int → List Boundary → List Boundary
  | _, [] => []
  | lo, b :: bs =>
    if lo ≤ b.Offset ∧ b.Offset < hi then b :: renderedRun hi b.Offset bs else []

/-- The rendering that the specification describes, from offset `i` on: for
each byte in turn, the tags of all boundaries at its offset, in list order,
classified on the line of that offset, and then the escaped byte. -/
def referenceFrom (filename : String) (report : tarpReport) (src : List Char)
    (bs : List Boundary) : Nat → List Char → List Piece
  | _, [] => []
  | i, c :: cs =>
    (bs.filter (fun b => b.Offset = (i : Int))).map
        (fun b => boundaryTag filename report (lineAt src i) b)
      ++ Piece.text (escapeByte c) :: referenceFrom filename report src bs (i + 1) cs

/-- The rendering that the specification describes. -/
def referenceRendering (src : List Char) (filename : String) (bs : List Boundary)
    (report : tarpReport) : List Piece :=
  referenceFrom filename report src bs 0 src

/-! ## The coverage percentage -/

/-- The fields of `cover.ProfileBlock` that `percentCovered` reads. -/
structure ProfileBlock where
  NumStmt : Int
  Count : Int
  deriving DecidableEq

/-- The nearest integer to a rational, a tie going to the even one. -/
def roundHalfEven (y : ℚ) : Int :=
  if y - ⌊y⌋ < 1 / 2 then ⌊y⌋
  else if y - ⌊y⌋ = 1 / 2 ∧ ⌊y⌋ % 2 = 0 then ⌊y⌋
  else ⌊y⌋ + 1

/-- The `float64` nearest to a rational, a tie going to the even significand:
the value is kept to 53 significant bits.  This is the result of a `float64`
operation whose exact result is `x`, as long as that result is neither beyond
the largest `float64` nor below the smallest normal one. -/
def roundF64 (x : ℚ) : ℚ :=
  if x = 0 then 0
  else roundHalfEven (x / 2 ^ (Int.log 2 |x| - 52)) * 2 ^ (Int.log 2 |x| - 52)

/-- The loop of `percentCovered`: the `int64` accumulators `total` and
`covered` after the blocks, starting from the given values. -/
def percentSums : List ProfileBlock → Int × Int → Int × Int
  | [], acc => acc
  | b :: bs, acc =>
    percentSums bs
      (wrap64 (acc.1 + wrap64 b.NumStmt),
        if b.Count > 0 then wrap64 (acc.2 + wrap64 b.NumStmt) else acc.2)

/-- The function `percentCovered`: the value of the `float64` it returns. -/
def percentCovered (blocks : List ProfileBlock) : ℚ :=
  let s := percentSums blocks (0, 0)
  if s.1 = 0 then 0
  else roundF64 (roundF64 (roundF64 s.2 / roundF64 s.1) * 100)

/-- The sum of `NumStmt` over all blocks. -/
def totalStmts (blocks : List ProfileBlock) : Int := (blocks.map (fun b => b.NumStmt)).sum

/-- The sum of `NumStmt` over the blocks with `Count > 0`. -/
def coveredStmts (blocks : List ProfileBlock) : Int :=
  ((blocks.filter (fun b => b.Count > 0)).map (fun b => b.NumStmt)).sum

/-- The reference definition of the coverage percentage: `0` when there is
no statement, `covered / total * 100` in `float64` arithmetic otherwise. -/
def percentReference (blocks : List ProfileBlock) : ℚ :=
  if totalStmts blocks = 0 then 0
  else roundF64 (roundF64 (roundF64 (coveredStmts blocks) / roundF64 (totalStmts blocks)) * 100)

/-! ## The document template -/

/-- A `float64` as the verb `%.1f` tells values apart: a finite value, given
by its sign bit and its magnitude (the absolute value of `magnitude`), so that
the negative zero is `finite true 0`; an infinity of either sign; a NaN. -/
inductive FloatValue where
  | finite (negative : Bool) (magnitude : ℚ)
  | inf (negative : Bool)
  | nan

/-- The type `templateFile`. -/
structure templateFile where
  Name : List Char
  Body : List Char
  Coverage : FloatValue

/-- The type `templateData`. -/
structure templateData where
  Files : List templateFile
  Set : Bool

/-- The text of `tmplHTML` before the action `colors`. -/
def tmplStyle : List Char :=
  ("\n<!DOCTYPE html>\n" ++
    "<html>\n" ++
    "\t<head>\n" ++
    "\t\t<meta http-equiv=\"Content-Type\" content=\"text/html; charset=utf-8\">\n" ++
    "\t\t<style>\n" ++
    "\t\t\tbody \x7b\n" ++
    "\t\t\t\tbackground: black;\n" ++
    "\t\t\t\tcolor: rgb(80, 80, 80);\n" ++
    "\t\t\t\x7d\n" ++
    "\t\t\tbody, pre, #legend span \x7b\n" ++
    "\t\t\t\tfont-family: Menlo, monospace;\n" ++
    "\t\t\t\tfont-weight: bold;\n" ++
    "\t\t\t\x7d\n" ++
    "\t\t\t#topbar \x7b\n" ++
    "\t\t\t\tbackground: black;\n" ++
    "\t\t\t\tposition: fixed;\n" ++
    "\t\t\t\ttop: 0; left: 0; right: 0;\n" ++
    "\t\t\t\theight: 42px;\n" ++
    "\t\t\t\tborder-bottom: 1px solid rgb(80, 80, 80);\n" ++
    "\t\t\t\x7d\n" ++
    "\t\t\t#content \x7b\n" ++
    "\t\t\t\tmargin-top: 50px;\n" ++
    "\t\t\t\x7d\n" ++
    "\t\t\t#nav, #legend \x7b\n" ++
    "\t\t\t\tfloat: left;\n" ++
    "\t\t\t\tmargin-left: 10px;\n" ++
    "\t\t\t\x7d\n" ++
    "\t\t\t#legend \x7b\n" ++
    "\t\t\t\tmargin-top: 12px;\n" ++
    "\t\t\t\x7d\n" ++
    "\t\t\t#nav \x7b\n" ++
    "\t\t\t\tmargin-top: 10px;\n" ++
    "\t\t\t\x7d\n" ++
    "\t\t\t#legend span \x7b\n" ++
    "\t\t\t\tmargin: 0 1px;\n" ++
    "\t\t\t\x7d\n" ++
    "\t\t\t").toList

/-- The text of `tmplHTML` between the action `colors` and the first `range`. -/
def tmplSelect : List Char :=
  ("\n\t\t</style>\n" ++
    "\t</head>\n" ++
    "\t<body>\n" ++
    "\t\t<div id=\"topbar\">\n" ++
    "\t\t\t<div id=\"nav\">\n" ++
    "\t\t\t\t<select id=\"files\">\n").toList

/-- The text of `tmplHTML` between the first `range` and the action `if .Set`. -/
def tmplLegend : List Char :=
  ("\n\t\t\t\t</select>\n" ++
    "\t\t\t</div>\n" ++
    "\t\t\t<div id=\"legend\">\n" ++
    "\t\t\t\t<span>not tracked</span>\n").toList

/-- The text of the branch taken when `.Set` holds. -/
def tmplLegendSet : List Char :=
  ("\n\t\t\t\t<span class=\"cov0\">not covered</span>\n" ++
    "\t\t\t\t<span class=\"cov8\">covered</span>\n").toList

/-- The text of the `else` branch of `if .Set`. -/
def tmplLegendCount : List Char :=
  ("\n\t\t\t\t<span class=\"cov0\">no coverage</span>\n" ++
    "\t\t\t\t<span class=\"cov1\">low coverage</span>\n" ++
    "\t\t\t\t<span class=\"cov2\">*</span>\n" ++
    "\t\t\t\t<span class=\"cov3\">*</span>\n" ++
    "\t\t\t\t<span class=\"cov4\">*</span>\n" ++
    "\t\t\t\t<span class=\"cov5\">*</span>\n" ++
    "\t\t\t\t<span class=\"cov6\">*</span>\n" ++
    "\t\t\t\t<span class=\"cov7\">*</span>\n" ++
    "\t\t\t\t<span class=\"cov8\">*</span>\n" ++
    "\t\t\t\t<span class=\"cov9\">*</span>\n" ++
    "\t\t\t\t<span class=\"cov10\">high coverage</span>\n").toList

/-- The text of `tmplHTML` between the action `if .Set` and the second `range`. -/
def tmplContent : List Char :=
  ("\n\t\t\t\t<span class=\"tarp-uncovered\">indirectly covered</span>\n" ++
    "\t\t\t</div>\n" ++
    "\t\t</div>\n" ++
    "\t\t<div id=\"content\">\n").toList

/-- The text of `tmplHTML` after the second `range`. -/
def tmplTail : List Char :=
  ("\n\t\t</div>\n" ++
    "\t</body>\n" ++
    "\t<script>\n" ++
    "\t(function() \x7b\n" ++
    "\t\tlet files = document.getElementById('files');\n" ++
    "\t\tlet visible = document.getElementById('file0');\n" ++
    "\t\tfiles.addEventListener('change', onChange, false);\n" ++
    "\t\tfunction onChange() \x7b\n" ++
    "\t\t\tvisible.style.display = 'none';\n" ++
    "\t\t\tvisible = document.getElementById(files.value);\n" ++
    "\t\t\tvisible.style.display = 'block';\n" ++
    "\t\t\twindow.scrollTo(0, 0);\n" ++
    "\t\t\x7d\n" ++
    "\t\x7d)();\n" ++
    "\t</script>\n" ++
    "</html>\n").toList

/-- The verb `%.1f` of `printf` applied to a `float64`: for a finite value
the sign `-` when the sign bit is set, then the magnitude rounded to the
nearest tenth, a tie going to the even digit; `NaN`, `+Inf` and `-Inf`
otherwise. -/
def fmtFixed1 : FloatValue → List Char
  | .nan => "NaN".toList
  | .inf false => "+Inf".toList
  | .inf true => "-Inf".toList
  | .finite negative magnitude =>
    (if negative then ['-'] else [])
      ++ Nat.toDigits 10 ((roundHalfEven (|magnitude| * 10)).toNat / 10)
      ++ '.' :: Nat.toDigits 10 ((roundHalfEven (|magnitude| * 10)).toNat % 10)

/-- The replacement table `htmlReplacementTable` of `html/template`, by which
a value that is not of type `template.HTML` is escaped in HTML text and in
a quoted attribute value; the NUL byte becomes the three bytes of U+FFFD. -/
def htmlEscapeByte (c : Char) : List Char :=
  if c = '\x00' then "\xef\xbf\xbd".toList
  else if c = '"' then "&#34;".toList
  else if c = '&' then "&amp;".toList
  else if c = '\'' then "&#39;".toList
  else if c = '+' then "&#43;".toList
  else if c = '<' then "&lt;".toList
  else if c = '>' then "&gt;".toList
  else [c]

/-- The escaper that `html/template` applies to the result of an action in
HTML text. -/
def htmlEscape (s : List Char) : List Char := s.flatMap htmlEscapeByte

/-- The body of the first `range` of `tmplHTML` for the file `f` of index
`i`: the text of the body with the results of its three actions. -/
def optionBody (i : Nat) (f : templateFile) : List Char :=
  "\n\t\t\t\t<option value=\"file".toList ++ htmlEscape (fmtInt i) ++ "\">".toList
    ++ htmlEscape f.Name ++ " (".toList ++ htmlEscape (fmtFixed1 f.Coverage)
    ++ "%)</option>\n".toList

/-- The body of the second `range` of `tmplHTML` for the file `f` of index
`i`; the action `if $i` holds for an index other than zero, and the `Body`,
of type `template.HTML`, is written as it is. -/
def preBody (i : Nat) (f : templateFile) : List Char :=
  "\n\t\t<pre class=\"file\" id=\"file".toList ++ htmlEscape (fmtInt i) ++ "\" ".toList
    ++ (if i = 0 then [] else "style=\"display: none\"".toList)
    ++ ">".toList ++ f.Body ++ "</pre>\n".toList

/-- The action `range $i, $f := .Files`: the body for each file in turn, with
its index, counted from `i`. -/
def rangeFiles (body : Nat → templateFile → List Char) : Nat → List templateFile → List Char
  | _, [] => []
  | i, f :: fs => body i f ++ rangeFiles body (i + 1) fs

/-- The document that `htmlTemplate.Execute` writes for the data `d`. -/
def htmlTemplateExecute (d : templateData) : List Char :=
  tmplStyle ++ CSScolors ++ tmplSelect ++ rangeFiles optionBody 0 d.Files ++ tmplLegend
    ++ (if d.Set then tmplLegendSet else tmplLegendCount)
    ++ tmplContent ++ rangeFiles preBody 0 d.Files ++ tmplTail

/-! ## Vocabulary for the elements of the document -/

/-- The places of a text at which the pattern starts, in order, each given as
the text from that place on. -/
def tailsWith (pat : List Char) : List Char → List (List Char)
  | [] => []
  | c :: cs =>
    if pat.isPrefixOf (c :: cs) then (c :: cs) :: tailsWith pat cs else tailsWith pat cs

/-- No end of the text is the start of an unfinished occurrence of the
pattern: an occurrence that starts in the text ends in it. -/
def settled (pat : List Char) : List Char → Bool
  | [] => true
  | c :: cs => (!(c :: cs).isPrefixOf pat || pat.isPrefixOf (c :: cs)) && settled pat cs

/-- The text holds no occurrence of the pattern, whole or unfinished. -/
def quiet (pat s : List Char) : Bool := settled pat s && (tailsWith pat s).isEmpty

/-- The markup of the label of the file `f`: the name and the coverage to one
decimal place, both escaped. -/
def optionLabel (f : templateFile) : List Char :=
  htmlEscape f.Name ++ " (".toList ++ htmlEscape (fmtFixed1 f.Coverage) ++ "%)".toList

/-- The `option` element of the file `f` of index `n`: its value is
`file{n}`. -/
def optionElement (n : Nat) (f : templateFile) : List Char :=
  "<option value=\"file".toList ++ fmtInt n ++ "\">".toList ++ optionLabel f
    ++ "</option>".toList

/-- The start tag of the `pre` block of index `n`: its id is `file{n}`, and
it is hidden unless `n` is zero. -/
def preTag (n : Nat) : List Char :=
  if n = 0 then "<pre class=\"file\" id=\"file0\" >".toList
  else "<pre class=\"file\" id=\"file".toList ++ fmtInt n
    ++ "\" style=\"display: none\">".toList

/-- The start tag carries the attribute `style="display: none"`. -/
def hiddenTag (tag : List Char) : Bool :=
  stringsContains tag "style=\"display: none\"".toList

/-- The `pre` block of the file `f` of index `n`. -/
def preElement (n : Nat) (f : templateFile) : List Char :=
  preTag n ++ f.Body ++ "</pre>".toList

/-- The text that a character reference stands for, given the text between
its `&` and its `;`. -/
def entityText (name : List Char) : List Char :=
  if name = "amp".toList then ['&']
  else if name = "lt".toList then ['<']
  else if name = "gt".toList then ['>']
  else if name = "#34".toList then ['"']
  else if name = "#39".toList then ['\'']
  else if name = "#43".toList then ['+']
  else '&' :: (name ++ [';'])

/-- The text that HTML markup without tags stands for: every character
reference is replaced by its character; `pending` holds, in reverse, the
bytes read since an `&` that is not closed yet. -/
def decodeFrom : Option (List Char) → List Char → List Char
  | none, [] => []
  | some acc, [] => '&' :: acc.reverse
  | none, c :: cs => if c = '&' then decodeFrom (some []) cs else c :: decodeFrom none cs
  | some acc, c :: cs =>
    if c = ';' then entityText acc.reverse ++ decodeFrom none cs
    else decodeFrom (some (c :: acc)) cs

/-- The text that HTML markup without tags stands for. -/
def decodeText (s : List Char) : List Char := decodeFrom none s

/-! ## The level of a start boundary -/

theorem wrap64_small (x : Int) (h1 : -2 ^ 63 ≤ x) (h2 : x < 2 ^ 63) : wrap64 x = x := by
  unfold wrap64
  norm_num at h1 h2 ⊢
  omega

theorem toInt64_small (f : Int) (h1 : -2 ^ 63 ≤ f) (h2 : f < 2 ^ 63) : toInt64 f = f := by
  unfold toInt64
  rw [if_pos ⟨h1, h2⟩]

/-- The level of an executed boundary is `floor(Norm*9) + 1` when neither the
conversion to `int` nor the addition leaves the range of `int`. -/
theorem coverLevel_of_small (b : Boundary) (hc : 0 < b.Count)
    (h1 : -2 ^ 63 ≤ floorInt (mulNine b.Norm))
    (h2 : floorInt (mulNine b.Norm) + 1 < 2 ^ 63) :
    coverLevel b = floorInt (mulNine b.Norm) + 1 := by
  unfold coverLevel
  rw [if_pos hc, toInt64_small _ h1 (by omega), wrap64_small _ (by omega) h2]

theorem excessBits_le (x : Nat) : excessBits x ≤ 4 := by
  unfold excessBits; split_ifs <;> omega

theorem excessBits_pos_imp (x : Nat) (h : 0 < excessBits x) : 2 ^ 53 ≤ x := by
  unfold excessBits at h; split_ifs at h <;> omega

/-- The shift chosen for the ninefold of a 53-bit significand leaves exactly 53
significant bits when a shift is needed, and fewer when none is. -/
theorem excessBits_spec (x : Nat) (h : x < 2 ^ 57) :
    x / 2 ^ excessBits x < 2 ^ 53 ∧ (0 < excessBits x → 2 ^ 52 ≤ x / 2 ^ excessBits x) := by
  unfold excessBits
  split_ifs <;> norm_num at * <;> omega

/-- Rounding at shift `s` against a bound `2^s * K`: the arithmetic core. -/
theorem roundShift_core (M K s : Nat) (hs : s = excessBits (9 * M)) (hK : 0 < K)
    (hM : M ≤ 2 ^ s * K) :
    roundShift (9 * M) s < 10 * K ∧ (9 * K ≤ roundShift (9 * M) s ↔ M = 2 ^ s * K) := by
  have h4 := excessBits_le (9 * M)
  rw [← hs] at h4
  have hcases : s = 0 ∨ s = 1 ∨ s = 2 ∨ s = 3 ∨ s = 4 := by omega
  rcases hcases with h | h | h | h | h <;> subst h <;>
    simp only [roundShift] <;> norm_num at hM ⊢ <;> split_ifs <;> omega

/-- A significand that needs rounding after the multiplication by 9 belongs to
a value with exponent at most `-50` when that value is at most 1. -/
theorem excessBits_lt_exp (M k : Nat) (hk : 1 ≤ k) (hM : M ≤ 2 ^ k) :
    excessBits (9 * M) < k := by
  by_cases h0 : excessBits (9 * M) = 0
  · omega
  · have h53 := excessBits_pos_imp (9 * M) (Nat.pos_of_ne_zero h0)
    have h4 := excessBits_le (9 * M)
    by_contra hlt
    have hk4 : k ≤ 4 := by omega
    have : 2 ^ k ≤ 2 ^ 4 := Nat.pow_le_pow_right (by norm_num) hk4
    norm_num at this h53
    omega

theorem floorInt_mulNine_neg (M k : Nat) (hpos : 0 < M) (hk : 1 ≤ k) (hM : M ≤ 2 ^ k)
    (hlt : M < 2 ^ 53) :
    ∃ r : Nat, floorInt (mulNine ⟨(M : Int), -(k : Int), by simpa using hlt⟩) = (r : Int) ∧
      r ≤ 9 ∧ (r = 9 ↔ M = 2 ^ k) := by
  have hsk := excessBits_lt_exp M k hk hM
  obtain ⟨j, hj⟩ : ∃ j, k = excessBits (9 * M) + j := ⟨k - excessBits (9 * M), by omega⟩
  have hjpos : 0 < j := by omega
  have hK : 0 < 2 ^ j := Nat.pos_pow_of_pos _ (by norm_num)
  have hM2 : M ≤ 2 ^ (excessBits (9 * M)) * 2 ^ j := by rw [← pow_add, ← hj]; exact hM
  obtain ⟨hlt10, hiff⟩ := roundShift_core M (2 ^ j) _ rfl hK hM2
  refine ⟨roundShift (9 * M) (excessBits (9 * M)) / 2 ^ j, ?_, ?_, ?_⟩
  · have hsign : (M : Int).sign = 1 := Int.sign_eq_one_of_pos (by exact_mod_cast hpos)
    have hex : ¬ (0 : Int) ≤ -(k : Int) + (excessBits (9 * M) : Int) := by omega
    have hto : (-(-(k : Int) + (excessBits (9 * M) : Int))).toNat = j := by omega
    simp only [floorInt, mulNine, Int.natAbs_ofNat, hsign, one_mul, hex, if_false, hto]
    norm_cast
  · have := (Nat.div_lt_iff_lt_mul hK).2 hlt10
    omega
  · rw [← pow_add, ← hj] at hiff
    rw [← hiff]
    constructor
    · intro h
      have := Nat.div_mul_le_self (roundShift (9 * M) (excessBits (9 * M))) (2 ^ j)
      rw [h] at this
      exact this
    · intro h
      have h1 := (Nat.le_div_iff_mul_le hK).2 h
      have h2 := (Nat.div_lt_iff_lt_mul hK).2 hlt10
      omega

theorem Float64.mant_nonneg (x : Float64) (h0 : 0 ≤ x.toRat) : 0 ≤ x.mant := by
  have hpos : (0 : ℚ) < (2 : ℚ) ^ x.exp := zpow_pos (by norm_num) _
  unfold Float64.toRat at h0
  have := (mul_nonneg_iff_of_pos_right hpos).1 h0
  exact_mod_cast this

theorem floor_mulNine (x : Float64) (h0 : 0 ≤ x.toRat) (h1 : x.toRat ≤ 1) :
    0 ≤ floorInt (mulNine x) ∧ floorInt (mulNine x) ≤ 9 ∧
      (floorInt (mulNine x) = 9 ↔ x.toRat = 1) := by
  have hm := x.mant_nonneg h0
  obtain ⟨m, e, hlt⟩ := x
  simp only at hm
  obtain ⟨M, rfl⟩ := Int.eq_ofNat_of_zero_le hm
  have hlt2 : M < 2 ^ 53 := by simpa using hlt
  rcases Nat.eq_zero_or_pos M with rfl | hpos
  · have : floorInt (mulNine ⟨((0 : Nat) : Int), e, hlt⟩) = 0 := by
      simp [floorInt, mulNine, excessBits, roundShift]
    rw [this]
    simp [Float64.toRat]
  · rcases le_or_lt 0 e with he | he
    · obtain ⟨j, rfl⟩ := Int.eq_ofNat_of_zero_le he
      have h1n : M * 2 ^ j ≤ 1 := by
        have : ((M : Int) : ℚ) * (2 : ℚ) ^ ((j : Int)) ≤ 1 := h1
        rw [zpow_natCast] at this
        exact_mod_cast this
      have hp : 1 ≤ 2 ^ j := Nat.one_le_two_pow
      have hM1 : M = 1 := by nlinarith
      subst hM1
      have hj : j = 0 := by
        by_contra hne
        have : 2 ^ 1 ≤ 2 ^ j := Nat.pow_le_pow_right (by norm_num) (Nat.pos_of_ne_zero hne)
        omega
      subst hj
      have : floorInt (mulNine ⟨((1 : Nat) : Int), ((0 : Nat) : Int), hlt⟩) = 9 := by
        simp [floorInt, mulNine, excessBits, roundShift]
      rw [this]
      simp [Float64.toRat]
    · obtain ⟨k, rfl⟩ : ∃ k : Nat, e = -(k : Int) := ⟨(-e).toNat, by omega⟩
      have hk : 1 ≤ k := by omega
      have hrat : (⟨(M : Int), -(k : Int), hlt⟩ : Float64).toRat = (M : ℚ) / 2 ^ k := by
        simp [Float64.toRat, zpow_neg, div_eq_mul_inv]
      have h2pos : (0 : ℚ) < 2 ^ k := by positivity
      have hM : M ≤ 2 ^ k := by
        rw [hrat, div_le_one h2pos] at h1
        exact_mod_cast h1
      obtain ⟨r, hr, hr9, hiff⟩ := floorInt_mulNine_neg M k hpos hk hM hlt2
      rw [hr, hrat, div_eq_one_iff_eq (ne_of_gt h2pos)]
      refine ⟨by omega, by omega, ?_⟩
      constructor
      · intro h
        have : r = 9 := by omega
        exact_mod_cast hiff.1 this
      · intro h
        have : M = 2 ^ k := by exact_mod_cast h
        have := hiff.2 this
        omega

theorem floorInt_eq_floor (v : Int × Int) : floorInt v = ⌊pairValue v⌋ := by
  obtain ⟨m, e⟩ := v
  unfold floorInt pairValue
  simp only
  split_ifs with he
  · obtain ⟨j, rfl⟩ := Int.eq_ofNat_of_zero_le he
    have : ((m : ℚ) * (2 : ℚ) ^ ((j : Int))) = ((m * 2 ^ j : Int) : ℚ) := by
      rw [zpow_natCast]; push_cast; ring
    rw [this, Int.floor_intCast]
    simp
  · obtain ⟨k, rfl⟩ : ∃ k : Nat, e = -(k : Int) := ⟨(-e).toNat, by omega⟩
    have : ((m : ℚ) * (2 : ℚ) ^ (-(k : Int))) = (m : ℚ) / ((2 ^ k : Nat) : ℚ) := by
      rw [zpow_neg, zpow_natCast, div_eq_mul_inv]; push_cast; ring
    rw [this, Rat.floor_intCast_div_natCast]
    simp

/-- The product is rounded: for the `float64` just below `1/3` the product
`Norm*9` rounds to `3`, so the level is `4`. -/
theorem coverLevel_rounding_example :
    coverLevel ⟨0, true, 1, ⟨0x15555555555555, -54, by decide⟩⟩ = 4 := by decide

theorem coverLevel_bounds (b : Boundary) (hc : 0 < b.Count) (h0 : 0 ≤ b.Norm.toRat)
    (h1 : b.Norm.toRat ≤ 1) :
    1 ≤ coverLevel b ∧ coverLevel b ≤ 10 ∧ (coverLevel b = 10 ↔ b.Norm.toRat = 1) := by
  obtain ⟨hlo, hhi, hiff⟩ := floor_mulNine b.Norm h0 h1
  have hn : coverLevel b = floorInt (mulNine b.Norm) + 1 :=
    coverLevel_of_small b hc (by omega) (by omega)
  rw [hn]
  refine ⟨by omega, by omega, ?_⟩
  rw [← hiff]
  omega

theorem fmtInt_of_nonneg (c : Int) (h : 0 ≤ c) : fmtInt c = Nat.toDigits 10 c.toNat := by
  obtain ⟨n, rfl⟩ := Int.eq_ofNat_of_zero_le h
  rfl

theorem cov_ne_tarp (s : List Char) : "cov".toList ++ s ≠ tarpClassName := by
  intro h
  have h2 : 'c' :: 'o' :: 'v' :: s = 't' :: "arp-uncovered".toList := h
  injection h2 with hc _
  exact absurd hc (by decide)

theorem openTag_not_found (filename : String) (report : tarpReport) (currentLine : Int)
    (b : Boundary)
    (h : (relevantFunc filename report.DeclaredDetails currentLine).Name = "") :
    openTag filename report currentLine b
      = .openSpan ("cov".toList ++ fmtInt (coverLevel b)) (fmtInt b.Count) := by
  simp [openTag, h]

theorem openTag_of_uncalled (filename : String) (report : tarpReport) (currentLine : Int) (b : Boundary)
    (hc : 0 < b.Count) (h0 : 0 ≤ b.Norm.toRat) (h1 : b.Norm.toRat ≤ 1)
    (hname : (relevantFunc filename report.DeclaredDetails currentLine).Name ≠ "")
    (habsent : (relevantFunc filename report.DeclaredDetails currentLine).Name ∉ report.Called) :
    openTag filename report currentLine b = .openSpan tarpClassName (fmtInt b.Count) := by
  have hn := (coverLevel_bounds b hc h0 h1).1
  have hpos : coverLevel b > 0 := by omega
  simp [openTag, tarpReport.calledHas, hname, habsent, hpos]

theorem coverLevel_range (b : Boundary) (hc : 0 ≤ b.Count) (h0 : 0 ≤ b.Norm.toRat)
    (h1 : b.Norm.toRat ≤ 1) : 0 ≤ coverLevel b ∧ coverLevel b ≤ 10 := by
  rcases eq_or_lt_of_le hc with h | h
  · have : coverLevel b = 0 := by simp [coverLevel, ← h]
    omega
  · have := coverLevel_bounds b h h0 h1
    omega

/-! ## The scan -/

section Scan

variable (filename : String) (report : tarpReport)

theorem drain_of_ne (line : Int) (i : Nat) (b : Boundary) (bs : List Boundary)
    (h : b.Offset ≠ (i : Int)) : drain filename report line i (b :: bs) = ([], b :: bs) := by
  simp [drain, h]

theorem scan_nil_boundaries (line : Int) (i : Nat) (src : List Char) :
    scan filename report line i src [] = textPieces src := by
  induction src generalizing line i with
  | nil => rfl
  | cons c cs ih => simp [scan, drain, textPieces, ih]

theorem scan_cons (line : Int) (i : Nat) (c : Char) (cs : List Char) (bs : List Boundary) :
    scan filename report line i (c :: cs) bs
      = (drain filename report line i bs).1 ++ Piece.text (escapeByte c) ::
          scan filename report (if c = '\n' then line + 1 else line) (i + 1) cs
            (drain filename report line i bs).2 := rfl

theorem scan_cons_eq (line : Int) (i : Nat) (c : Char) (cs : List Char) (b : Boundary)
    (bs : List Boundary) (h : b.Offset = (i : Int)) :
    scan filename report line i (c :: cs) (b :: bs)
      = boundaryTag filename report line b :: scan filename report line i (c :: cs) bs := by
  simp [scan, drain, h]

theorem lineAfter_nil (line : Int) : lineAfter line [] = line := by simp [lineAfter]

theorem lineAfter_cons (line : Int) (c : Char) (cs : List Char) :
    lineAfter line (c :: cs) = lineAfter (if c = '\n' then line + 1 else line) cs := by
  unfold lineAfter
  by_cases h : c = '\n'
  · subst h; simp; ring
  · have : ('\n' == c) = false := by simpa using fun h2 => h h2.symm
    simp [h, List.count_cons, this]

theorem lineAfter_append (line : Int) (xs ys : List Char) :
    lineAfter line (xs ++ ys) = lineAfter (lineAfter line xs) ys := by
  simp [lineAfter, List.count_append]; ring

/-- The scan writes plain text up to the offset of the head boundary. -/
theorem scan_text_run (line : Int) (i : Nat) (pre rest : List Char) (b : Boundary)
    (bs : List Boundary) (h : b.Offset = ((i + pre.length : Nat) : Int)) :
    scan filename report line i (pre ++ rest) (b :: bs)
      = textPieces pre
          ++ scan filename report (lineAfter line pre) (i + pre.length) rest (b :: bs) := by
  induction pre generalizing line i with
  | nil => simp [textPieces, lineAfter_nil]
  | cons c cs ih =>
    have hne : b.Offset ≠ (i : Int) := by simp at h; omega
    have h2 : b.Offset = (((i + 1) + cs.length : Nat) : Int) := by simp at h ⊢; omega
    rw [List.cons_append, scan_cons, drain_of_ne filename report line i b bs hne]
    simp only [List.nil_append]
    rw [ih _ (i + 1) h2, lineAfter_cons]
    simp [textPieces, Nat.add_assoc, Nat.add_comm 1]

theorem textOf_textPieces (cs : List Char) : textOf (textPieces cs) = escape cs := by
  induction cs with
  | nil => rfl
  | cons c cs ih =>
    simp only [textOf, textPieces, escape, List.map_cons, List.flatMap_cons] at ih ⊢
    rw [ih]; rfl

theorem tagsOf_textPieces (cs : List Char) : tagsOf (textPieces cs) = [] := by
  induction cs with
  | nil => rfl
  | cons c cs ih =>
    simp only [tagsOf, textPieces, List.map_cons] at ih ⊢
    rw [List.filter_cons_of_neg (by simp [Piece.isTag])]
    exact ih

theorem textOf_append (ps qs : List Piece) : textOf (ps ++ qs) = textOf ps ++ textOf qs := by
  simp [textOf]

theorem tagsOf_append (ps qs : List Piece) : tagsOf (ps ++ qs) = tagsOf ps ++ tagsOf qs := by
  simp [tagsOf]

theorem escape_append (xs ys : List Char) : escape (xs ++ ys) = escape xs ++ escape ys := by
  simp [escape]

theorem boundaryTag_isTag (line : Int) (b : Boundary) :
    (boundaryTag filename report line b).isTag = true := by
  unfold boundaryTag openTag
  simp only
  split_ifs <;> rfl

theorem textBytes_boundaryTag (line : Int) (b : Boundary) :
    (boundaryTag filename report line b).textBytes = [] := by
  unfold boundaryTag openTag
  simp only
  split_ifs <;> rfl

theorem textOf_tag_cons (line : Int) (b : Boundary) (ps : List Piece) :
    textOf (boundaryTag filename report line b :: ps) = textOf ps := by
  simp [textOf, textBytes_boundaryTag]

theorem tagsOf_tag_cons (line : Int) (b : Boundary) (ps : List Piece) :
    tagsOf (boundaryTag filename report line b :: ps)
      = boundaryTag filename report line b :: tagsOf ps := by
  simp [tagsOf, boundaryTag_isTag]

/-- The scan up to and including the tag of the head boundary. -/
theorem scan_step (line : Int) (i k : Nat) (src : List Char) (b : Boundary)
    (bs : List Boundary) (hk : k < src.length) (h : b.Offset = ((i + k : Nat) : Int)) :
    scan filename report line i src (b :: bs)
      = textPieces (src.take k)
          ++ boundaryTag filename report (lineAfter line (src.take k)) b
            :: scan filename report (lineAfter line (src.take k)) (i + k) (src.drop k) bs := by
  have hlen : (src.take k).length = k := by simp; omega
  have hsplit : src = src.take k ++ src.drop k := (List.take_append_drop k src).symm
  have h2 : b.Offset = ((i + (src.take k).length : Nat) : Int) := by rw [hlen]; exact h
  conv_lhs => rw [hsplit]
  rw [scan_text_run filename report line i _ _ b bs h2, hlen]
  obtain ⟨c, cs, hcs⟩ : ∃ c cs, src.drop k = c :: cs := by
    cases hd : src.drop k with
    | nil => simp at hd; omega
    | cons c cs => exact ⟨c, cs, rfl⟩
  rw [hcs, scan_cons_eq filename report _ _ c cs b bs h]

theorem take_split (src : List Char) (ka kb : Nat) (h : ka ≤ kb) :
    src.take kb = src.take ka ++ (src.drop ka).take (kb - ka) := by
  have : kb = ka + (kb - ka) := by omega
  conv_lhs => rw [this, List.take_add]

theorem drop_split (src : List Char) (ka kb : Nat) (h : ka ≤ kb) :
    (src.drop ka).drop (kb - ka) = src.drop kb := by
  rw [List.drop_drop]
  congr 1
  omega

theorem lineAfter_split (line : Int) (src : List Char) (ka kb : Nat) (h : ka ≤ kb) :
    lineAfter (lineAfter line (src.take ka)) ((src.drop ka).take (kb - ka))
      = lineAfter line (src.take kb) := by
  rw [take_split src ka kb h, lineAfter_append]

/-- The scan of an offset-ordered run of boundaries that lie within the source:
everything written before the tag of the boundary `b` that follows the run
`pre`, then that tag, then the scan resumed at the offset of `b`. -/
theorem scan_split (pre : List Boundary) :
    ∀ (line : Int) (i : Nat) (src : List Char) (b : Boundary) (rest : List Boundary),
      offsetOrdered (pre ++ [b]) →
      (∀ a ∈ pre ++ [b], (i : Int) ≤ a.Offset ∧ a.Offset < ((i + src.length : Nat) : Int)) →
      ∃ P : List Piece,
        scan filename report line i src (pre ++ b :: rest)
          = P ++ boundaryTag filename report (lineAfter line (src.take (b.Offset.toNat - i))) b
              :: scan filename report (lineAfter line (src.take (b.Offset.toNat - i)))
                  b.Offset.toNat (src.drop (b.Offset.toNat - i)) rest ∧
        textOf P = escape (src.take (b.Offset.toNat - i)) ∧
        tagsOf P = pre.map (fun a =>
          boundaryTag filename report (lineAfter line (src.take (a.Offset.toNat - i))) a) := by
  induction pre with
  | nil =>
    intro line i src b rest _ hin
    have hb := hin b (by simp)
    have hk : b.Offset.toNat - i < src.length := by omega
    have h : b.Offset = ((i + (b.Offset.toNat - i) : Nat) : Int) := by omega
    have hi : i + (b.Offset.toNat - i) = b.Offset.toNat := by omega
    refine ⟨textPieces (src.take (b.Offset.toNat - i)), ?_, textOf_textPieces _, ?_⟩
    · rw [List.nil_append, scan_step filename report line i _ src b rest hk h, hi]
    · rw [tagsOf_textPieces]; rfl
  | cons a pre ih =>
    intro line i src b rest hord hin
    have ha := hin a (by simp)
    have hka : a.Offset.toNat - i < src.length := by omega
    have h : a.Offset = ((i + (a.Offset.toNat - i) : Nat) : Int) := by omega
    have hord2 : offsetOrdered (pre ++ [b]) := (List.pairwise_cons.1 hord).2
    have hle : ∀ a' ∈ pre ++ [b], a.Offset ≤ a'.Offset := (List.pairwise_cons.1 hord).1
    have hin2 : ∀ a' ∈ pre ++ [b],
        ((i + (a.Offset.toNat - i) : Nat) : Int) ≤ a'.Offset ∧
          a'.Offset < (((i + (a.Offset.toNat - i)) + (src.drop (a.Offset.toNat - i)).length
            : Nat) : Int) := by
      intro a' ha'
      have h1 := hle a' ha'
      have h2 := hin a' (by simp at ha' ⊢; tauto)
      simp only [List.length_drop]
      omega
    obtain ⟨P', hscan, htext, htags⟩ :=
      ih (lineAfter line (src.take (a.Offset.toNat - i))) (i + (a.Offset.toNat - i))
        (src.drop (a.Offset.toNat - i)) b rest hord2 hin2
    have hsub : ∀ a' ∈ pre ++ [b],
        a'.Offset.toNat - (i + (a.Offset.toNat - i)) = (a'.Offset.toNat - i) - (a.Offset.toNat - i)
          ∧ a.Offset.toNat - i ≤ a'.Offset.toNat - i := by
      intro a' ha'
      have h1 := hle a' ha'
      omega
    have hb := hsub b (by simp)
    rw [hb.1, lineAfter_split line src _ _ hb.2, drop_split src _ _ hb.2] at hscan
    refine ⟨textPieces (src.take (a.Offset.toNat - i))
      ++ boundaryTag filename report (lineAfter line (src.take (a.Offset.toNat - i))) a :: P',
      ?_, ?_, ?_⟩
    · rw [List.cons_append, scan_step filename report line i _ src a _ hka h, hscan]
      simp
    · rw [textOf_append, textOf_tag_cons, textOf_textPieces, htext, hb.1,
        take_split src _ _ hb.2, escape_append]
    · rw [tagsOf_append, tagsOf_textPieces, List.nil_append, tagsOf_tag_cons, htags,
        List.map_cons]
      congr 1
      apply List.map_congr_left
      intro a' ha'
      have h' := hsub a' (by simp [ha'])
      rw [h'.1, lineAfter_split line src _ _ h'.2]

theorem htmlGenPieces_split (src : List Char) (pre : List Boundary) (b : Boundary)
    (rest : List Boundary) (hord : offsetOrdered (pre ++ [b]))
    (hin : offsetsWithin src.length (pre ++ [b])) :
    ∃ P : List Piece,
      htmlGenPieces src filename (pre ++ b :: rest) report
        = P ++ boundaryTag filename report (lineAt src b.Offset.toNat) b
            :: scan filename report (lineAt src b.Offset.toNat) b.Offset.toNat
                (src.drop b.Offset.toNat) rest ∧
      textOf P = escape (src.take b.Offset.toNat) ∧
      tagsOf P = pre.map (fun a => boundaryTag filename report (lineAt src a.Offset.toNat) a) := by
  have hin2 : ∀ a ∈ pre ++ [b],
      ((0 : Nat) : Int) ≤ a.Offset ∧ a.Offset < ((0 + src.length : Nat) : Int) := by
    intro a ha
    have := hin a ha
    simpa using this
  obtain ⟨P, h1, h2, h3⟩ := scan_split filename report pre 1 0 src b rest hord hin2
  exact ⟨P, h1, h2, h3⟩

/-- The generated tags are the tags of all boundaries, in list order, each
classified at the line of its offset. -/
theorem tagsOf_htmlGenPieces (src : List Char) (bs : List Boundary)
    (hord : offsetOrdered bs) (hin : offsetsWithin src.length bs) :
    tagsOf (htmlGenPieces src filename bs report)
      = bs.map (fun a => boundaryTag filename report (lineAt src a.Offset.toNat) a) := by
  rcases List.eq_nil_or_concat bs with rfl | ⟨pre, b, hbs⟩
  · simp [htmlGenPieces, scan_nil_boundaries, tagsOf_textPieces]
  · rw [List.concat_eq_append] at hbs
    subst hbs
    obtain ⟨P, h1, -, h3⟩ := htmlGenPieces_split filename report src pre b [] hord hin
    rw [h1, tagsOf_append, tagsOf_tag_cons, scan_nil_boundaries, tagsOf_textPieces, h3]
    simp

theorem textOf_drain (line : Int) (i : Nat) (bs : List Boundary) :
    textOf (drain filename report line i bs).1 = [] := by
  induction bs with
  | nil => rfl
  | cons b bs ih =>
    unfold drain
    split_ifs with h
    · simp only [textOf_tag_cons]; exact ih
    · rfl

/-- Removing the generated tags from the output leaves the escaped source. -/
theorem textOf_scan (line : Int) (i : Nat) (src : List Char) (bs : List Boundary) :
    textOf (scan filename report line i src bs) = escape src := by
  induction src generalizing line i bs with
  | nil => rfl
  | cons c cs ih =>
    rw [scan_cons, textOf_append, textOf_drain, List.nil_append]
    simp only [textOf, List.flatMap_cons, Piece.textBytes] at ih ⊢
    rw [ih]
    rfl

theorem nestedFrom_count (bs : List Boundary) :
    ∀ d : Nat, nestedFrom d bs = true →
      bs.countP (fun b => !b.Start) = bs.countP (fun b => b.Start) + d := by
  induction bs with
  | nil => intro d h; simp [nestedFrom] at h; simp [h]
  | cons b bs ih =>
    intro d h
    unfold nestedFrom at h
    by_cases hs : b.Start = true
    · rw [if_pos hs] at h
      have := ih (d + 1) h
      simp [List.countP_cons, hs] at this ⊢
      omega
    · rw [if_neg hs] at h
      cases d with
      | zero => simp at h
      | succ d =>
        have := ih d h
        simp [List.countP_cons, hs] at this ⊢
        omega

theorem countP_isOpen_tagsOf (ps : List Piece) :
    ps.countP Piece.isOpen = (tagsOf ps).countP Piece.isOpen := by
  induction ps with
  | nil => rfl
  | cons p ps ih =>
    cases p <;> simp [tagsOf, List.countP_cons, Piece.isOpen, Piece.isTag, List.filter_cons] at ih ⊢ <;>
      omega

theorem countP_isClose_tagsOf (ps : List Piece) :
    ps.countP Piece.isClose = (tagsOf ps).countP Piece.isClose := by
  induction ps with
  | nil => rfl
  | cons p ps ih =>
    cases p <;> simp [tagsOf, List.countP_cons, Piece.isClose, Piece.isTag, List.filter_cons] at ih ⊢ <;>
      omega

theorem isOpen_boundaryTag (line : Int) (b : Boundary) :
    (boundaryTag filename report line b).isOpen = b.Start := by
  unfold boundaryTag openTag
  simp only
  split_ifs <;> simp_all [Piece.isOpen]

theorem isClose_boundaryTag (line : Int) (b : Boundary) :
    (boundaryTag filename report line b).isClose = !b.Start := by
  unfold boundaryTag openTag
  simp only
  split_ifs <;> simp_all [Piece.isClose]

/-- For an offset-ordered, well-nested boundary list within the source, as many
opening tags are written as closing tags. -/
theorem countP_open_eq_close (src : List Char) (bs : List Boundary)
    (hord : offsetOrdered bs) (hin : offsetsWithin src.length bs) (hnest : wellNested bs) :
    (htmlGenPieces src filename bs report).countP Piece.isOpen
      = (htmlGenPieces src filename bs report).countP Piece.isClose := by
  rw [countP_isOpen_tagsOf, countP_isClose_tagsOf,
    tagsOf_htmlGenPieces filename report src bs hord hin, List.countP_map, List.countP_map]
  have h := nestedFrom_count bs 0 hnest
  have e1 : (Piece.isOpen ∘ fun a => boundaryTag filename report (lineAt src a.Offset.toNat) a)
      = fun b => b.Start := by
    funext a; simp [isOpen_boundaryTag]
  have e2 : (Piece.isClose ∘ fun a => boundaryTag filename report (lineAt src a.Offset.toNat) a)
      = fun b => !b.Start := by
    funext a; simp [isClose_boundaryTag]
  rw [e1, e2, h]
  rfl

theorem render_textPieces (cs : List Char) :
    ((textPieces cs).map Piece.render).flatten = escape cs := by
  induction cs with
  | nil => rfl
  | cons c cs ih =>
    simp only [textPieces, escape, List.map_cons, List.flatten_cons, List.flatMap_cons] at ih ⊢
    rw [ih]; rfl

/-! ## Escaping -/

theorem escapeByte_not_mem (c : Char) : '<' ∉ escapeByte c ∧ '>' ∉ escapeByte c := by
  unfold escapeByte
  split_ifs with h1 h2 h3 h4
  · decide
  · decide
  · decide
  · decide
  · simp only [List.mem_singleton]
    exact ⟨fun h => h2 h.symm, fun h => h1 h.symm⟩

theorem escape_not_mem (src : List Char) : '<' ∉ escape src ∧ '>' ∉ escape src := by
  induction src with
  | nil => simp [escape]
  | cons c cs ih =>
    have h := escapeByte_not_mem c
    simp only [escape, List.flatMap_cons, List.mem_append, not_or] at ih ⊢
    exact ⟨⟨h.1, ih.1⟩, ⟨h.2, ih.2⟩⟩

theorem ampersandsEscaped_append_plain (e t : List Char) (he : '&' ∉ e)
    (ht : ampersandsEscaped t) : ampersandsEscaped (e ++ t) := by
  intro pre post h
  rcases List.append_eq_append_iff.1 h with ⟨a, rfl, h2⟩ | ⟨c, rfl, h2⟩
  · exact ht a post h2
  · cases c with
    | nil => exact ht [] post (by simpa using h2.symm)
    | cons x xs =>
      simp only [List.cons_append, List.cons.injEq] at h2
      exact absurd (by rw [← h2.1]; simp) he

theorem ampersandsEscaped_entity (tail t : List Char) (hne : '&' ∉ tail)
    (hent : ∀ post, tail <+: post → entityFollows post) (ht : ampersandsEscaped t) :
    ampersandsEscaped ('&' :: tail ++ t) := by
  intro pre post h
  cases pre with
  | nil =>
    simp only [List.nil_append, List.cons_append, List.cons.injEq, true_and] at h
    exact hent post ⟨t, h⟩
  | cons x xs =>
    simp only [List.cons_append, List.cons.injEq] at h
    exact ampersandsEscaped_append_plain tail t hne ht xs post h.2

theorem ampersandsEscaped_escape (src : List Char) : ampersandsEscaped (escape src) := by
  induction src with
  | nil => intro pre post h; simp [escape] at h
  | cons c cs ih =>
    have hsplit : escape (c :: cs) = escapeByte c ++ escape cs := rfl
    rw [hsplit]
    unfold escapeByte
    split_ifs with h1 h2 h3 h4
    · exact ampersandsEscaped_entity "gt;".toList _ (by decide)
        (fun post hp => Or.inr (Or.inl hp)) ih
    · exact ampersandsEscaped_entity "lt;".toList _ (by decide)
        (fun post hp => Or.inl hp) ih
    · exact ampersandsEscaped_entity "amp;".toList _ (by decide)
        (fun post hp => Or.inr (Or.inr hp)) ih
    · exact ampersandsEscaped_append_plain _ _ (by decide) ih
    · exact ampersandsEscaped_append_plain _ _
        (by simp only [List.mem_singleton]; exact fun h => h3 h.symm) ih

theorem htmlGen_nil_boundaries (src : List Char) :
    htmlGen src filename [] report = escape src := by
  unfold htmlGen htmlGenPieces
  rw [scan_nil_boundaries, render_textPieces]

theorem offsetOrdered_sub (xs ys : List Boundary) (h : List.Sublist xs ys)
    (hord : offsetOrdered ys) : offsetOrdered xs :=
  List.Pairwise.sublist h hord

/-- The writes between the tags of two boundaries of an offset-ordered list
within the source. -/
theorem pieces_between (src : List Char) (pre mid post : List Boundary) (s e : Boundary)
    (hord : offsetOrdered (pre ++ s :: (mid ++ e :: post)))
    (hin : offsetsWithin src.length (pre ++ s :: (mid ++ e :: post))) :
    ∃ P M Q : List Piece,
      htmlGenPieces src filename (pre ++ s :: (mid ++ e :: post)) report
        = P ++ boundaryTag filename report (lineAt src s.Offset.toNat) s
            :: (M ++ boundaryTag filename report (lineAt src e.Offset.toNat) e :: Q) ∧
      tagsOf P = pre.map (fun a => boundaryTag filename report (lineAt src a.Offset.toNat) a) ∧
      tagsOf M = mid.map (fun a => boundaryTag filename report (lineAt src a.Offset.toNat) a) ∧
      textOf M = escape ((src.drop s.Offset.toNat).take (e.Offset.toNat - s.Offset.toNat)) := by
  have hord1 : offsetOrdered (pre ++ [s]) := by
    apply offsetOrdered_sub _ _ _ hord
    exact List.Sublist.append (List.Sublist.refl _) (by simp)
  have hin1 : offsetsWithin src.length (pre ++ [s]) := by
    intro a ha
    apply hin a
    simp only [List.mem_append, List.mem_singleton, List.mem_cons] at ha ⊢
    tauto
  obtain ⟨P, hP, -, hPt⟩ :=
    htmlGenPieces_split filename report src pre s (mid ++ e :: post) hord1 hin1
  have hs := hin s (by simp)
  have hord2 : offsetOrdered (mid ++ [e]) := by
    apply offsetOrdered_sub _ _ _ hord
    apply List.sublist_append_of_sublist_right
    apply List.Sublist.cons
    exact List.Sublist.append (List.Sublist.refl _) (by simp)
  have hsle : ∀ a ∈ mid ++ [e], s.Offset ≤ a.Offset := by
    intro a ha
    have h1 : offsetOrdered (s :: (mid ++ e :: post)) :=
      offsetOrdered_sub _ _ (List.sublist_append_right _ _) hord
    apply (List.pairwise_cons.1 h1).1 a
    simp only [List.mem_append, List.mem_singleton, List.mem_cons] at ha ⊢
    tauto
  have hin2 : ∀ a ∈ mid ++ [e], ((s.Offset.toNat : Nat) : Int) ≤ a.Offset ∧
      a.Offset < ((s.Offset.toNat + (src.drop s.Offset.toNat).length : Nat) : Int) := by
    intro a ha
    have h1 := hsle a ha
    have h2 := hin a (by
      simp only [List.mem_append, List.mem_singleton, List.mem_cons] at ha ⊢
      tauto)
    simp only [List.length_drop]
    omega
  obtain ⟨M, hM, hMx, hMt⟩ := scan_split filename report mid (lineAt src s.Offset.toNat)
    s.Offset.toNat (src.drop s.Offset.toNat) e post hord2 hin2
  have hline : ∀ a ∈ mid ++ [e],
      lineAfter (lineAt src s.Offset.toNat)
          ((src.drop s.Offset.toNat).take (a.Offset.toNat - s.Offset.toNat))
        = lineAt src a.Offset.toNat := by
    intro a ha
    have h1 := hsle a ha
    exact lineAfter_split 1 src _ _ (by omega)
  refine ⟨P, M, scan filename report (lineAt src e.Offset.toNat) e.Offset.toNat
    (src.drop e.Offset.toNat) post, ?_, hPt, ?_, hMx⟩
  · rw [hP, hM, hline e (by simp), drop_split src _ _ (by have := hsle e (by simp); omega)]
  · rw [hMt]
    apply List.map_congr_left
    intro a ha
    rw [hline a (by simp [ha])]

end Scan

/-! ## Rounding and the provenance of tags -/

section Extra

variable (filename : String) (report : tarpReport)

/-- The rounded quotient is a nearest one: it is within half a unit of the
exact quotient. -/
theorem roundShift_near (p s : Nat) :
    2 * (roundShift p s * 2 ^ s) ≤ 2 * p + 2 ^ s ∧ 2 * p ≤ 2 * (roundShift p s * 2 ^ s) + 2 ^ s := by
  have hpos : 0 < 2 ^ s := Nat.pos_pow_of_pos _ (by norm_num)
  have hdm := Nat.div_add_mod p (2 ^ s)
  have hmod := Nat.mod_lt p hpos
  have hq : 2 ^ s * (p / 2 ^ s) = p / 2 ^ s * 2 ^ s := Nat.mul_comm _ _
  unfold roundShift
  simp only
  split_ifs with h1 h2
  · constructor <;> omega
  · constructor <;> omega
  · have : (p / 2 ^ s + 1) * 2 ^ s = p / 2 ^ s * 2 ^ s + 2 ^ s := by ring
    constructor <;> omega

/-- The modelled product is the exact product when no bit is lost. -/
theorem mulNine_exact (x : Float64) (h : 9 * x.mant.natAbs < 2 ^ 53) :
    pairValue (mulNine x) = x.toRat * 9 := by
  have hs : excessBits (9 * x.mant.natAbs) = 0 := by
    unfold excessBits; rw [if_pos h]
  have hr : roundShift (9 * x.mant.natAbs) 0 = 9 * x.mant.natAbs := by
    simp [roundShift, Nat.mod_one]
  unfold pairValue mulNine Float64.toRat
  simp only [hs, hr]
  have hsa : (x.mant.sign * ((9 * x.mant.natAbs : Nat) : Int)) = 9 * x.mant := by
    have h1 := Int.sign_mul_natAbs x.mant
    have h2 : ((9 * x.mant.natAbs : Nat) : Int) = 9 * (x.mant.natAbs : Int) := Int.ofNat_mul 9 _
    rw [h2, ← mul_assoc, mul_comm x.mant.sign 9, mul_assoc, h1]
  rw [hsa]
  push_cast
  simp
  ring

theorem mem_drain (line : Int) (i : Nat) (bs : List Boundary) :
    (∀ p ∈ (drain filename report line i bs).1,
      ∃ b ∈ bs, p = boundaryTag filename report line b) ∧
    ∀ b ∈ (drain filename report line i bs).2, b ∈ bs := by
  induction bs with
  | nil => simp [drain]
  | cons b bs ih =>
    unfold drain
    split_ifs with h
    · constructor
      · intro p hp
        simp only [List.mem_cons] at hp
        rcases hp with rfl | hp
        · exact ⟨b, by simp, rfl⟩
        · obtain ⟨b', hb', rfl⟩ := ih.1 p hp
          exact ⟨b', by simp [hb'], rfl⟩
      · intro b' hb'
        exact List.mem_cons_of_mem _ (ih.2 b' hb')
    · simp

/-- Every tag written by the scan is the tag of one of the boundaries, made at
some line. -/
theorem mem_scan_tag (src : List Char) :
    ∀ (line : Int) (i : Nat) (bs : List Boundary),
      ∀ p ∈ scan filename report line i src bs, p.isTag = true →
        ∃ b ∈ bs, ∃ l : Int, p = boundaryTag filename report l b := by
  induction src with
  | nil => intro line i bs p hp; simp [scan] at hp
  | cons c cs ih =>
    intro line i bs p hp htag
    rw [scan_cons, List.mem_append, List.mem_cons] at hp
    rcases hp with hp | rfl | hp
    · obtain ⟨b, hb, rfl⟩ := (mem_drain filename report line i bs).1 p hp
      exact ⟨b, hb, line, rfl⟩
    · simp [Piece.isTag] at htag
    · obtain ⟨b, hb, l, rfl⟩ := ih _ _ _ p hp htag
      exact ⟨b, (mem_drain filename report line i bs).2 b hb, l, rfl⟩

theorem mem_htmlGenPieces_open (src : List Char) (bs : List Boundary) (p : Piece)
    (hp : p ∈ htmlGenPieces src filename bs report) (ho : p.isOpen = true) :
    ∃ b ∈ bs, ∃ l : Int, b.Start = true ∧ p = openTag filename report l b := by
  have htag : p.isTag = true := by cases p <;> simp_all [Piece.isOpen, Piece.isTag]
  obtain ⟨b, hb, l, rfl⟩ := mem_scan_tag filename report src 1 0 bs p hp htag
  have hs : b.Start = true := by rw [isOpen_boundaryTag] at ho; exact ho
  exact ⟨b, hb, l, hs, by simp [boundaryTag, hs]⟩

end Extra

/-! ## The output bytes -/

section Bytes

variable (filename : String) (report : tarpReport)

theorem digitChar_plain : ∀ d : Nat, d < 10 → plainByte (Nat.digitChar d) := by
  unfold plainByte
  decide

theorem toDigitsCore_plain (fuel : Nat) :
    ∀ (n : Nat) (ds : List Char), (∀ c ∈ ds, plainByte c) →
      ∀ c ∈ Nat.toDigitsCore 10 fuel n ds, plainByte c := by
  induction fuel with
  | zero => intro n ds hds c hc; exact hds c (by simpa [Nat.toDigitsCore] using hc)
  | succ fuel ih =>
    intro n ds hds c hc
    have hd : plainByte (Nat.digitChar (n % 10)) :=
      digitChar_plain _ (Nat.mod_lt _ (by norm_num))
    have hds2 : ∀ c ∈ Nat.digitChar (n % 10) :: ds, plainByte c := by
      intro c hc
      rcases List.mem_cons.1 hc with rfl | hc
      · exact hd
      · exact hds c hc
    unfold Nat.toDigitsCore at hc
    simp only at hc
    split_ifs at hc with h0
    · exact hds2 c hc
    · exact ih _ _ hds2 c hc

theorem fmtInt_plain (n : Int) : ∀ c ∈ fmtInt n, plainByte c := by
  intro c hc
  cases n with
  | ofNat m => exact toDigitsCore_plain _ _ _ (by simp) c hc
  | negSucc m =>
    rcases List.mem_cons.1 hc with rfl | hc
    · unfold plainByte; decide
    · exact toDigitsCore_plain _ _ _ (by simp) c hc

theorem render_openSpan (cls title : List Char) :
    (Piece.openSpan cls title).render = '<' :: (tagBody cls title ++ ['>']) := by
  have h1 : "<span class=\"".toList = '<' :: "span class=\"".toList := by decide
  have h2 : "\">".toList = "\"".toList ++ ['>'] := by decide
  simp only [Piece.render, tagBody, h1, h2, List.append_assoc, List.cons_append]

theorem render_closeSpan : Piece.closeSpan.render = '<' :: ("/span".toList ++ ['>']) := by
  decide

theorem stripFrom_false_cons (c : Char) (cs : List Char) :
    stripFrom false (c :: cs)
      = if c = '<' then stripFrom true cs else c :: stripFrom false cs := rfl

theorem stripFrom_true_cons (c : Char) (cs : List Char) :
    stripFrom true (c :: cs)
      = if c = '>' then stripFrom false cs else stripFrom true cs := rfl

theorem stripFrom_plain (s t : List Char) (hs : ∀ c ∈ s, plainByte c) :
    stripFrom false (s ++ t) = s ++ stripFrom false t := by
  induction s with
  | nil => rfl
  | cons c cs ih =>
    have hc := hs c (by simp)
    have ih2 := ih (fun x hx => hs x (by simp [hx]))
    rw [List.cons_append, stripFrom_false_cons, if_neg hc.1, ih2, List.cons_append]

theorem stripFrom_tag (s t : List Char) (hs : ∀ c ∈ s, plainByte c) :
    stripFrom true (s ++ '>' :: t) = stripFrom false t := by
  induction s with
  | nil => rw [List.nil_append, stripFrom_true_cons, if_pos rfl]
  | cons c cs ih =>
    have hc := hs c (by simp)
    have ih2 := ih (fun x hx => hs x (by simp [hx]))
    rw [List.cons_append, stripFrom_true_cons, if_neg hc.2, ih2]

theorem tagBody_plain (cls title : List Char) (hc : ∀ c ∈ cls, plainByte c)
    (ht : ∀ c ∈ title, plainByte c) : ∀ c ∈ tagBody cls title, plainByte c := by
  have h1 : ∀ c ∈ "span class=\"".toList, plainByte c := by unfold plainByte; decide
  have h2 : ∀ c ∈ "\" title=\"".toList, plainByte c := by unfold plainByte; decide
  have h3 : ∀ c ∈ "\"".toList, plainByte c := by unfold plainByte; decide
  intro c hmem
  simp only [tagBody, List.mem_append] at hmem
  rcases hmem with h | h | h | h | h
  · exact h1 c h
  · exact hc c h
  · exact h2 c h
  · exact ht c h
  · exact h3 c h

theorem stripFrom_render (p : Piece) (t : List Char) (hp : p.plain) :
    stripFrom false (p.render ++ t) = p.textBytes ++ stripFrom false t := by
  cases p with
  | openSpan cls title =>
    rw [render_openSpan, List.cons_append, List.append_assoc, List.singleton_append,
      stripFrom_false_cons, if_pos rfl, stripFrom_tag _ _ (tagBody_plain cls title hp.1 hp.2)]
    rfl
  | closeSpan =>
    rw [render_closeSpan, List.cons_append, List.append_assoc, List.singleton_append,
      stripFrom_false_cons, if_pos rfl, stripFrom_tag _ _ (by unfold plainByte; decide)]
    rfl
  | text s => exact stripFrom_plain s t hp

theorem stripTags_render (ps : List Piece) (hps : ∀ p ∈ ps, p.plain) :
    stripTags (ps.map Piece.render).flatten = textOf ps := by
  unfold stripTags
  induction ps with
  | nil => rfl
  | cons p ps ih =>
    have ih2 := ih (fun x hx => hps x (by simp [hx]))
    simp only [List.map_cons, List.flatten_cons, textOf, List.flatMap_cons] at ih2 ⊢
    rw [stripFrom_render p _ (hps p (by simp)), ih2]

theorem boundaryTag_plain (line : Int) (b : Boundary) :
    (boundaryTag filename report line b).plain := by
  have ht : ∀ c ∈ tarpClassName, plainByte c := by unfold plainByte; decide
  have hc3 : ∀ c ∈ "cov".toList, plainByte c := by unfold plainByte; decide
  have hcov : ∀ n : Int, ∀ c ∈ "cov".toList ++ fmtInt n, plainByte c := by
    intro n c hc
    rcases List.mem_append.1 hc with h | h
    · exact hc3 c h
    · exact fmtInt_plain n c h
  unfold boundaryTag openTag
  simp only
  split_ifs
  · exact ⟨ht, fmtInt_plain _⟩
  · exact ⟨hcov _, fmtInt_plain _⟩
  · trivial

theorem escapeByte_plain (c : Char) : (Piece.text (escapeByte c)).plain := by
  intro x hx
  have h := escapeByte_not_mem c
  exact ⟨fun e => h.1 (e ▸ hx), fun e => h.2 (e ▸ hx)⟩

theorem scan_plain (src : List Char) :
    ∀ (line : Int) (i : Nat) (bs : List Boundary),
      ∀ p ∈ scan filename report line i src bs, p.plain := by
  induction src with
  | nil => intro line i bs p hp; simp [scan] at hp
  | cons c cs ih =>
    intro line i bs p hp
    rw [scan_cons, List.mem_append, List.mem_cons] at hp
    rcases hp with hp | rfl | hp
    · obtain ⟨b, -, rfl⟩ := (mem_drain filename report line i bs).1 p hp
      exact boundaryTag_plain filename report line b
    · exact escapeByte_plain c
    · exact ih _ _ _ p hp

/-- Removing the tags from the output bytes leaves the escaped source. -/
theorem stripTags_htmlGen (src : List Char) (bs : List Boundary) :
    stripTags (htmlGen src filename bs report) = escape src := by
  unfold htmlGen htmlGenPieces
  rw [stripTags_render _ (scan_plain filename report src 1 0 bs)]
  exact textOf_scan filename report 1 0 src bs

theorem countOcc_cons (pat : List Char) (c : Char) (cs : List Char) :
    countOcc pat (c :: cs)
      = (if pat.isPrefixOf (c :: cs) then 1 else 0) + countOcc pat cs := rfl

theorem countOcc_plain (pat s t : List Char) (hs : ∀ c ∈ s, plainByte c) :
    countOcc ('<' :: pat) (s ++ t) = countOcc ('<' :: pat) t := by
  induction s with
  | nil => rfl
  | cons c cs ih =>
    have hc := hs c (by simp)
    have ih2 := ih (fun x hx => hs x (by simp [hx]))
    have hne : ('<' == c) = false := by simpa using fun e => hc.1 e.symm
    rw [List.cons_append, countOcc_cons, ih2]
    simp [List.isPrefixOf, hne]

theorem countOcc_tag (pat s t : List Char) (hs : ∀ c ∈ s, plainByte c) :
    countOcc ('<' :: pat) (s ++ '>' :: t) = countOcc ('<' :: pat) t := by
  rw [countOcc_plain pat s _ hs, countOcc_cons]
  simp [List.isPrefixOf]

theorem countOcc_open_render (p : Piece) (t : List Char) (hp : p.plain) :
    countOcc "<span ".toList (p.render ++ t)
      = (if p.isOpen then 1 else 0) + countOcc "<span ".toList t := by
  have hpat : "<span ".toList = '<' :: "span ".toList := by decide
  cases p with
  | openSpan cls title =>
    have hpre : "<span ".toList.isPrefixOf ('<' :: (tagBody cls title ++ '>' :: t)) = true := by
      rfl
    rw [render_openSpan, List.cons_append, List.append_assoc, List.singleton_append,
      countOcc_cons, if_pos hpre, hpat, countOcc_tag _ _ _ (tagBody_plain cls title hp.1 hp.2)]
    rfl
  | closeSpan =>
    have hpre : "<span ".toList.isPrefixOf ('<' :: ("/span".toList ++ '>' :: t)) = false := by
      rfl
    rw [render_closeSpan, List.cons_append, List.append_assoc, List.singleton_append,
      countOcc_cons, hpre, hpat, countOcc_tag _ _ _ (by unfold plainByte; decide)]
    rfl
  | text s =>
    rw [hpat]
    simpa [Piece.render, Piece.isOpen] using countOcc_plain _ s t hp

theorem countOcc_close_render (p : Piece) (t : List Char) (hp : p.plain) :
    countOcc "</span>".toList (p.render ++ t)
      = (if p.isClose then 1 else 0) + countOcc "</span>".toList t := by
  have hpat : "</span>".toList = '<' :: "/span>".toList := by decide
  cases p with
  | openSpan cls title =>
    have hpre : "</span>".toList.isPrefixOf ('<' :: (tagBody cls title ++ '>' :: t)) = false := by
      rfl
    rw [render_openSpan, List.cons_append, List.append_assoc, List.singleton_append,
      countOcc_cons, hpre, hpat, countOcc_tag _ _ _ (tagBody_plain cls title hp.1 hp.2)]
    rfl
  | closeSpan =>
    have hpre : "</span>".toList.isPrefixOf ('<' :: ("/span".toList ++ '>' :: t)) = true := by
      have h1 : "/span".toList ++ '>' :: t = '/' :: 's' :: 'p' :: 'a' :: 'n' :: '>' :: t := rfl
      have h2 : "</span>".toList = ['<', '/', 's', 'p', 'a', 'n', '>'] := by decide
      rw [h1, h2]
      simp [List.isPrefixOf]
    rw [render_closeSpan, List.cons_append, List.append_assoc, List.singleton_append,
      countOcc_cons, if_pos hpre, hpat, countOcc_tag _ _ _ (by unfold plainByte; decide)]
    rfl
  | text s =>
    rw [hpat]
    simpa [Piece.render, Piece.isClose] using countOcc_plain _ s t hp

theorem countOcc_open_pieces (ps : List Piece) (hps : ∀ p ∈ ps, p.plain) :
    countOcc "<span ".toList (ps.map Piece.render).flatten = ps.countP Piece.isOpen := by
  induction ps with
  | nil => rfl
  | cons p ps ih =>
    have ih2 := ih (fun x hx => hps x (by simp [hx]))
    rw [List.map_cons, List.flatten_cons, countOcc_open_render p _ (hps p (by simp)), ih2,
      List.countP_cons]
    omega

theorem countOcc_close_pieces (ps : List Piece) (hps : ∀ p ∈ ps, p.plain) :
    countOcc "</span>".toList (ps.map Piece.render).flatten = ps.countP Piece.isClose := by
  induction ps with
  | nil => rfl
  | cons p ps ih =>
    have ih2 := ih (fun x hx => hps x (by simp [hx]))
    rw [List.map_cons, List.flatten_cons, countOcc_close_render p _ (hps p (by simp)), ih2,
      List.countP_cons]
    omega

theorem countOcc_htmlGen (src : List Char) (bs : List Boundary) :
    countOcc "<span ".toList (htmlGen src filename bs report)
        = (htmlGenPieces src filename bs report).countP Piece.isOpen ∧
    countOcc "</span>".toList (htmlGen src filename bs report)
        = (htmlGenPieces src filename bs report).countP Piece.isClose :=
  ⟨countOcc_open_pieces _ (scan_plain filename report src 1 0 bs),
    countOcc_close_pieces _ (scan_plain filename report src 1 0 bs)⟩

end Bytes

/-! ## A single span -/

section Single

variable (filename : String) (report : tarpReport)

/-- The output for a single span inside the source: escaped text, the tag of
the start boundary, the escaped text of the span, the tag of the end boundary,
escaped text. -/
theorem htmlGen_single_span (src : List Char) (s e : Boundary) (o n : Nat)
    (hs : s.Offset = (o : Int)) (he : e.Offset = (n : Int)) (hon : o ≤ n)
    (hn : n < src.length) :
    htmlGen src filename [s, e] report
      = escape (src.take o) ++ ((boundaryTag filename report (lineAt src o) s).render
          ++ (escape ((src.drop o).take (n - o))
            ++ ((boundaryTag filename report (lineAt src n) e).render
              ++ escape (src.drop n)))) := by
  have h1 : s.Offset = ((0 + o : Nat) : Int) := by rw [hs]; simp
  have h2 : e.Offset = ((0 + o + (n - o) : Nat) : Int) := by rw [he]; congr 1; omega
  have hlen : n - o < (src.drop o).length := by simp; omega
  have hp : htmlGenPieces src filename [s, e] report
      = textPieces (src.take o) ++ boundaryTag filename report (lineAt src o) s
          :: (textPieces ((src.drop o).take (n - o))
            ++ boundaryTag filename report (lineAt src n) e :: textPieces (src.drop n)) := by
    unfold htmlGenPieces
    rw [scan_step filename report 1 0 o src s [e] (by omega) h1,
      scan_step filename report _ (0 + o) (n - o) (src.drop o) e [] hlen h2,
      scan_nil_boundaries, lineAfter_split 1 src o n hon, drop_split src o n hon]
    rfl
  unfold htmlGen
  rw [hp]
  simp only [List.map_append, List.map_cons, List.flatten_append, List.flatten_cons,
    render_textPieces]

end Single

theorem scenario_line (o : Nat) (ho : o ≤ 13) :
    lineAt "func f() \x7b\n  x := 1\n\x7d\n".toList o = 1 ∨
      lineAt "func f() \x7b\n  x := 1\n\x7d\n".toList o = 2 := by
  interval_cases o <;> decide

/-- The form of the opening tag of a start boundary with a non-negative count
and `Norm` in `[0,1]`. -/
theorem openTag_form_core (filename : String) (report : tarpReport) (currentLine : Int)
    (b : Boundary) (hc : 0 ≤ b.Count) (h0 : 0 ≤ b.Norm.toRat) (h1 : b.Norm.toRat ≤ 1) :
    ∃ C : List Char,
      (openTag filename report currentLine b).render
        = "<span class=\"".toList ++ C ++ "\" title=\"".toList
            ++ Nat.toDigits 10 b.Count.toNat ++ "\">".toList ∧
      (C = "tarp-uncovered".toList ∨
        ∃ n : Nat, n ≤ 10 ∧ C = "cov".toList ++ Nat.toDigits 10 n) := by
  obtain ⟨hlo, hhi⟩ := coverLevel_range b hc h0 h1
  unfold openTag
  simp only
  split_ifs with h
  · exact ⟨tarpClassName, by simp [Piece.render, fmtInt_of_nonneg _ hc], Or.inl rfl⟩
  · refine ⟨"cov".toList ++ fmtInt (coverLevel b),
      by simp [Piece.render, fmtInt_of_nonneg _ hc], Or.inr ⟨(coverLevel b).toNat, by omega, ?_⟩⟩
    rw [fmtInt_of_nonneg _ hlo]

/-! ## Colours -/

theorem rgbGradient_small (n : Int) (h1 : -1000 ≤ n) (h2 : n ≤ 1000) :
    rgbGradient n = (128 - 12 * (n - 1), 128 + 12 * (n - 1), 128 + 3 * (n - 1)) := by
  unfold rgbGradient
  have e1 : wrap64 (n - 1) = n - 1 := wrap64_small _ (by norm_num; omega) (by norm_num; omega)
  have e2 : wrap64 (12 * (n - 1)) = 12 * (n - 1) :=
    wrap64_small _ (by norm_num; omega) (by norm_num; omega)
  have e3 : wrap64 (3 * (n - 1)) = 3 * (n - 1) :=
    wrap64_small _ (by norm_num; omega) (by norm_num; omega)
  rw [e1, e2, e3, wrap64_small _ (by norm_num; omega) (by norm_num; omega),
    wrap64_small _ (by norm_num; omega) (by norm_num; omega),
    wrap64_small _ (by norm_num; omega) (by norm_num; omega)]

theorem rgb_eq_fmtRGB (n : Int) : rgb n = fmtRGB (rgbChannels n) := by
  unfold rgb rgbChannels
  split_ifs
  · decide
  · rfl

theorem rgbChannels_level (n : Int) (h1 : 1 ≤ n) (h2 : n ≤ 10) :
    rgbChannels n = (128 - 12 * (n - 1), 128 + 12 * (n - 1), 128 + 3 * (n - 1)) := by
  unfold rgbChannels
  rw [if_neg (by omega), rgbGradient_small n (by omega) (by omega)]

/-! ## The declaration selected for a start boundary -/

/-- The test `strings.Contains` holds exactly when the second text is a
contiguous part of the first. -/
theorem stringsContains_iff (s sub : List Char) :
    stringsContains s sub = true ↔ sub <:+: s := by
  induction s with
  | nil =>
    cases sub <;> simp [stringsContains]
  | cons c cs ih =>
    rw [stringsContains, Bool.or_eq_true, ih, List.infix_cons_iff, List.isPrefixOf_iff_prefix]

theorem relevantFunc_cons (filename : String) (d : tarpFunc) (ds : List tarpFunc)
    (currentLine : Int) :
    relevantFunc filename (d :: ds) currentLine
      = if stringsContains d.Filename.toList filename.toList = true then
          if d.RBraceLine = currentLine then d
          else relevantFunc filename ds currentLine
        else relevantFunc filename ds currentLine := rfl

/-- The loop over the declarations finds the first declaration that passes
both tests. -/
theorem relevantFunc_eq_find (filename : String) (decls : List tarpFunc) (currentLine : Int) :
    relevantFunc filename decls currentLine
      = (decls.find? (fun d =>
          stringsContains d.Filename.toList filename.toList
            && decide (d.RBraceLine = currentLine))).getD tarpFunc.zero := by
  induction decls with
  | nil => rfl
  | cons d ds ih =>
    rw [relevantFunc_cons]
    by_cases h1 : stringsContains d.Filename.toList filename.toList = true
    · by_cases h2 : d.RBraceLine = currentLine
      · rw [if_pos h1, if_pos h2, List.find?_cons_of_pos _ (by rw [h1, decide_eq_true h2]; rfl)]
        rfl
      · rw [if_pos h1, if_neg h2, ih,
          List.find?_cons_of_neg _ (by rw [h1, decide_eq_false h2]; decide)]
    · rw [if_neg h1, ih, List.find?_cons_of_neg _ (by
        rw [Bool.not_eq_true] at h1; rw [h1, Bool.false_and]; exact Bool.false_ne_true)]

theorem relevantFunc_none (filename : String) (decls : List tarpFunc) (currentLine : Int)
    (h : ∀ d ∈ decls, ¬ (stringsContains d.Filename.toList filename.toList = true
      ∧ d.RBraceLine = currentLine)) :
    relevantFunc filename decls currentLine = tarpFunc.zero := by
  induction decls with
  | nil => rfl
  | cons d ds ih =>
    have hd := h d (by simp)
    have ih2 := ih (fun x hx => h x (by simp [hx]))
    rw [relevantFunc_cons]
    by_cases h1 : stringsContains d.Filename.toList filename.toList = true
    · have h2 : ¬ d.RBraceLine = currentLine := fun h2 => hd ⟨h1, h2⟩
      rw [if_pos h1, if_neg h2, ih2]
    · rw [if_neg h1, ih2]

/-! ## The scan of arbitrary boundary lists -/

section Run

variable (filename : String) (report : tarpReport)

/-- A head boundary whose offset is none of the positions still to come is
never written, and nothing after it is. -/
theorem scan_stuck (src : List Char) :
    ∀ (line : Int) (i : Nat) (b : Boundary) (bs : List Boundary),
      (b.Offset < (i : Int) ∨ ((i + src.length : Nat) : Int) ≤ b.Offset) →
      scan filename report line i src (b :: bs) = textPieces src := by
  induction src with
  | nil => intro line i b bs _; rfl
  | cons c cs ih =>
    intro line i b bs h
    have hne : b.Offset ≠ (i : Int) := by
      simp only [List.length_cons] at h
      omega
    rw [scan_cons, drain_of_ne filename report line i b bs hne]
    simp only [List.nil_append]
    rw [ih _ (i + 1) b bs (by simp only [List.length_cons] at h; omega)]
    rfl

theorem renderedRun_cons (hi lo : Int) (b : Boundary) (bs : List Boundary) :
    renderedRun hi lo (b :: bs)
      = if lo ≤ b.Offset ∧ b.Offset < hi then b :: renderedRun hi b.Offset bs else [] := rfl

/-- The scan writes the same for a boundary list as for its reachable run. -/
theorem scan_renderedRun (bs : List Boundary) :
    ∀ (line : Int) (i : Nat) (src : List Char),
      scan filename report line i src bs
        = scan filename report line i src
            (renderedRun ((i + src.length : Nat) : Int) (i : Int) bs) := by
  induction bs with
  | nil => intro line i src; rfl
  | cons b bs ih =>
    intro line i src
    rw [renderedRun_cons]
    split_ifs with h
    · have hk : b.Offset.toNat - i < src.length := by omega
      have ho : b.Offset = ((i + (b.Offset.toNat - i) : Nat) : Int) := by omega
      have hlen : ((i + (b.Offset.toNat - i) + (src.drop (b.Offset.toNat - i)).length : Nat) : Int)
          = ((i + src.length : Nat) : Int) := by
        simp only [List.length_drop]; omega
      have hlo : ((i + (b.Offset.toNat - i) : Nat) : Int) = b.Offset := ho.symm
      rw [scan_step filename report line i _ src b bs hk ho,
        scan_step filename report line i _ src b _ hk ho,
        ih _ (i + (b.Offset.toNat - i)) (src.drop (b.Offset.toNat - i)), hlen, hlo]
    · rw [scan_stuck filename report src line i b bs (by omega), scan_nil_boundaries]

theorem renderedRun_isPrefix (hi : Int) (bs : List Boundary) :
    ∀ lo : Int, renderedRun hi lo bs <+: bs := by
  induction bs with
  | nil => intro lo; exact List.prefix_refl _
  | cons b bs ih =>
    intro lo
    rw [renderedRun_cons]
    split_ifs
    · exact (List.prefix_cons_inj b).2 (ih _)
    · exact List.nil_prefix

theorem renderedRun_bounds (hi : Int) (bs : List Boundary) :
    ∀ lo : Int, ∀ a ∈ renderedRun hi lo bs, lo ≤ a.Offset ∧ a.Offset < hi := by
  induction bs with
  | nil => intro lo a ha; simp [renderedRun] at ha
  | cons b bs ih =>
    intro lo a ha
    rw [renderedRun_cons] at ha
    split_ifs at ha with h
    · rcases List.mem_cons.1 ha with rfl | ha
      · exact h
      · have := ih _ a ha
        omega
    · simp at ha

theorem renderedRun_ordered (hi : Int) (bs : List Boundary) :
    ∀ lo : Int, offsetOrdered (renderedRun hi lo bs) := by
  induction bs with
  | nil => intro lo; exact List.Pairwise.nil
  | cons b bs ih =>
    intro lo
    rw [renderedRun_cons]
    split_ifs
    · exact List.Pairwise.cons (fun a ha => (renderedRun_bounds hi bs _ a ha).1) (ih _)
    · exact List.Pairwise.nil

/-- The boundary that follows the reachable run cannot be reached: its offset
lies before `lo`, or at `hi` or later, or before an offset of the run. -/
theorem renderedRun_maximal (hi : Int) (bs : List Boundary) :
    ∀ (lo : Int) (b : Boundary) (rest : List Boundary),
      bs = renderedRun hi lo bs ++ b :: rest →
      b.Offset < lo ∨ hi ≤ b.Offset ∨ ∃ a ∈ renderedRun hi lo bs, b.Offset < a.Offset := by
  induction bs with
  | nil => intro lo b rest h; simp [renderedRun] at h
  | cons b0 bs ih =>
    intro lo b rest h
    rw [renderedRun_cons] at h ⊢
    split_ifs at h ⊢ with hgood
    · rw [List.cons_append, List.cons.injEq] at h
      rcases ih _ b rest h.2 with h1 | h1 | ⟨a, ha, h1⟩
      · exact Or.inr (Or.inr ⟨b0, by simp, h1⟩)
      · exact Or.inr (Or.inl h1)
      · exact Or.inr (Or.inr ⟨a, by simp [ha], h1⟩)
    · rw [List.nil_append, List.cons.injEq] at h
      rw [← h.1]
      by_cases hlo : lo ≤ b0.Offset
      · exact Or.inr (Or.inl (by omega))
      · exact Or.inl (by omega)

end Run

/-! ## The reference rendering -/

section Reference

variable (filename : String) (report : tarpReport)

theorem referenceFrom_cons (src : List Char) (bs : List Boundary) (i : Nat) (c : Char)
    (cs : List Char) :
    referenceFrom filename report src bs i (c :: cs)
      = (bs.filter (fun b => b.Offset = (i : Int))).map
            (fun b => boundaryTag filename report (lineAt src i) b)
          ++ Piece.text (escapeByte c) :: referenceFrom filename report src bs (i + 1) cs := rfl

/-- The inner loop on an offset-ordered list that starts at the position or
later: it writes the tags of the boundaries at the position and leaves the
others. -/
theorem drain_ordered (line : Int) (i : Nat) (bs : List Boundary)
    (hord : offsetOrdered bs) (hlo : ∀ b ∈ bs, (i : Int) ≤ b.Offset) :
    (drain filename report line i bs).1
        = (bs.filter (fun b => b.Offset = (i : Int))).map
            (fun b => boundaryTag filename report line b) ∧
    (drain filename report line i bs).2 = bs.filter (fun b => ¬ b.Offset = (i : Int)) := by
  induction bs with
  | nil => exact ⟨rfl, rfl⟩
  | cons b bs ih =>
    have hle : ∀ a ∈ bs, b.Offset ≤ a.Offset := (List.pairwise_cons.1 hord).1
    have ih2 := ih (List.pairwise_cons.1 hord).2 (fun a ha => hlo a (by simp [ha]))
    unfold drain
    by_cases h : b.Offset = (i : Int)
    · rw [if_pos h]
      simp only [List.filter_cons, h, decide_True, if_true, List.map_cons, not_true_eq_false,
        decide_False, Bool.false_eq_true, if_false]
      exact ⟨by rw [ih2.1], ih2.2⟩
    · rw [if_neg h]
      have hb := hlo b (by simp)
      have hnone : ∀ a ∈ bs, ¬ a.Offset = (i : Int) := by
        intro a ha
        have := hle a ha
        omega
      have hf1 : bs.filter (fun b => b.Offset = (i : Int)) = [] := by
        rw [List.filter_eq_nil_iff]
        intro a ha
        simpa using hnone a ha
      have hf2 : bs.filter (fun b => ¬ b.Offset = (i : Int)) = bs := by
        rw [List.filter_eq_self]
        intro a ha
        simpa using hnone a ha
      simp only [List.filter_cons, h, decide_False, Bool.false_eq_true, if_false,
        not_false_eq_true, decide_True, if_true, hf1, hf2, List.map_nil]
      simp

/-- The reference rendering from a position on depends only on the boundaries
at that position or later. -/
theorem referenceFrom_congr (src : List Char) (bs bs2 : List Boundary) (rest : List Char) :
    ∀ i : Nat,
      (∀ j : Nat, i ≤ j →
        bs.filter (fun b => b.Offset = (j : Int)) = bs2.filter (fun b => b.Offset = (j : Int))) →
      referenceFrom filename report src bs i rest
        = referenceFrom filename report src bs2 i rest := by
  induction rest with
  | nil => intro i _; rfl
  | cons c cs ih =>
    intro i h
    rw [referenceFrom_cons, referenceFrom_cons, h i (le_refl i),
      ih (i + 1) (fun j hj => h j (by omega))]

/-- The scan of an offset-ordered list follows the reference rendering. -/
theorem scan_eq_referenceFrom (rest : List Char) :
    ∀ (done : List Char) (bs : List Boundary),
      offsetOrdered bs → (∀ b ∈ bs, (done.length : Int) ≤ b.Offset) →
      scan filename report (lineAfter 1 done) done.length rest bs
        = referenceFrom filename report (done ++ rest) bs done.length rest := by
  induction rest with
  | nil => intro done bs _ _; rfl
  | cons c cs ih =>
    intro done bs hord hlo
    obtain ⟨hd1, hd2⟩ := drain_ordered filename report (lineAfter 1 done) done.length bs hord hlo
    have hline : lineAt (done ++ c :: cs) done.length = lineAfter 1 done := by
      unfold lineAt
      rw [List.take_left']
      rfl
    have hord2 : offsetOrdered (bs.filter (fun b => ¬ b.Offset = (done.length : Int))) :=
      List.Pairwise.sublist (List.filter_sublist _) hord
    have hlo2 : ∀ b ∈ bs.filter (fun b => ¬ b.Offset = (done.length : Int)),
        (((done ++ [c]).length : Nat) : Int) ≤ b.Offset := by
      intro b hb
      rw [List.mem_filter] at hb
      have h1 := hlo b hb.1
      have h2 : ¬ b.Offset = (done.length : Int) := by simpa using hb.2
      simp only [List.length_append, List.length_singleton]
      omega
    have hl2 : lineAfter 1 (done ++ [c]) = (if c = '\n' then lineAfter 1 done + 1 else lineAfter 1 done) := by
      rw [lineAfter_append, lineAfter_cons, lineAfter_nil]
    have hlen : (done ++ [c]).length = done.length + 1 := by simp
    have hsrc : done ++ [c] ++ cs = done ++ c :: cs := by simp
    have ih2 := ih (done ++ [c]) _ hord2 hlo2
    rw [hl2, hlen, hsrc] at ih2
    rw [scan_cons, referenceFrom_cons, hd1, hd2, hline, ih2]
    congr 2
    apply referenceFrom_congr
    intro j hj
    rw [List.filter_filter]
    apply List.filter_congr
    intro b _
    by_cases hb : b.Offset = (j : Int)
    · have : ¬ b.Offset = (done.length : Int) := by omega
      have hjn : ¬ j = done.length := by omega
      simp [hb, hjn]
    · simp [hb]

theorem htmlGenPieces_eq_reference (src : List Char) (bs : List Boundary)
    (hord : offsetOrdered bs) (hlo : ∀ b ∈ bs, 0 ≤ b.Offset) :
    htmlGenPieces src filename bs report = referenceRendering src filename bs report := by
  have h := scan_eq_referenceFrom filename report src [] bs hord (by simpa using hlo)
  simpa [htmlGenPieces, referenceRendering, lineAfter_nil] using h

/-- The reference rendering, byte by byte: the tags of the boundaries at the
offset of the byte, then the escaped byte. -/
theorem referenceFrom_eq_flatMap (src : List Char) (bs : List Boundary) (rest : List Char) :
    ∀ i : Nat,
      referenceFrom filename report src bs i rest
        = (List.enumFrom i rest).flatMap (fun ic =>
            (bs.filter (fun b => b.Offset = (ic.1 : Int))).map
                (fun b => boundaryTag filename report
                  (1 + (((src.take ic.1).count '\n' : Nat) : Int)) b)
              ++ [Piece.text (escapeByte ic.2)]) := by
  induction rest with
  | nil => intro i; rfl
  | cons c cs ih =>
    intro i
    rw [referenceFrom_cons, List.enumFrom_cons, List.flatMap_cons, ih (i + 1)]
    simp only [List.append_assoc, List.singleton_append]
    rfl

end Reference

/-! ## Rounding to `float64` -/

theorem roundHalfEven_ge_floor (y : ℚ) : ⌊y⌋ ≤ roundHalfEven y := by
  unfold roundHalfEven
  split_ifs <;> omega

theorem roundHalfEven_le_floor_succ (y : ℚ) : roundHalfEven y ≤ ⌊y⌋ + 1 := by
  unfold roundHalfEven
  split_ifs <;> omega

theorem roundHalfEven_intCast (n : Int) : roundHalfEven (n : ℚ) = n := by
  unfold roundHalfEven
  simp

theorem roundHalfEven_mono {a b : ℚ} (h : a ≤ b) : roundHalfEven a ≤ roundHalfEven b := by
  have hfl : ⌊a⌋ ≤ ⌊b⌋ := Int.floor_mono h
  rcases lt_or_eq_of_le hfl with hlt | heq
  · have h1 := roundHalfEven_le_floor_succ a
    have h2 := roundHalfEven_ge_floor b
    omega
  · unfold roundHalfEven
    rw [← heq]
    have hfrac : a - ⌊a⌋ ≤ b - ⌊a⌋ := by linarith
    by_cases ha1 : a - (⌊a⌋ : ℚ) < 1 / 2
    · rw [if_pos ha1]
      split_ifs <;> omega
    · by_cases ha2 : a - (⌊a⌋ : ℚ) = 1 / 2 ∧ ⌊a⌋ % 2 = 0
      · rw [if_neg ha1, if_pos ha2]
        split_ifs <;> omega
      · have hb1 : ¬ b - (⌊a⌋ : ℚ) < 1 / 2 := by
          intro hb
          exact ha1 (lt_of_le_of_lt hfrac hb)
        have hb2 : ¬ (b - (⌊a⌋ : ℚ) = 1 / 2 ∧ ⌊a⌋ % 2 = 0) := by
          intro hb
          apply ha2
          refine ⟨le_antisymm ?_ (not_lt.1 ha1), hb.2⟩
          rw [← hb.1]
          exact hfrac
        rw [if_neg ha1, if_neg ha2, if_neg hb1, if_neg hb2]

theorem roundHalfEven_le_of_le {y : ℚ} {n : Int} (h : y ≤ (n : ℚ)) : roundHalfEven y ≤ n := by
  have := roundHalfEven_mono h
  rwa [roundHalfEven_intCast] at this

theorem roundHalfEven_ge_of_ge {y : ℚ} {n : Int} (h : (n : ℚ) ≤ y) : n ≤ roundHalfEven y := by
  have := roundHalfEven_mono h
  rwa [roundHalfEven_intCast] at this

theorem log_two_bounds (x : ℚ) (hx : 0 < x) :
    (2 : ℚ) ^ Int.log 2 x ≤ x ∧ x < (2 : ℚ) ^ (Int.log 2 x + 1) := by
  have h1 := Int.zpow_log_le_self (b := 2) (r := x) (by norm_num) hx
  have h2 := Int.lt_zpow_succ_log_self (b := 2) (by norm_num) x
  exact ⟨by exact_mod_cast h1, by exact_mod_cast h2⟩

theorem roundF64_of_pos (x : ℚ) (hx : 0 < x) :
    roundF64 x
      = (roundHalfEven (x / 2 ^ (Int.log 2 x - 52)) : ℚ) * 2 ^ (Int.log 2 x - 52) := by
  unfold roundF64
  rw [if_neg hx.ne', abs_of_pos hx]

/-- The unit of a value with a significand of at most 53 bits is a multiple, by
a power of two, of the unit of every smaller positive value. -/
theorem grid_exp (x : ℚ) (m k : Int) (hx : 0 < x) (hm : m < 2 ^ 53)
    (hxg : x ≤ (m : ℚ) * 2 ^ k) :
    ∃ n : Nat, (2 : ℚ) ^ k = 2 ^ n * 2 ^ (Int.log 2 x - 52) := by
  have hlog := (log_two_bounds x hx).1
  have hpos : (0 : ℚ) < 2 ^ k := zpow_pos (by norm_num) k
  have hmq : (m : ℚ) < 2 ^ 53 := by exact_mod_cast hm
  have hlt : (2 : ℚ) ^ Int.log 2 x < 2 ^ (53 + k) := by
    calc (2 : ℚ) ^ Int.log 2 x ≤ x := hlog
      _ ≤ (m : ℚ) * 2 ^ k := hxg
      _ < 2 ^ 53 * 2 ^ k := by exact (mul_lt_mul_right hpos).2 hmq
      _ = 2 ^ (53 + k) := by
        rw [zpow_add₀ (by norm_num : (2 : ℚ) ≠ 0)]
        norm_num
  have hek : Int.log 2 x < 53 + k :=
    (zpow_lt_zpow_iff_right₀ (by norm_num : (1 : ℚ) < 2)).1 hlt
  refine ⟨(k - (Int.log 2 x - 52)).toNat, ?_⟩
  have hk : k = (Int.log 2 x - 52) + ((k - (Int.log 2 x - 52)).toNat : Int) := by omega
  conv_lhs => rw [hk, zpow_add₀ (by norm_num : (2 : ℚ) ≠ 0), zpow_natCast]
  ring

/-- A value with a significand of at most 53 bits lies on the grid of every
smaller positive value. -/
theorem grid_of_le (x : ℚ) (m k : Int) (hx : 0 < x) (hm : m < 2 ^ 53)
    (hxg : x ≤ (m : ℚ) * 2 ^ k) :
    ∃ n : Nat, (m : ℚ) * 2 ^ k = ((m * 2 ^ n : Int) : ℚ) * 2 ^ (Int.log 2 x - 52) := by
  obtain ⟨n, hn⟩ := grid_exp x m k hx hm hxg
  refine ⟨n, ?_⟩
  rw [hn]
  push_cast
  ring

/-- Rounding never passes a `float64` value: a positive value at most `g`
rounds to at most `g` when `g` has a significand of at most 53 bits. -/
theorem roundF64_le_of_pos (x : ℚ) (m k : Int) (hx : 0 < x) (hm : m < 2 ^ 53)
    (hxg : x ≤ (m : ℚ) * 2 ^ k) : roundF64 x ≤ (m : ℚ) * 2 ^ k := by
  obtain ⟨n, hn⟩ := grid_of_le x m k hx hm hxg
  have hu : (0 : ℚ) < 2 ^ (Int.log 2 x - 52) := zpow_pos (by norm_num) _
  rw [roundF64_of_pos x hx, hn]
  apply (mul_le_mul_right hu).2
  have hy : x / 2 ^ (Int.log 2 x - 52) ≤ ((m * 2 ^ n : Int) : ℚ) := by
    rw [div_le_iff₀ hu, ← hn]
    exact hxg
  exact_mod_cast roundHalfEven_le_of_le hy

theorem roundF64_zero : roundF64 0 = 0 := by
  unfold roundF64
  rw [if_pos rfl]

theorem roundF64_le (x : ℚ) (m k : Int) (hx : 0 ≤ x) (hm0 : 0 < m) (hm : m < 2 ^ 53)
    (hxg : x ≤ (m : ℚ) * 2 ^ k) : roundF64 x ≤ (m : ℚ) * 2 ^ k := by
  rcases eq_or_lt_of_le hx with h | h
  · rw [← h, roundF64_zero]
    have : (0 : ℚ) < (m : ℚ) * 2 ^ k :=
      mul_pos (by exact_mod_cast hm0) (zpow_pos (by norm_num) k)
    exact this.le
  · exact roundF64_le_of_pos x m k h hm hxg

/-- A positive value rounds to a value in the closure of its binade. -/
theorem roundF64_binade (x : ℚ) (hx : 0 < x) :
    (2 : ℚ) ^ Int.log 2 x ≤ roundF64 x ∧ roundF64 x ≤ (2 : ℚ) ^ (Int.log 2 x + 1) := by
  obtain ⟨hlo, hhi⟩ := log_two_bounds x hx
  have hu : (0 : ℚ) < 2 ^ (Int.log 2 x - 52) := zpow_pos (by norm_num) _
  constructor
  · rw [roundF64_of_pos x hx]
    have h52 : (2 : ℚ) ^ Int.log 2 x = ((2 ^ 52 : Int) : ℚ) * 2 ^ (Int.log 2 x - 52) := by
      have : Int.log 2 x = 52 + (Int.log 2 x - 52) := by omega
      conv_lhs => rw [this, zpow_add₀ (by norm_num : (2 : ℚ) ≠ 0)]
      norm_num
    rw [h52]
    apply (mul_le_mul_right hu).2
    have hy : ((2 ^ 52 : Int) : ℚ) ≤ x / 2 ^ (Int.log 2 x - 52) := by
      rw [le_div_iff₀ hu, ← h52]
      exact hlo
    exact_mod_cast roundHalfEven_ge_of_ge hy
  · have h := roundF64_le_of_pos x 1 (Int.log 2 x + 1) hx (by norm_num) (by
      rw [Int.cast_one, one_mul]; exact hhi.le)
    rwa [Int.cast_one, one_mul] at h

theorem roundF64_pos (x : ℚ) (hx : 0 < x) : 0 < roundF64 x :=
  lt_of_lt_of_le (zpow_pos (by norm_num) _) (roundF64_binade x hx).1

theorem roundF64_nonneg (x : ℚ) (hx : 0 ≤ x) : 0 ≤ roundF64 x := by
  rcases eq_or_lt_of_le hx with h | h
  · rw [← h, roundF64_zero]
  · exact (roundF64_pos x h).le

/-- Rounding keeps the order of non-negative values. -/
theorem roundF64_mono (x y : ℚ) (hx : 0 ≤ x) (hxy : x ≤ y) : roundF64 x ≤ roundF64 y := by
  rcases eq_or_lt_of_le hx with h | h
  · rw [← h, roundF64_zero]
    exact roundF64_nonneg y (le_trans hx hxy)
  · have hy : 0 < y := lt_of_lt_of_le h hxy
    have hlog : Int.log 2 x ≤ Int.log 2 y := Int.log_mono_right h hxy
    rcases eq_or_lt_of_le hlog with he | he
    · have hu : (0 : ℚ) < 2 ^ (Int.log 2 y - 52) := zpow_pos (by norm_num) _
      rw [roundF64_of_pos x h, roundF64_of_pos y hy, he]
      apply (mul_le_mul_right hu).2
      have : x / 2 ^ (Int.log 2 y - 52) ≤ y / 2 ^ (Int.log 2 y - 52) :=
        div_le_div_of_nonneg_right hxy hu.le
      exact_mod_cast roundHalfEven_mono this
    · calc roundF64 x ≤ (2 : ℚ) ^ (Int.log 2 x + 1) := (roundF64_binade x h).2
        _ ≤ (2 : ℚ) ^ Int.log 2 y := zpow_le_zpow_right₀ (by norm_num) (by omega)
        _ ≤ roundF64 y := (roundF64_binade y hy).1

/-- A value with a significand of at most 53 bits is a `float64` value:
rounding leaves it as it is. -/
theorem roundF64_of_significand (m k : Int) (hm : |m| < 2 ^ 53) :
    roundF64 ((m : ℚ) * 2 ^ k) = (m : ℚ) * 2 ^ k := by
  rcases eq_or_ne m 0 with rfl | hm0
  · simp [roundF64_zero]
  · have hpos : (0 : ℚ) < 2 ^ k := zpow_pos (by norm_num) k
    have hx0 : (m : ℚ) * 2 ^ k ≠ 0 := mul_ne_zero (by exact_mod_cast hm0) hpos.ne'
    have habs : |(m : ℚ) * 2 ^ k| = ((|m| : Int) : ℚ) * 2 ^ k := by
      rw [abs_mul, abs_of_pos hpos, Int.cast_abs]
    have hxpos : (0 : ℚ) < |(m : ℚ) * 2 ^ k| := abs_pos.2 hx0
    obtain ⟨n, hn⟩ := grid_exp (|(m : ℚ) * 2 ^ k|) (|m|) k hxpos hm (le_of_eq habs)
    have hu : (0 : ℚ) < 2 ^ (Int.log 2 |(m : ℚ) * 2 ^ k| - 52) := zpow_pos (by norm_num) _
    unfold roundF64
    rw [if_neg hx0]
    generalize (2 : ℚ) ^ (Int.log 2 |(m : ℚ) * 2 ^ k| - 52) = u at hn hu ⊢
    have hy : (m : ℚ) * 2 ^ k / u = ((m * 2 ^ n : Int) : ℚ) := by
      rw [div_eq_iff hu.ne', hn]
      push_cast
      ring
    rw [hy, roundHalfEven_intCast, hn]
    push_cast
    ring

theorem roundF64_intCast (n : Int) (hn : |n| < 2 ^ 53) : roundF64 (n : ℚ) = n := by
  have := roundF64_of_significand n 0 hn
  simpa using this

/-! ## The `float64` product `Norm*9` -/

/-- The rounding of `roundShift` is the rounding to the nearest integer, a tie
going to the even one. -/
theorem roundHalfEven_natDiv (p s : Nat) :
    roundHalfEven ((p : ℚ) / 2 ^ s) = (roundShift p s : Int) := by
  have hD : (0 : ℚ) < 2 ^ s := by positivity
  have hdm := Nat.div_add_mod p (2 ^ s)
  have hmod : p % 2 ^ s < 2 ^ s := Nat.mod_lt p (by positivity)
  have hp : (p : ℚ) = (2 : ℚ) ^ s * ((p / 2 ^ s : Nat) : ℚ) + ((p % 2 ^ s : Nat) : ℚ) := by
    exact_mod_cast hdm.symm
  have hr : ((p % 2 ^ s : Nat) : ℚ) < 2 ^ s := by exact_mod_cast hmod
  have hr0 : (0 : ℚ) ≤ ((p % 2 ^ s : Nat) : ℚ) := by positivity
  have hy : (p : ℚ) / 2 ^ s
      = ((p / 2 ^ s : Nat) : ℚ) + ((p % 2 ^ s : Nat) : ℚ) / 2 ^ s := by
    rw [div_eq_iff hD.ne', add_mul, div_mul_cancel₀ _ hD.ne']
    linarith
  have hfl : ⌊(p : ℚ) / 2 ^ s⌋ = ((p / 2 ^ s : Nat) : Int) := by
    rw [Int.floor_eq_iff, hy, Int.cast_natCast]
    constructor
    · have : (0 : ℚ) ≤ ((p % 2 ^ s : Nat) : ℚ) / 2 ^ s := div_nonneg hr0 hD.le
      linarith
    · have : ((p % 2 ^ s : Nat) : ℚ) / 2 ^ s < 1 := (div_lt_one hD).2 hr
      linarith
  have hfr : (p : ℚ) / 2 ^ s - ((⌊(p : ℚ) / 2 ^ s⌋ : Int) : ℚ)
      = ((p % 2 ^ s : Nat) : ℚ) / 2 ^ s := by
    rw [hfl, hy, Int.cast_natCast]
    ring
  have hlt : ((p % 2 ^ s : Nat) : ℚ) / 2 ^ s < 1 / 2 ↔ 2 * (p % 2 ^ s) < 2 ^ s := by
    rw [div_lt_div_iff₀ hD (by norm_num)]
    constructor
    · intro h
      have h2 : ((2 * (p % 2 ^ s) : Nat) : ℚ) < ((2 ^ s : Nat) : ℚ) := by
        push_cast
        linarith
      exact_mod_cast h2
    · intro h
      have h2 : ((2 * (p % 2 ^ s) : Nat) : ℚ) < ((2 ^ s : Nat) : ℚ) := by exact_mod_cast h
      push_cast at h2
      linarith
  have heq : ((p % 2 ^ s : Nat) : ℚ) / 2 ^ s = 1 / 2 ↔ 2 * (p % 2 ^ s) = 2 ^ s := by
    rw [div_eq_div_iff hD.ne' (by norm_num)]
    constructor
    · intro h
      have h2 : ((2 * (p % 2 ^ s) : Nat) : ℚ) = ((2 ^ s : Nat) : ℚ) := by
        push_cast
        linarith
      exact_mod_cast h2
    · intro h
      have h2 : ((2 * (p % 2 ^ s) : Nat) : ℚ) = ((2 ^ s : Nat) : ℚ) := by exact_mod_cast h
      push_cast at h2
      linarith
  unfold roundHalfEven roundShift
  rw [hfr, hfl]
  simp only
  by_cases h1 : 2 * (p % 2 ^ s) < 2 ^ s
  · rw [if_pos (hlt.2 h1), if_pos h1]
  · rw [if_neg (fun h => h1 (hlt.1 h)), if_neg h1]
    by_cases h2 : 2 * (p % 2 ^ s) = 2 ^ s ∧ p / 2 ^ s % 2 = 0
    · rw [if_pos ⟨heq.2 h2.1, by omega⟩, if_pos h2]
    · rw [if_neg (fun h => h2 ⟨heq.1 h.1, by omega⟩), if_neg h2]
      push_cast
      rfl

/-- Rounding to the nearest integer, ties to even, commutes with negation. -/
theorem roundHalfEven_neg (y : ℚ) : roundHalfEven (-y) = -roundHalfEven y := by
  by_cases hint : y = ((⌊y⌋ : Int) : ℚ)
  · rw [hint, ← Int.cast_neg, roundHalfEven_intCast, roundHalfEven_intCast]
  · have h1 : ((⌊y⌋ : Int) : ℚ) ≤ y := Int.floor_le y
    have h2 : y < ((⌊y⌋ : Int) : ℚ) + 1 := Int.lt_floor_add_one y
    have h3 : ((⌊y⌋ : Int) : ℚ) < y := lt_of_le_of_ne h1 (fun h => hint h.symm)
    have hfl : ⌊-y⌋ = -⌊y⌋ - 1 := by
      rw [Int.floor_eq_iff]
      push_cast
      constructor <;> linarith
    have hfr : -y - ((-⌊y⌋ - 1 : Int) : ℚ) = 1 - (y - ((⌊y⌋ : Int) : ℚ)) := by
      push_cast
      ring
    have hf0 : 0 < y - ((⌊y⌋ : Int) : ℚ) := by linarith
    unfold roundHalfEven
    rw [hfl, hfr]
    generalize y - ((⌊y⌋ : Int) : ℚ) = f at hf0 ⊢
    generalize ⌊y⌋ = n
    rcases lt_trichotomy f (1 / 2) with hlt | heq | hgt
    · have c1 : ¬ (1 - f < 1 / 2) := by linarith
      have c2 : ¬ (1 - f = 1 / 2 ∧ (-n - 1) % 2 = 0) := fun h => by linarith [h.1]
      rw [if_neg c1, if_neg c2, if_pos hlt]
      omega
    · have c1 : ¬ (1 - f < 1 / 2) := by linarith
      have d1 : ¬ (f < 1 / 2) := by linarith
      have e1 : 1 - f = 1 / 2 := by linarith
      rw [if_neg c1, if_neg d1]
      by_cases hc : n % 2 = 0
      · have c2 : ¬ (1 - f = 1 / 2 ∧ (-n - 1) % 2 = 0) := fun h => by omega
        have d2 : f = 1 / 2 ∧ n % 2 = 0 := ⟨heq, hc⟩
        rw [if_neg c2, if_pos d2]
        omega
      · have c2 : 1 - f = 1 / 2 ∧ (-n - 1) % 2 = 0 := ⟨e1, by omega⟩
        have d2 : ¬ (f = 1 / 2 ∧ n % 2 = 0) := fun h => hc h.2
        rw [if_pos c2, if_neg d2]
        omega
    · have c1 : 1 - f < 1 / 2 := by linarith
      have d1 : ¬ (f < 1 / 2) := by linarith
      have d2 : ¬ (f = 1 / 2 ∧ n % 2 = 0) := fun h => by linarith [h.1]
      rw [if_pos c1, if_neg d1, if_neg d2]
      omega

theorem log_two_eq (y : ℚ) (k : Int) (h1 : (2 : ℚ) ^ k ≤ y) (h2 : y < (2 : ℚ) ^ (k + 1)) :
    Int.log 2 y = k := by
  have hy : 0 < y := lt_of_lt_of_le (zpow_pos (by norm_num) k) h1
  have ha : k ≤ Int.log 2 y := (Int.zpow_le_iff_le_log (by norm_num) hy).1 (by exact_mod_cast h1)
  have hb : Int.log 2 y < k + 1 :=
    (Int.lt_zpow_iff_log_lt (by norm_num) hy).1 (by exact_mod_cast h2)
  omega

theorem excessBits_bounds (x : Nat) (h53 : 2 ^ 53 ≤ x) (h57 : x < 2 ^ 57) :
    2 ^ (52 + excessBits x) ≤ x ∧ x < 2 ^ (53 + excessBits x) := by
  unfold excessBits
  split_ifs <;> norm_num at * <;> omega

/-- The product of the embedding is the exact product rounded to the nearest
`float64`, ties to even. -/
theorem mulNine_eq_roundF64 (x : Float64) :
    pairValue (mulNine x) = roundF64 (x.toRat * 9) := by
  by_cases hsmall : 9 * x.mant.natAbs < 2 ^ 53
  · rw [mulNine_exact x hsmall]
    have e : x.toRat * 9 = ((9 * x.mant : Int) : ℚ) * 2 ^ x.exp := by
      unfold Float64.toRat
      push_cast
      ring
    have habs9 : |9 * x.mant| = ((9 * x.mant.natAbs : Nat) : Int) := by
      rw [abs_mul, Int.abs_eq_natAbs x.mant, abs_of_pos (by norm_num), Nat.cast_mul]
      rfl
    rw [e, roundF64_of_significand _ _ (by rw [habs9]; omega)]
  · have h53 : 2 ^ 53 ≤ 9 * x.mant.natAbs := not_lt.1 hsmall
    have h57 : 9 * x.mant.natAbs < 2 ^ 57 := by
      have := x.mant_lt
      omega
    obtain ⟨hlo, hhi⟩ := excessBits_bounds _ h53 h57
    have hM0 : x.mant ≠ 0 := by
      intro h
      rw [h] at h53
      norm_num at h53
    have hE : (0 : ℚ) < 2 ^ x.exp := zpow_pos (by norm_num) _
    have habs : |x.toRat * 9| = ((9 * x.mant.natAbs : Nat) : ℚ) * 2 ^ x.exp := by
      unfold Float64.toRat
      rw [abs_mul, abs_mul, abs_of_pos hE, Nat.cast_mul, Nat.cast_natAbs, Int.cast_abs]
      norm_num
      ring
    have hlog : Int.log 2 |x.toRat * 9|
        = 52 + (excessBits (9 * x.mant.natAbs) : Int) + x.exp := by
      apply log_two_eq
      · rw [habs, zpow_add₀ (by norm_num)]
        apply mul_le_mul_of_nonneg_right _ hE.le
        have : (((2 : Nat) ^ (52 + excessBits (9 * x.mant.natAbs)) : Nat) : ℚ)
            ≤ ((9 * x.mant.natAbs : Nat) : ℚ) := by exact_mod_cast hlo
        rw [show (52 : Int) + (excessBits (9 * x.mant.natAbs) : Int)
          = ((52 + excessBits (9 * x.mant.natAbs) : Nat) : Int) by push_cast; ring, zpow_natCast]
        exact_mod_cast this
      · rw [habs, show (52 : Int) + (excessBits (9 * x.mant.natAbs) : Int) + x.exp + 1
          = ((53 + excessBits (9 * x.mant.natAbs) : Nat) : Int) + x.exp by push_cast; ring,
          zpow_add₀ (by norm_num), zpow_natCast]
        apply mul_lt_mul_of_pos_right _ hE
        exact_mod_cast hhi
    have hx0 : x.toRat * 9 ≠ 0 := by
      unfold Float64.toRat
      exact mul_ne_zero (mul_ne_zero (by exact_mod_cast hM0) hE.ne') (by norm_num)
    have hS : (0 : ℚ) < 2 ^ excessBits (9 * x.mant.natAbs) := by positivity
    have hu : (2 : ℚ) ^ (Int.log 2 |x.toRat * 9| - 52)
        = 2 ^ excessBits (9 * x.mant.natAbs) * 2 ^ x.exp := by
      rw [hlog, show (52 : Int) + (excessBits (9 * x.mant.natAbs) : Int) + x.exp - 52
        = ((excessBits (9 * x.mant.natAbs) : Nat) : Int) + x.exp by ring,
        zpow_add₀ (by norm_num), zpow_natCast]
    have hq : x.toRat * 9 / (2 ^ excessBits (9 * x.mant.natAbs) * 2 ^ x.exp)
        = (x.mant.sign : ℚ)
            * (((9 * x.mant.natAbs : Nat) : ℚ) / 2 ^ excessBits (9 * x.mant.natAbs)) := by
      have hs : (x.mant : ℚ) = (x.mant.sign : ℚ) * ((x.mant.natAbs : Nat) : ℚ) := by
        have h := congrArg (Int.cast : Int → ℚ) (Int.sign_mul_natAbs x.mant)
        rw [Int.cast_mul, Int.cast_natCast] at h
        exact h.symm
      unfold Float64.toRat
      rw [div_eq_iff (mul_pos hS hE).ne']
      conv_lhs => rw [hs]
      field_simp
      ring
    have hround : roundHalfEven ((x.mant.sign : ℚ)
          * (((9 * x.mant.natAbs : Nat) : ℚ) / 2 ^ excessBits (9 * x.mant.natAbs)))
        = x.mant.sign * (roundShift (9 * x.mant.natAbs) (excessBits (9 * x.mant.natAbs)) : Int) := by
      rcases lt_or_gt_of_ne hM0 with hneg | hpos
      · rw [Int.sign_eq_neg_one_of_neg hneg]
        push_cast
        rw [neg_one_mul, roundHalfEven_neg, neg_one_mul]
        congr 1
        exact_mod_cast roundHalfEven_natDiv _ _
      · rw [Int.sign_eq_one_of_pos hpos]
        push_cast
        rw [one_mul, one_mul]
        exact_mod_cast roundHalfEven_natDiv _ _
    unfold roundF64
    rw [if_neg hx0, hu, hq, hround]
    unfold pairValue mulNine
    simp only
    rw [zpow_add₀ (by norm_num), zpow_natCast]
    push_cast
    ring

/-- The level of an executed boundary, for every finite `Norm`: the floor of
the `float64` product, converted to `int`, plus one. -/
theorem coverLevel_eq_round (b : Boundary) (hc : 0 < b.Count) :
    coverLevel b = wrap64 (toInt64 ⌊roundF64 (b.Norm.toRat * 9)⌋ + 1) := by
  unfold coverLevel
  rw [if_pos hc, floorInt_eq_floor, mulNine_eq_roundF64]

/-- The level of an executed boundary with `Norm` in `[0,1]`. -/
theorem coverLevel_unit (b : Boundary) (hc : 0 < b.Count) (h0 : 0 ≤ b.Norm.toRat)
    (h1 : b.Norm.toRat ≤ 1) :
    coverLevel b = ⌊roundF64 (b.Norm.toRat * 9)⌋ + 1 ∧
      1 ≤ coverLevel b ∧ coverLevel b ≤ 10 ∧ (coverLevel b = 10 ↔ b.Norm.toRat = 1) := by
  obtain ⟨hlo, hhi, hiff⟩ := floor_mulNine b.Norm h0 h1
  refine ⟨?_, coverLevel_bounds b hc h0 h1⟩
  rw [← mulNine_eq_roundF64, ← floorInt_eq_floor]
  exact coverLevel_of_small b hc (by omega) (by omega)

theorem floor_third_example :
    ⌊(⟨0x15555555555555, -54, by decide⟩ : Float64).toRat * 9⌋ = 2 ∧
      roundF64 ((⟨0x15555555555555, -54, by decide⟩ : Float64).toRat * 9) = 3 := by
  constructor
  · rw [Int.floor_eq_iff]
    norm_num [Float64.toRat]
  · rw [← mulNine_eq_roundF64]
    have h : mulNine ⟨0x15555555555555, -54, by decide⟩ = (6755399441055744, -51) := by
      decide
    rw [h]
    norm_num [pairValue]

/-! ## The coverage percentage -/

theorem wrap64_idem (x : Int) : wrap64 (wrap64 x) = wrap64 x := by
  unfold wrap64
  norm_num

theorem wrap64_add_wrap (x y : Int) : wrap64 (x + wrap64 y) = wrap64 (x + y) := by
  unfold wrap64
  norm_num
  omega

theorem wrap64_wrap_add (x y : Int) : wrap64 (wrap64 x + y) = wrap64 (x + y) := by
  unfold wrap64
  norm_num
  omega

theorem percentSums_cons (b : ProfileBlock) (bs : List ProfileBlock) (acc : Int × Int) :
    percentSums (b :: bs) acc
      = percentSums bs
          (wrap64 (acc.1 + wrap64 b.NumStmt),
            if b.Count > 0 then wrap64 (acc.2 + wrap64 b.NumStmt) else acc.2) := rfl

theorem totalStmts_cons (b : ProfileBlock) (bs : List ProfileBlock) :
    totalStmts (b :: bs) = b.NumStmt + totalStmts bs := by
  simp [totalStmts]

theorem coveredStmts_cons (b : ProfileBlock) (bs : List ProfileBlock) :
    coveredStmts (b :: bs)
      = if b.Count > 0 then b.NumStmt + coveredStmts bs else coveredStmts bs := by
  unfold coveredStmts
  by_cases h : b.Count > 0
  · simp [List.filter_cons, h]
  · simp [List.filter_cons, h]

/-- The accumulators of the loop are the two sums, wrapped to 64 bits. -/
theorem percentSums_eq (blocks : List ProfileBlock) :
    ∀ t c : Int,
      percentSums blocks (wrap64 t, wrap64 c)
        = (wrap64 (t + totalStmts blocks), wrap64 (c + coveredStmts blocks)) := by
  induction blocks with
  | nil =>
    intro t c
    simp [percentSums, totalStmts, coveredStmts]
  | cons b bs ih =>
    intro t c
    rw [percentSums_cons, totalStmts_cons, coveredStmts_cons]
    simp only
    have hw : ∀ x : Int, wrap64 (wrap64 x + wrap64 b.NumStmt) = wrap64 (x + b.NumStmt) := by
      intro x
      rw [wrap64_add_wrap, wrap64_wrap_add]
    by_cases h : b.Count > 0
    · rw [if_pos h, if_pos h, hw t, hw c, ih, add_assoc, add_assoc]
    · rw [if_neg h, if_neg h, hw t, ih, add_assoc]

theorem percentSums_zero (blocks : List ProfileBlock) :
    percentSums blocks (0, 0) = (wrap64 (totalStmts blocks), wrap64 (coveredStmts blocks)) := by
  have h := percentSums_eq blocks 0 0
  have h0 : wrap64 0 = 0 := by decide
  rw [h0, zero_add, zero_add] at h
  exact h

theorem coveredStmts_le (blocks : List ProfileBlock) (hn : ∀ b ∈ blocks, 0 ≤ b.NumStmt) :
    0 ≤ coveredStmts blocks ∧ coveredStmts blocks ≤ totalStmts blocks := by
  induction blocks with
  | nil => simp [coveredStmts, totalStmts]
  | cons b bs ih =>
    have hb := hn b (by simp)
    have ih2 := ih (fun x hx => hn x (by simp [hx]))
    rw [coveredStmts_cons, totalStmts_cons]
    split_ifs <;> omega

/-- The value returned for sums `covered <= total` that are non-negative lies
between 0 and 100. -/
theorem percent_bounds (c t : Int) (hc : 0 ≤ c) (hct : c ≤ t) (ht : 0 < t) :
    0 ≤ roundF64 (roundF64 (roundF64 c / roundF64 t) * 100) ∧
      roundF64 (roundF64 (roundF64 c / roundF64 t) * 100) ≤ 100 := by
  have hcq : (0 : ℚ) ≤ (c : ℚ) := by exact_mod_cast hc
  have htq : (0 : ℚ) < (t : ℚ) := by exact_mod_cast ht
  have hctq : (c : ℚ) ≤ (t : ℚ) := by exact_mod_cast hct
  have hfc := roundF64_nonneg _ hcq
  have hft := roundF64_pos _ htq
  have hle := roundF64_mono _ _ hcq hctq
  have hq0 : 0 ≤ roundF64 c / roundF64 t := div_nonneg hfc hft.le
  have hq1 : roundF64 c / roundF64 t ≤ 1 := (div_le_one hft).2 hle
  have hfq0 := roundF64_nonneg _ hq0
  have hfq1 : roundF64 (roundF64 c / roundF64 t) ≤ 1 := by
    have := roundF64_le (roundF64 c / roundF64 t) 1 0 hq0 (by norm_num) (by norm_num)
      (by simpa using hq1)
    simpa using this
  have hp0 : 0 ≤ roundF64 (roundF64 c / roundF64 t) * 100 := by positivity
  have hp1 : roundF64 (roundF64 c / roundF64 t) * 100 ≤ 100 := by linarith
  refine ⟨roundF64_nonneg _ hp0, ?_⟩
  have h100 : ((25 : Int) : ℚ) * 2 ^ (2 : Int) = 100 := by norm_num
  have := roundF64_le (roundF64 (roundF64 c / roundF64 t) * 100) 25 2 hp0 (by norm_num)
    (by norm_num) (by rw [h100]; exact hp1)
  rwa [h100] at this

/-- A value with a significand below `2^53` is a `float64`: rounding keeps it. -/
theorem roundF64_eq (x : ℚ) (m k : Int) (hm : |m| < 2 ^ 53) (hx : x = (m : ℚ) * 2 ^ k) :
    roundF64 x = x := by
  rw [hx]
  exact roundF64_of_significand m k hm

theorem totalStmts_of_zero (blocks : List ProfileBlock) (h : ∀ b ∈ blocks, b.NumStmt = 0) :
    totalStmts blocks = 0 := by
  induction blocks with
  | nil => rfl
  | cons b bs ih =>
    rw [totalStmts_cons, h b (by simp), ih (fun x hx => h x (by simp [hx]))]
    rfl

theorem percentCovered_eq (blocks : List ProfileBlock) :
    percentCovered blocks
      = if wrap64 (totalStmts blocks) = 0 then 0
        else roundF64 (roundF64 (roundF64 (wrap64 (coveredStmts blocks))
          / roundF64 (wrap64 (totalStmts blocks))) * 100) := by
  unfold percentCovered
  rw [percentSums_zero]

/-! ## The elements of the document -/

section Template

theorem tailsWith_cons (pat : List Char) (c : Char) (cs : List Char) :
    tailsWith pat (c :: cs)
      = if pat.isPrefixOf (c :: cs) then (c :: cs) :: tailsWith pat cs
        else tailsWith pat cs := rfl

theorem settled_cons (pat : List Char) (c : Char) (cs : List Char) :
    settled pat (c :: cs)
      = ((!(c :: cs).isPrefixOf pat || pat.isPrefixOf (c :: cs)) && settled pat cs) := rfl

theorem countOcc_eq_length (pat s : List Char) :
    countOcc pat s = (tailsWith pat s).length := by
  induction s with
  | nil => rfl
  | cons c cs ih =>
    rw [countOcc_cons, tailsWith_cons, ih]
    by_cases h : pat.isPrefixOf (c :: cs) = true
    · rw [if_pos h, if_pos h, List.length_cons, Nat.add_comm]
    · rw [if_neg h, if_neg h, Nat.zero_add]

/-- Whether the pattern starts a text is decided within the text, when the
text is not the start of an unfinished occurrence. -/
theorem isPrefixOf_append_settled (pat s t : List Char)
    (h : (!s.isPrefixOf pat || pat.isPrefixOf s) = true) :
    pat.isPrefixOf (s ++ t) = pat.isPrefixOf s := by
  rw [Bool.eq_iff_iff, List.isPrefixOf_iff_prefix, List.isPrefixOf_iff_prefix]
  rw [Bool.or_eq_true, Bool.not_eq_true', ← Bool.not_eq_true, List.isPrefixOf_iff_prefix,
    List.isPrefixOf_iff_prefix] at h
  constructor
  · intro hp
    rcases List.prefix_or_prefix_of_prefix hp (List.prefix_append s t) with h1 | h1
    · exact h1
    · rcases h with h | h
      · exact absurd h1 h
      · exact h
  · intro hp
    exact hp.trans (List.prefix_append s t)

theorem tailsWith_append (pat a t : List Char) (h : settled pat a = true) :
    tailsWith pat (a ++ t) = (tailsWith pat a).map (fun s => s ++ t) ++ tailsWith pat t := by
  induction a with
  | nil => rfl
  | cons c cs ih =>
    rw [settled_cons, Bool.and_eq_true] at h
    rw [List.cons_append, tailsWith_cons, tailsWith_cons, ← List.cons_append,
      isPrefixOf_append_settled pat (c :: cs) t h.1, ih h.2]
    by_cases hp : pat.isPrefixOf (c :: cs) = true
    · rw [if_pos hp, if_pos hp]
      rfl
    · rw [if_neg hp, if_neg hp]

theorem settled_append (pat a b : List Char) (ha : settled pat a = true)
    (hb : settled pat b = true) : settled pat (a ++ b) = true := by
  induction a with
  | nil => exact hb
  | cons c cs ih =>
    rw [settled_cons, Bool.and_eq_true] at ha
    rw [List.cons_append, settled_cons, Bool.and_eq_true, ← List.cons_append]
    refine ⟨?_, ih ha.2⟩
    have h1 := ha.1
    rw [Bool.or_eq_true, Bool.not_eq_true', ← Bool.not_eq_true, List.isPrefixOf_iff_prefix,
      List.isPrefixOf_iff_prefix] at h1 ⊢
    rcases h1 with h1 | h1
    · exact Or.inl (fun hp => h1 ((List.prefix_append _ _).trans hp))
    · exact Or.inr (h1.trans (List.prefix_append _ _))

theorem quiet_iff (pat s : List Char) :
    quiet pat s = true ↔ settled pat s = true ∧ tailsWith pat s = [] := by
  unfold quiet
  rw [Bool.and_eq_true, List.isEmpty_iff]

theorem tailsWith_quiet (pat a t : List Char) (h : quiet pat a = true) :
    tailsWith pat (a ++ t) = tailsWith pat t := by
  rw [quiet_iff] at h
  rw [tailsWith_append pat a t h.1, h.2]
  rfl

theorem quiet_append (pat a b : List Char) (ha : quiet pat a = true)
    (hb : quiet pat b = true) : quiet pat (a ++ b) = true := by
  have h := tailsWith_quiet pat a b ha
  rw [quiet_iff] at ha hb ⊢
  exact ⟨settled_append pat a b ha.1 hb.1, by rw [h, hb.2]⟩

/-- A text without `<` holds no occurrence of a pattern that starts with `<`. -/
theorem quiet_of_noLt (q a : List Char) (h : ∀ c ∈ a, c ≠ '<') :
    quiet ('<' :: q) a = true := by
  rw [quiet_iff]
  induction a with
  | nil => exact ⟨rfl, rfl⟩
  | cons c cs ih =>
    have hc : c ≠ '<' := h c (by simp)
    have ih2 := ih (fun x hx => h x (by simp [hx]))
    have h1 : (c :: cs).isPrefixOf ('<' :: q) = false := by
      simp [List.isPrefixOf, hc]
    have h2 : ('<' :: q).isPrefixOf (c :: cs) = false := by
      simp [List.isPrefixOf, Ne.symm hc]
    rw [settled_cons, tailsWith_cons, h1, h2, ih2.1]
    exact ⟨rfl, ih2.2⟩

/-- A tag whose name starts otherwise than the pattern holds no occurrence of
the pattern. -/
theorem quiet_tag (d c : Char) (q r : List Char) (hcd : c ≠ d) (hc : c ≠ '<')
    (hr : ∀ x ∈ r, x ≠ '<') : quiet ('<' :: d :: q) ('<' :: c :: r) = true := by
  have hq := quiet_of_noLt (d :: q) (c :: r) (by
    intro x hx
    rcases List.mem_cons.1 hx with rfl | hx
    · exact hc
    · exact hr x hx)
  rw [quiet_iff] at hq ⊢
  have h1 : ('<' :: c :: r).isPrefixOf ('<' :: d :: q) = false := by
    simp [List.isPrefixOf, hcd]
  have h2 : ('<' :: d :: q).isPrefixOf ('<' :: c :: r) = false := by
    simp [List.isPrefixOf, Ne.symm hcd]
  rw [settled_cons, tailsWith_cons, h1, h2, hq.1]
  exact ⟨rfl, hq.2⟩

theorem quiet_render (d : Char) (q : List Char) (hs : 's' ≠ d) (hl : '/' ≠ d) (p : Piece)
    (hp : p.plain) : quiet ('<' :: d :: q) p.render = true := by
  cases p with
  | openSpan cls title =>
    have hb := tagBody_plain cls title hp.1 hp.2
    have e : tagBody cls title
        = 's' :: ("pan class=\"".toList
            ++ (cls ++ ("\" title=\"".toList ++ (title ++ "\"".toList)))) := rfl
    rw [render_openSpan, e, List.cons_append]
    refine quiet_tag d 's' q _ hs (by decide) ?_
    intro x hx
    rcases List.mem_append.1 hx with h | h
    · exact (hb x (by rw [e]; exact List.mem_cons_of_mem _ h)).1
    · rw [List.mem_singleton] at h
      rw [h]
      decide
  | closeSpan =>
    have e : Piece.closeSpan.render = '<' :: '/' :: "span>".toList := by decide
    rw [e]
    exact quiet_tag d '/' q _ hl (by decide) (by decide)
  | text s =>
    exact quiet_of_noLt (d :: q) s (fun c hc => (hp c hc).1)

theorem quiet_pieces (d : Char) (q : List Char) (hs : 's' ≠ d) (hl : '/' ≠ d)
    (ps : List Piece) (hps : ∀ p ∈ ps, p.plain) :
    quiet ('<' :: d :: q) (ps.map Piece.render).flatten = true := by
  induction ps with
  | nil => rfl
  | cons p ps ih =>
    rw [List.map_cons, List.flatten_cons]
    exact quiet_append _ _ _ (quiet_render d q hs hl p (hps p (by simp)))
      (ih (fun x hx => hps x (by simp [hx])))

/-- The output of `htmlGen` holds no tag other than those of `span`. -/
theorem quiet_htmlGen (d : Char) (q : List Char) (hs : 's' ≠ d) (hl : '/' ≠ d)
    (src : List Char) (filename : String) (bs : List Boundary) (report : tarpReport) :
    quiet ('<' :: d :: q) (htmlGen src filename bs report) = true :=
  quiet_pieces d q hs hl _ (scan_plain filename report src 1 0 bs)

theorem htmlEscapeByte_noLt (c : Char) : ∀ x ∈ htmlEscapeByte c, x ≠ '<' := by
  unfold htmlEscapeByte
  split_ifs with h1 h2 h3 h4 h5 h6 h7
  · decide
  · decide
  · decide
  · decide
  · decide
  · decide
  · decide
  · intro x hx
    rw [List.mem_singleton] at hx
    rw [hx]
    exact h6

theorem htmlEscape_noLt (s : List Char) : ∀ x ∈ htmlEscape s, x ≠ '<' := by
  intro x hx
  unfold htmlEscape at hx
  rw [List.mem_flatMap] at hx
  obtain ⟨c, -, hc⟩ := hx
  exact htmlEscapeByte_noLt c x hc

theorem quiet_htmlEscape (q s : List Char) : quiet ('<' :: q) (htmlEscape s) = true :=
  quiet_of_noLt q _ (htmlEscape_noLt s)

/-- A byte that the escaper of `html/template` leaves as it is. -/
theorem htmlEscape_of_kept (s : List Char) (h : ∀ c ∈ s, htmlEscapeByte c = [c]) :
    htmlEscape s = s := by
  induction s with
  | nil => rfl
  | cons c cs ih =>
    unfold htmlEscape at ih ⊢
    rw [List.flatMap_cons, h c (by simp), ih (fun x hx => h x (by simp [hx]))]
    rfl

theorem digitChar_kept : ∀ d : Nat, d < 10 → htmlEscapeByte (Nat.digitChar d) = [Nat.digitChar d] := by
  decide

theorem toDigitsCore_kept (fuel : Nat) :
    ∀ (n : Nat) (ds : List Char), (∀ c ∈ ds, htmlEscapeByte c = [c]) →
      ∀ c ∈ Nat.toDigitsCore 10 fuel n ds, htmlEscapeByte c = [c] := by
  induction fuel with
  | zero => intro n ds hds c hc; exact hds c (by simpa [Nat.toDigitsCore] using hc)
  | succ fuel ih =>
    intro n ds hds c hc
    have hd := digitChar_kept (n % 10) (Nat.mod_lt _ (by norm_num))
    have hds2 : ∀ c ∈ Nat.digitChar (n % 10) :: ds, htmlEscapeByte c = [c] := by
      intro c hc
      rcases List.mem_cons.1 hc with rfl | hc
      · exact hd
      · exact hds c hc
    unfold Nat.toDigitsCore at hc
    simp only at hc
    split_ifs at hc with h0
    · exact hds2 c hc
    · exact ih _ _ hds2 c hc

theorem toDigits_kept (n : Nat) : ∀ c ∈ Nat.toDigits 10 n, htmlEscapeByte c = [c] :=
  toDigitsCore_kept _ _ _ (by simp)

theorem fmtInt_kept (n : Int) : ∀ c ∈ fmtInt n, htmlEscapeByte c = [c] := by
  intro c hc
  cases n with
  | ofNat m => exact toDigits_kept _ c hc
  | negSucc m =>
    rcases List.mem_cons.1 hc with rfl | hc
    · decide
    · exact toDigits_kept _ c hc

theorem fmtFixed1_kept (negative : Bool) (magnitude : ℚ) :
    ∀ c ∈ fmtFixed1 (.finite negative magnitude), htmlEscapeByte c = [c] := by
  intro c hc
  unfold fmtFixed1 at hc
  rw [List.mem_append, List.mem_append, List.mem_cons] at hc
  rcases hc with (hc | hc) | rfl | hc
  · split_ifs at hc
    · rw [List.mem_singleton] at hc
      rw [hc]
      decide
    · simp at hc
  · exact toDigits_kept _ c hc
  · decide
  · exact toDigits_kept _ c hc

theorem kept_ne (c : Char) (h : htmlEscapeByte c = [c]) : c ≠ '<' ∧ c ≠ '&' := by
  constructor
  · rintro rfl
    exact absurd h (by decide)
  · rintro rfl
    exact absurd h (by decide)

theorem fmtInt_noLt (n : Int) : ∀ c ∈ fmtInt n, c ≠ '<' :=
  fun c hc => (fmtInt_plain n c hc).1

theorem kept_ne_nul (c : Char) (h : htmlEscapeByte c = [c]) : c ≠ '\x00' := by
  rintro rfl
  exact absurd h (by decide)

theorem fmtFixed1_noNul (x : FloatValue) : ∀ c ∈ fmtFixed1 x, c ≠ '\x00' := by
  cases x with
  | finite negative magnitude =>
    exact fun c hc => kept_ne_nul c (fmtFixed1_kept negative magnitude c hc)
  | inf negative =>
    cases negative <;> decide
  | nan => decide

/-- The text of a finite coverage holds nothing that the escaper changes. -/
theorem htmlEscape_fmtFixed1 (negative : Bool) (magnitude : ℚ) :
    htmlEscape (fmtFixed1 (.finite negative magnitude)) = fmtFixed1 (.finite negative magnitude) :=
  htmlEscape_of_kept _ (fmtFixed1_kept negative magnitude)

/-- The integer that `roundHalfEven` gives is a nearest one, and an even one
when two integers are equally near. -/
theorem roundHalfEven_nearest (y : ℚ) :
    |(roundHalfEven y : ℚ) - y| ≤ 1 / 2 ∧
      (|(roundHalfEven y : ℚ) - y| = 1 / 2 → roundHalfEven y % 2 = 0) := by
  have h1 : ((⌊y⌋ : Int) : ℚ) ≤ y := Int.floor_le y
  have h2 : y < ((⌊y⌋ : Int) : ℚ) + 1 := Int.lt_floor_add_one y
  unfold roundHalfEven
  by_cases ha : y - ((⌊y⌋ : Int) : ℚ) < 1 / 2
  · rw [if_pos ha]
    have e : |((⌊y⌋ : Int) : ℚ) - y| = y - ((⌊y⌋ : Int) : ℚ) := by
      rw [abs_sub_comm, abs_of_nonneg (by linarith)]
    rw [e]
    exact ⟨ha.le, fun h => absurd h ha.ne⟩
  · rw [if_neg ha]
    by_cases hb : y - ((⌊y⌋ : Int) : ℚ) = 1 / 2 ∧ ⌊y⌋ % 2 = 0
    · rw [if_pos hb]
      have e : |((⌊y⌋ : Int) : ℚ) - y| = y - ((⌊y⌋ : Int) : ℚ) := by
        rw [abs_sub_comm, abs_of_nonneg (by linarith)]
      rw [e]
      exact ⟨hb.1.le, fun _ => hb.2⟩
    · rw [if_neg hb]
      have e : |((⌊y⌋ + 1 : Int) : ℚ) - y| = ((⌊y⌋ : Int) : ℚ) + 1 - y := by
        push_cast
        rw [abs_of_nonneg (by linarith)]
      rw [e]
      refine ⟨by linarith [not_lt.1 ha], fun h => ?_⟩
      have hhalf : y - ((⌊y⌋ : Int) : ℚ) = 1 / 2 := by linarith
      have hodd : ¬ ⌊y⌋ % 2 = 0 := fun h0 => hb ⟨hhalf, h0⟩
      omega

/-- The text that `%.1f` gives for a finite value: the sign, then the decimal
digits of `t / 10`, a point and the digit `t % 10`, where `t` is the integer
nearest to ten times the magnitude, the even one of two equally near. -/
theorem fmtFixed1_finite (negative : Bool) (magnitude : ℚ) :
    ∃ t : Nat, |(t : ℚ) - |magnitude| * 10| ≤ 1 / 2 ∧
      (|(t : ℚ) - |magnitude| * 10| = 1 / 2 → t % 2 = 0) ∧
      fmtFixed1 (.finite negative magnitude)
        = (if negative then ['-'] else []) ++ Nat.toDigits 10 (t / 10)
            ++ '.' :: Nat.toDigits 10 (t % 10) := by
  have h0 : (0 : ℚ) ≤ |magnitude| * 10 := by positivity
  have hfl : 0 ≤ ⌊|magnitude| * 10⌋ := Int.floor_nonneg.2 h0
  have hr : 0 ≤ roundHalfEven (|magnitude| * 10) :=
    le_trans hfl (roundHalfEven_ge_floor _)
  obtain ⟨t, ht⟩ := Int.eq_ofNat_of_zero_le hr
  obtain ⟨hn, he⟩ := roundHalfEven_nearest (|magnitude| * 10)
  refine ⟨t, ?_, ?_, ?_⟩
  · rw [ht] at hn
    exact_mod_cast hn
  · intro h
    rw [ht] at he
    have := he (by exact_mod_cast h)
    omega
  · simp only [fmtFixed1]
    rw [ht]
    rfl

theorem optionBody_eq (i : Nat) (f : templateFile) :
    optionBody i f = "\n\t\t\t\t".toList ++ (optionElement i f ++ "\n".toList) := by
  have h1 : "\n\t\t\t\t<option value=\"file".toList
      = "\n\t\t\t\t".toList ++ "<option value=\"file".toList := by decide
  have h2 : "%)</option>\n".toList = "%)".toList ++ ("</option>".toList ++ "\n".toList) := by
    decide
  unfold optionBody optionElement optionLabel
  rw [htmlEscape_of_kept _ (fmtInt_kept i), h1, h2]
  simp only [List.append_assoc]

theorem preBody_eq (i : Nat) (f : templateFile) :
    preBody i f = "\n\t\t".toList ++ (preElement i f ++ "\n".toList) := by
  have h1 : "\n\t\t<pre class=\"file\" id=\"file".toList
      = "\n\t\t".toList ++ "<pre class=\"file\" id=\"file".toList := by decide
  have h2 : "</pre>\n".toList = "</pre>".toList ++ "\n".toList := by decide
  unfold preBody preElement preTag
  rw [htmlEscape_of_kept _ (fmtInt_kept i), h1, h2]
  by_cases h0 : i = 0
  · subst h0
    rw [if_pos rfl, if_pos rfl]
    have h3 : "<pre class=\"file\" id=\"file".toList ++ fmtInt ((0 : Nat) : Int) ++ "\" ".toList
        ++ [] ++ ">".toList = "<pre class=\"file\" id=\"file0\" >".toList := by decide
    rw [← h3]
    simp only [List.append_assoc]
  · rw [if_neg h0, if_neg h0]
    have h3 : "\" style=\"display: none\">".toList
        = "\" ".toList ++ ("style=\"display: none\"".toList ++ ">".toList) := by decide
    rw [h3]
    simp only [List.append_assoc]

theorem quiet_optionLabel (q : List Char) (f : templateFile) :
    quiet ('<' :: q) (optionLabel f) = true := by
  unfold optionLabel
  exact quiet_append _ _ _
    (quiet_append _ _ _
      (quiet_append _ _ _ (quiet_htmlEscape q f.Name) (quiet_of_noLt q _ (by decide)))
      (quiet_htmlEscape q _))
    (quiet_of_noLt q _ (by decide))

/-- An `option` element holds one occurrence of `<option`, at its start. -/
theorem tailsWith_optionElement (n : Nat) (f : templateFile) (t : List Char) :
    tailsWith "<option".toList (optionElement n f ++ t)
      = (optionElement n f ++ t) :: tailsWith "<option".toList t := by
  have hq : quiet "<option".toList
      (fmtInt n ++ ("\">".toList ++ (optionLabel f ++ "</option>".toList))) = true :=
    quiet_append _ _ _ (quiet_of_noLt _ _ (fmtInt_noLt n))
      (quiet_append _ _ _ (by decide)
        (quiet_append _ _ _ (quiet_optionLabel _ f) (by decide)))
  have e : optionElement n f ++ t
      = "<option value=\"file".toList
          ++ ((fmtInt n ++ ("\">".toList ++ (optionLabel f ++ "</option>".toList))) ++ t) := by
    unfold optionElement
    simp only [List.append_assoc]
  rw [e, tailsWith_append _ _ _ (by decide), tailsWith_quiet _ _ _ hq]
  rfl

theorem quiet_optionElement (n : Nat) (f : templateFile) :
    quiet "<pre".toList (optionElement n f) = true := by
  unfold optionElement
  exact quiet_append _ _ _
    (quiet_append _ _ _
      (quiet_append _ _ _
        (quiet_append _ _ _ (by decide) (quiet_of_noLt _ _ (fmtInt_noLt n)))
        (by decide))
      (quiet_optionLabel _ f))
    (by decide)

theorem quiet_optionBody (n : Nat) (f : templateFile) :
    quiet "<pre".toList (optionBody n f) = true := by
  rw [optionBody_eq]
  exact quiet_append _ _ _ (by decide)
    (quiet_append _ _ _ (quiet_optionElement n f) (by decide))

theorem tailsWith_eq_nil_cons (pat : List Char) (c : Char) (cs : List Char)
    (h : tailsWith pat (c :: cs) = []) :
    pat.isPrefixOf (c :: cs) = false ∧ tailsWith pat cs = [] := by
  rw [tailsWith_cons] at h
  by_cases hp : pat.isPrefixOf (c :: cs) = true
  · rw [if_pos hp] at h
    exact absurd h (List.cons_ne_nil _ _)
  · rw [if_neg hp] at h
    exact ⟨Bool.eq_false_iff.2 hp, h⟩

/-- A text without an occurrence of the pattern, followed by a text that
starts with `<`, holds no occurrence that runs into the second text, when the
pattern has its only `<` at its start. -/
theorem quiet_before_lt (pat body cl : List Char) (hpat : '<' ∉ pat.tail)
    (h0 : tailsWith pat body = []) (hcl : quiet pat ('<' :: cl) = true) :
    quiet pat (body ++ '<' :: cl) = true := by
  induction body with
  | nil => exact hcl
  | cons c cs ih =>
    obtain ⟨hno, hrest⟩ := tailsWith_eq_nil_cons pat c cs h0
    have ih2 := (quiet_iff _ _).1 (ih hrest)
    have hA : ¬ (c :: (cs ++ '<' :: cl)) <+: pat := by
      rintro ⟨r, hr⟩
      apply hpat
      rw [← hr]
      simp
    have hB : ¬ pat <+: c :: (cs ++ '<' :: cl) := by
      intro hp
      rcases List.prefix_or_prefix_of_prefix hp (List.prefix_append (c :: cs) ('<' :: cl))
        with h | h
      · rw [← List.isPrefixOf_iff_prefix, hno] at h
        exact Bool.false_ne_true h
      · obtain ⟨r, hr⟩ := h
        have hp2 : r <+: '<' :: cl := by
          rw [← hr] at hp
          exact (List.prefix_append_right_inj (c :: cs)).1 hp
        cases r with
        | nil =>
          rw [List.append_nil] at hr
          have : pat.isPrefixOf (c :: cs) = true := by
            rw [List.isPrefixOf_iff_prefix, ← hr]
          rw [hno] at this
          exact Bool.false_ne_true this
        | cons x r =>
          have hx : x = '<' := (List.cons_prefix_cons.1 hp2).1
          apply hpat
          rw [← hr, hx]
          simp
    rw [quiet_iff, List.cons_append, settled_cons, tailsWith_cons, Bool.and_eq_true,
      Bool.or_eq_true, Bool.not_eq_true', ← Bool.not_eq_true, List.isPrefixOf_iff_prefix,
      if_neg (by rw [List.isPrefixOf_iff_prefix]; exact hB)]
    exact ⟨⟨Or.inl hA, ih2.1⟩, ih2.2⟩

/-- A `pre` block whose body holds no occurrence of `<pre` holds one, at its
start. -/
theorem tailsWith_preElement (n : Nat) (f : templateFile) (t : List Char)
    (hb : tailsWith "<pre".toList f.Body = []) :
    tailsWith "<pre".toList (preElement n f ++ t)
      = (preElement n f ++ t) :: tailsWith "<pre".toList t := by
  have hq : quiet "<pre".toList (f.Body ++ "</pre>".toList) = true :=
    quiet_before_lt _ _ "/pre>".toList (by decide) hb (by decide)
  by_cases h0 : n = 0
  · have e : preElement n f ++ t
        = "<pre class=\"file\" id=\"file0\" >".toList
            ++ ((f.Body ++ "</pre>".toList) ++ t) := by
      unfold preElement preTag
      rw [if_pos h0]
      simp only [List.append_assoc]
    rw [e, tailsWith_append _ _ _ (by decide), tailsWith_quiet _ _ _ hq]
    rfl
  · have hq2 : quiet "<pre".toList
        (fmtInt n ++ ("\" style=\"display: none\">".toList ++ (f.Body ++ "</pre>".toList)))
          = true :=
      quiet_append _ _ _ (quiet_of_noLt _ _ (fmtInt_noLt n))
        (quiet_append _ _ _ (by decide) hq)
    have e : preElement n f ++ t
        = "<pre class=\"file\" id=\"file".toList
            ++ ((fmtInt n ++ ("\" style=\"display: none\">".toList
              ++ (f.Body ++ "</pre>".toList))) ++ t) := by
      unfold preElement preTag
      rw [if_neg h0]
      simp only [List.append_assoc]
    rw [e, tailsWith_append _ _ _ (by decide), tailsWith_quiet _ _ _ hq2]
    rfl

theorem quiet_preBody (n : Nat) (f : templateFile)
    (hb : tailsWith "<option".toList f.Body = []) :
    quiet "<option".toList (preBody n f) = true := by
  have hif : quiet "<option".toList
      (if n = 0 then [] else "style=\"display: none\"".toList) = true := by
    split_ifs
    · rfl
    · decide
  unfold preBody
  simp only [List.append_assoc]
  exact quiet_append _ _ _ (by decide)
    (quiet_append _ _ _ (quiet_htmlEscape _ _)
      (quiet_append _ _ _ (by decide)
        (quiet_append _ _ _ hif
          (quiet_append _ _ _ (by decide)
            (quiet_before_lt _ _ "/pre>\n".toList (by decide) hb (by decide))))))

theorem rangeFiles_cons (body : Nat → templateFile → List Char) (i : Nat) (f : templateFile)
    (fs : List templateFile) :
    rangeFiles body i (f :: fs) = body i f ++ rangeFiles body (i + 1) fs := rfl

theorem quiet_rangeFiles (pat : List Char) (body : Nat → templateFile → List Char)
    (fs : List templateFile) (h : ∀ n, ∀ f ∈ fs, quiet pat (body n f) = true) :
    ∀ i, quiet pat (rangeFiles body i fs) = true := by
  induction fs with
  | nil => intro i; rfl
  | cons f fs ih =>
    intro i
    rw [rangeFiles_cons]
    exact quiet_append _ _ _ (h i f (by simp))
      (ih (fun n x hx => h n x (by simp [hx])) (i + 1))

/-- The occurrences of a pattern in the output of a `range` whose body is one
element between two texts without the pattern: one for every file, the one of
the file of index `N` at the start of its element. -/
theorem tailsWith_rangeFiles (pat pre post : List Char)
    (body elem : Nat → templateFile → List Char)
    (hpre : quiet pat pre = true) (hpost : quiet pat post = true)
    (fs : List templateFile) :
    (∀ n, ∀ f ∈ fs, body n f = pre ++ (elem n f ++ post)) →
    (∀ n, ∀ f ∈ fs, ∀ t, tailsWith pat (elem n f ++ t) = (elem n f ++ t) :: tailsWith pat t) →
    ∀ (i : Nat) (rest : List Char), tailsWith pat rest = [] →
      (tailsWith pat (rangeFiles body i fs ++ rest)).length = fs.length ∧
      ∀ N f, fs[N]? = some f →
        ∃ t, (tailsWith pat (rangeFiles body i fs ++ rest))[N]? = some (elem (i + N) f ++ t) := by
  induction fs with
  | nil =>
    intro _ _ i rest hrest
    rw [show rangeFiles body i [] ++ rest = rest from rfl, hrest]
    exact ⟨rfl, fun N f h => by simp at h⟩
  | cons f fs ih =>
    intro hbody helem i rest hrest
    obtain ⟨hlen, hget⟩ := ih (fun n x hx => hbody n x (by simp [hx]))
      (fun n x hx => helem n x (by simp [hx])) (i + 1) rest hrest
    have e : rangeFiles body i (f :: fs) ++ rest
        = pre ++ (elem i f ++ (post ++ (rangeFiles body (i + 1) fs ++ rest))) := by
      rw [rangeFiles_cons, hbody i f (by simp)]
      simp only [List.append_assoc]
    rw [e, tailsWith_quiet _ _ _ hpre, helem i f (by simp), tailsWith_quiet _ _ _ hpost]
    refine ⟨by rw [List.length_cons, hlen, List.length_cons], ?_⟩
    intro N g hg
    cases N with
    | zero =>
      rw [List.getElem?_cons_zero, Option.some.injEq] at hg
      subst hg
      exact ⟨_, by rw [List.getElem?_cons_zero]; rfl⟩
    | succ N =>
      rw [List.getElem?_cons_succ] at hg
      obtain ⟨t, ht⟩ := hget N g hg
      refine ⟨t, ?_⟩
      rw [List.getElem?_cons_succ, ht, Nat.add_right_comm, Nat.add_assoc]

theorem quiet_legend (pat : List Char) (set : Bool) (h1 : quiet pat tmplLegendSet = true)
    (h2 : quiet pat tmplLegendCount = true) :
    quiet pat (if set then tmplLegendSet else tmplLegendCount) = true := by
  cases set
  · exact h2
  · exact h1

theorem htmlTemplateExecute_eq (d : templateData) :
    htmlTemplateExecute d
      = tmplStyle ++ (CSScolors ++ (tmplSelect ++ (rangeFiles optionBody 0 d.Files
          ++ (tmplLegend ++ ((if d.Set then tmplLegendSet else tmplLegendCount)
            ++ (tmplContent ++ (rangeFiles preBody 0 d.Files ++ tmplTail))))))) := by
  unfold htmlTemplateExecute
  simp only [List.append_assoc]

set_option maxRecDepth 100000 in
/-- The occurrences of `<option` in the document: one for every file, the one
of the file of index `N` at the start of its `option` element. -/
theorem tailsWith_option_document (d : templateData)
    (hb : ∀ f ∈ d.Files, tailsWith "<option".toList f.Body = []) :
    (tailsWith "<option".toList (htmlTemplateExecute d)).length = d.Files.length ∧
    ∀ N f, d.Files[N]? = some f →
      ∃ t, (tailsWith "<option".toList (htmlTemplateExecute d))[N]?
        = some (optionElement N f ++ t) := by
  have hrest : quiet "<option".toList
      (tmplLegend ++ ((if d.Set then tmplLegendSet else tmplLegendCount)
        ++ (tmplContent ++ (rangeFiles preBody 0 d.Files ++ tmplTail)))) = true :=
    quiet_append _ _ _ (by decide)
      (quiet_append _ _ _ (quiet_legend _ _ (by decide) (by decide))
        (quiet_append _ _ _ (by decide)
          (quiet_append _ _ _
            (quiet_rangeFiles _ _ _ (fun n f hf => quiet_preBody n f (hb f hf)) 0)
            (by decide))))
  have h := tailsWith_rangeFiles "<option".toList "\n\t\t\t\t".toList "\n".toList
    optionBody optionElement (by decide) (by decide) d.Files
    (fun n f _ => optionBody_eq n f) (fun n f _ t => tailsWith_optionElement n f t) 0 _
    ((quiet_iff _ _).1 hrest).2
  rw [htmlTemplateExecute_eq, tailsWith_quiet _ tmplStyle _ (by decide),
    tailsWith_quiet _ CSScolors _ (by decide), tailsWith_quiet _ tmplSelect _ (by decide)]
  refine ⟨h.1, fun N f hf => ?_⟩
  obtain ⟨t, ht⟩ := h.2 N f hf
  rw [Nat.zero_add] at ht
  exact ⟨t, ht⟩

set_option maxRecDepth 100000 in
/-- The occurrences of `<pre` in the document: one for every file, the one of
the file of index `N` at the start of its `pre` block. -/
theorem tailsWith_pre_document (d : templateData)
    (hb : ∀ f ∈ d.Files, tailsWith "<pre".toList f.Body = []) :
    (tailsWith "<pre".toList (htmlTemplateExecute d)).length = d.Files.length ∧
    ∀ N f, d.Files[N]? = some f →
      ∃ t, (tailsWith "<pre".toList (htmlTemplateExecute d))[N]?
        = some (preElement N f ++ t) := by
  have h := tailsWith_rangeFiles "<pre".toList "\n\t\t".toList "\n".toList
    preBody preElement (by decide) (by decide) d.Files
    (fun n f _ => preBody_eq n f) (fun n f hf t => tailsWith_preElement n f t (hb f hf)) 0
    tmplTail (by decide)
  rw [htmlTemplateExecute_eq, tailsWith_quiet _ tmplStyle _ (by decide),
    tailsWith_quiet _ CSScolors _ (by decide), tailsWith_quiet _ tmplSelect _ (by decide),
    tailsWith_quiet _ _ _ (quiet_rangeFiles _ _ _ (fun n f _ => quiet_optionBody n f) 0),
    tailsWith_quiet _ tmplLegend _ (by decide),
    tailsWith_quiet _ _ _ (quiet_legend _ _ (by decide) (by decide)),
    tailsWith_quiet _ tmplContent _ (by decide)]
  refine ⟨h.1, fun N f hf => ?_⟩
  obtain ⟨t, ht⟩ := h.2 N f hf
  rw [Nat.zero_add] at ht
  exact ⟨t, ht⟩

set_option maxRecDepth 100000 in
/-- The text of the document before its `pre` blocks holds no occurrence of
`<pre`, whatever the files are. -/
theorem tailsWith_pre_skip (d : templateData) :
    tailsWith "<pre".toList (htmlTemplateExecute d)
      = tailsWith "<pre".toList (rangeFiles preBody 0 d.Files ++ tmplTail) := by
  rw [htmlTemplateExecute_eq, tailsWith_quiet _ tmplStyle _ (by decide),
    tailsWith_quiet _ CSScolors _ (by decide), tailsWith_quiet _ tmplSelect _ (by decide),
    tailsWith_quiet _ _ _ (quiet_rangeFiles _ _ _ (fun n f _ => quiet_optionBody n f) 0),
    tailsWith_quiet _ tmplLegend _ (by decide),
    tailsWith_quiet _ _ _ (quiet_legend _ _ (by decide) (by decide)),
    tailsWith_quiet _ tmplContent _ (by decide)]

/-- Two occurrences that start two given elements are all the occurrences of
a text that holds two. -/
theorem tailsWith_two (pat doc e0 e1 : List Char) (hlen : (tailsWith pat doc).length = 2)
    (h0 : ∃ t, (tailsWith pat doc)[0]? = some (e0 ++ t))
    (h1 : ∃ t, (tailsWith pat doc)[1]? = some (e1 ++ t)) :
    ∃ t0 t1, tailsWith pat doc = [e0 ++ t0, e1 ++ t1] := by
  obtain ⟨a, b, hab⟩ := List.length_eq_two.1 hlen
  obtain ⟨t0, h0⟩ := h0
  obtain ⟨t1, h1⟩ := h1
  rw [hab] at h0 h1
  rw [List.getElem?_cons_zero, Option.some.injEq] at h0
  rw [List.getElem?_cons_succ, List.getElem?_cons_zero, Option.some.injEq] at h1
  exact ⟨t0, t1, by rw [hab, h0, h1]⟩

theorem fmtFixed1_examples :
    fmtFixed1 (.finite false (301 / 4)) = "75.2".toList ∧
      fmtFixed1 (.finite true 0) = "-0.0".toList := by
  constructor
  · have hr : roundHalfEven (|(301 / 4 : ℚ)| * 10) = 752 := by
      have hfl : ⌊|(301 / 4 : ℚ)| * 10⌋ = 752 := by
        rw [Int.floor_eq_iff]
        norm_num [abs_of_pos]
      unfold roundHalfEven
      rw [hfl]
      norm_num [abs_of_pos]
    simp only [fmtFixed1]
    rw [hr]
    decide
  · have hr : roundHalfEven (|(0 : ℚ)| * 10) = 0 := by
      unfold roundHalfEven
      norm_num
    simp only [fmtFixed1]
    rw [hr]
    decide

/-- The elements of the two files `a+b.go`, of coverage 75.25, and `b.go`, of
coverage negative zero. -/
theorem elements_examples (body : List Char) :
    optionElement 0 ⟨"a+b.go".toList, body, .finite false (301 / 4)⟩
      = "<option value=\"file0\">a&#43;b.go (75.2%)</option>".toList ∧
    optionElement 1 ⟨"b.go".toList, body, .finite true 0⟩
      = "<option value=\"file1\">b.go (-0.0%)</option>".toList ∧
    preElement 0 ⟨"a+b.go".toList, "x&lt;y".toList, .finite false (301 / 4)⟩
      = "<pre class=\"file\" id=\"file0\" >x&lt;y</pre>".toList ∧
    preElement 1 ⟨"b.go".toList, [], .finite true 0⟩
      = "<pre class=\"file\" id=\"file1\" style=\"display: none\"></pre>".toList := by
  refine ⟨?_, ?_, by decide, by decide⟩
  · simp only [optionElement, optionLabel, fmtFixed1_examples.1]
    decide
  · simp only [optionElement, optionLabel, fmtFixed1_examples.2]
    decide

set_option maxRecDepth 100000 in
/-- The occurrences of `<option` and of `<pre` in the document of the two
files `a+b.go` and `b.go`. -/
theorem document_example :
    (∃ t0 t1,
      tailsWith "<option".toList
          (htmlTemplateExecute
            ⟨[⟨"a+b.go".toList, htmlGen "x<y".toList "a+b.go" [] ⟨[], []⟩,
                .finite false (301 / 4)⟩,
              ⟨"b.go".toList, [], .finite true 0⟩], true⟩)
        = ["<option value=\"file0\">a&#43;b.go (75.2%)</option>".toList ++ t0,
            "<option value=\"file1\">b.go (-0.0%)</option>".toList ++ t1]) ∧
    (∃ t0 t1,
      tailsWith "<pre".toList
          (htmlTemplateExecute
            ⟨[⟨"a+b.go".toList, htmlGen "x<y".toList "a+b.go" [] ⟨[], []⟩,
                .finite false (301 / 4)⟩,
              ⟨"b.go".toList, [], .finite true 0⟩], true⟩)
        = ["<pre class=\"file\" id=\"file0\" >x&lt;y</pre>".toList ++ t0,
            "<pre class=\"file\" id=\"file1\" style=\"display: none\"></pre>".toList
              ++ t1]) := by
  have hbody0 : htmlGen "x<y".toList "a+b.go" [] ⟨[], []⟩ = "x&lt;y".toList := by decide
  rw [hbody0]
  have hAB : ∀ f ∈ [(⟨"a+b.go".toList, "x&lt;y".toList, .finite false (301 / 4)⟩ : templateFile),
        ⟨"b.go".toList, [], .finite true 0⟩],
      tailsWith "<option".toList f.Body = [] ∧ tailsWith "<pre".toList f.Body = [] := by
    intro f hf
    rcases List.mem_pair.1 hf with rfl | rfl
    · exact ⟨by decide, by decide⟩
    · exact ⟨rfl, rfl⟩
  have k1 := tailsWith_option_document
    ⟨[⟨"a+b.go".toList, "x&lt;y".toList, .finite false (301 / 4)⟩,
      ⟨"b.go".toList, [], .finite true 0⟩], true⟩ (fun f hf => (hAB f hf).1)
  have k2 := tailsWith_pre_document
    ⟨[⟨"a+b.go".toList, "x&lt;y".toList, .finite false (301 / 4)⟩,
      ⟨"b.go".toList, [], .finite true 0⟩], true⟩ (fun f hf => (hAB f hf).2)
  have ex := elements_examples "x&lt;y".toList
  have ex2 := elements_examples []
  constructor
  · refine tailsWith_two _ _ _ _ k1.1 ?_ ?_
    · obtain ⟨t, ht⟩ := k1.2 0 ⟨"a+b.go".toList, "x&lt;y".toList, .finite false (301 / 4)⟩ rfl
      exact ⟨t, by rw [ht, ex.1]⟩
    · obtain ⟨t, ht⟩ := k1.2 1 ⟨"b.go".toList, [], .finite true 0⟩ rfl
      exact ⟨t, by rw [ht, ex2.2.1]⟩
  · refine tailsWith_two _ _ _ _ k2.1 ?_ ?_
    · obtain ⟨t, ht⟩ := k2.2 0 ⟨"a+b.go".toList, "x&lt;y".toList, .finite false (301 / 4)⟩ rfl
      exact ⟨t, by rw [ht, ex.2.2.1]⟩
    · obtain ⟨t, ht⟩ := k2.2 1 ⟨"b.go".toList, [], .finite true 0⟩ rfl
      exact ⟨t, by rw [ht, ex.2.2.2]⟩

theorem decodeFrom_none_cons (c : Char) (cs : List Char) :
    decodeFrom none (c :: cs)
      = if c = '&' then decodeFrom (some []) cs else c :: decodeFrom none cs := rfl

/-- Text without `&` stands for itself. -/
theorem decodeFrom_plain (s t : List Char) (h : ∀ c ∈ s, c ≠ '&') :
    decodeFrom none (s ++ t) = s ++ decodeFrom none t := by
  induction s with
  | nil => rfl
  | cons c cs ih =>
    rw [List.cons_append, decodeFrom_none_cons, if_neg (h c (by simp)),
      ih (fun x hx => h x (by simp [hx]))]
    rfl

theorem decodeFrom_htmlEscapeByte (c : Char) (hc : c ≠ '\x00') (t : List Char) :
    decodeFrom none (htmlEscapeByte c ++ t) = c :: decodeFrom none t := by
  unfold htmlEscapeByte
  rw [if_neg hc]
  split_ifs with h2 h3 h4 h5 h6 h7
  · rw [h2]; rfl
  · rw [h3]; rfl
  · rw [h4]; rfl
  · rw [h5]; rfl
  · rw [h6]; rfl
  · rw [h7]; rfl
  · rw [List.singleton_append, decodeFrom_none_cons, if_neg h3]

/-- The escaped form of a text without NUL stands for the text. -/
theorem decodeFrom_htmlEscape (s t : List Char) (h : ∀ c ∈ s, c ≠ '\x00') :
    decodeFrom none (htmlEscape s ++ t) = s ++ decodeFrom none t := by
  induction s with
  | nil => rfl
  | cons c cs ih =>
    have e : htmlEscape (c :: cs) = htmlEscapeByte c ++ htmlEscape cs := by
      unfold htmlEscape
      rw [List.flatMap_cons]
    rw [e, List.append_assoc, decodeFrom_htmlEscapeByte c (h c (by simp)),
      ih (fun x hx => h x (by simp [hx]))]
    rfl

/-- The label of a file whose name holds no NUL stands for the name and the
coverage to one decimal place. -/
theorem decodeText_optionLabel (f : templateFile) (h : ∀ c ∈ f.Name, c ≠ '\x00') :
    decodeText (optionLabel f)
      = f.Name ++ " (".toList ++ fmtFixed1 f.Coverage ++ "%)".toList := by
  have e : optionLabel f
      = htmlEscape f.Name ++ (" (".toList ++ (htmlEscape (fmtFixed1 f.Coverage)
          ++ ("%)".toList ++ []))) := by
    unfold optionLabel
    simp only [List.append_assoc, List.append_nil]
  unfold decodeText
  rw [e, decodeFrom_htmlEscape _ _ h, decodeFrom_plain _ _ (by decide),
    decodeFrom_htmlEscape _ _ (fmtFixed1_noNul f.Coverage), decodeFrom_plain _ _ (by decide)]
  simp only [List.append_assoc]
  rfl

/-- The output of `htmlGen` holds no occurrence of `<pre` and none of
`<option`. -/
theorem tailsWith_htmlGen (src : List Char) (filename : String) (bs : List Boundary)
    (report : tarpReport) :
    tailsWith "<pre".toList (htmlGen src filename bs report) = [] ∧
    tailsWith "<option".toList (htmlGen src filename bs report) = [] :=
  ⟨((quiet_iff _ _).1
      (quiet_htmlGen 'p' _ (by decide) (by decide) src filename bs report)).2,
    ((quiet_iff _ _).1
      (quiet_htmlGen 'o' _ (by decide) (by decide) src filename bs report)).2⟩

theorem hiddenTag_preTag (n : Nat) : hiddenTag (preTag n) = decide (n ≠ 0) := by
  by_cases h0 : n = 0
  · subst h0
    decide
  · have e : preTag n
        = ("<pre class=\"file\" id=\"file".toList ++ fmtInt n ++ "\" ".toList)
            ++ "style=\"display: none\"".toList ++ ">".toList := by
      have h3 : "\" style=\"display: none\">".toList
          = "\" ".toList ++ ("style=\"display: none\"".toList ++ ">".toList) := by decide
      unfold preTag
      rw [if_neg h0, h3]
      simp only [List.append_assoc]
    rw [decide_eq_true h0]
    unfold hiddenTag
    rw [stringsContains_iff, e]
    exact ⟨_, _, rfl⟩

end Template

/-! ## The claims of the specification -/

set_option maxRecDepth 100000 in
/-- C1, as stated, fails: in the scenario (source of the one-statement
function `f`, a start boundary with `Count = 5` at the opening brace of the
body, offset 9 on line 1, its end boundary at offset 21, the declaration of `f`
closing on line 3, nothing called) the body is rendered inside a span of class
`cov10` (here `Norm = 1`), and no tag of class `tarp-uncovered` is written. -/
theorem scenario_not_tarp :
    htmlGen "func f() \x7b\n  x := 1\n\x7d\n".toList "f.go"
        [⟨9, true, 5, ⟨1, 0, by decide⟩⟩, ⟨21, false, 0, ⟨0, 0, by decide⟩⟩]
        ⟨[⟨"f", "f.go", 3⟩], []⟩
      = "func f() <span class=\"cov10\" title=\"5\">\x7b\n  x := 1\n\x7d</span>\n".toList ∧
    Piece.openSpan tarpClassName "5".toList ∉
      htmlGenPieces "func f() \x7b\n  x := 1\n\x7d\n".toList "f.go"
        [⟨9, true, 5, ⟨1, 0, by decide⟩⟩, ⟨21, false, 0, ⟨0, 0, by decide⟩⟩]
        ⟨[⟨"f", "f.go", 3⟩], []⟩ := by
  decide

/-- C1 (amended): in the scenario, for every span that covers the body
statement (start boundary with `Count = 5` and `Norm` in `[0,1]` at an offset
up to 13, hence on line 1 or 2; end boundary at an offset in `19..21`), the
output is the escaped text before the span, the opening tag, the escaped text
of the span, `</span>` and the escaped rest.  With the declaration of `f`
closing on line 3 the opening tag has the class `cov{n}` and the title `5`,
where `n = floor(Norm*9) + 1`, the product being the `float64` product (the
exact product rounded to the nearest `float64`, ties to even), and
`1 <= n <= 10`; it has the class `tarp-uncovered` and the title `5` when the
declaration closes on the line of the start boundary. -/
theorem scenario_rendering (norm : Float64) (o e : Nat) (closing : Int)
    (h0 : 0 ≤ norm.toRat) (h1 : norm.toRat ≤ 1)
    (ho : o ≤ 13) (he1 : 19 ≤ e) (he2 : e ≤ 21) :
    htmlGen "func f() \x7b\n  x := 1\n\x7d\n".toList "f.go"
        [⟨o, true, 5, norm⟩, ⟨e, false, 0, ⟨0, 0, by decide⟩⟩] ⟨[⟨"f", "f.go", closing⟩], []⟩
      = escape ("func f() \x7b\n  x := 1\n\x7d\n".toList.take o)
        ++ ((openTag "f.go" ⟨[⟨"f", "f.go", closing⟩], []⟩
              (lineAt "func f() \x7b\n  x := 1\n\x7d\n".toList o) ⟨o, true, 5, norm⟩).render
          ++ (escape (("func f() \x7b\n  x := 1\n\x7d\n".toList.drop o).take (e - o))
            ++ ("</span>".toList
              ++ escape ("func f() \x7b\n  x := 1\n\x7d\n".toList.drop e)))) ∧
    (closing = 3 →
      openTag "f.go" ⟨[⟨"f", "f.go", closing⟩], []⟩
          (lineAt "func f() \x7b\n  x := 1\n\x7d\n".toList o) ⟨o, true, 5, norm⟩
        = .openSpan ("cov".toList ++ fmtInt (⌊roundF64 (norm.toRat * 9)⌋ + 1)) "5".toList ∧
      1 ≤ ⌊roundF64 (norm.toRat * 9)⌋ + 1 ∧ ⌊roundF64 (norm.toRat * 9)⌋ + 1 ≤ 10 ∧
      (⌊roundF64 (norm.toRat * 9)⌋ + 1 = 10 ↔ norm.toRat = 1)) ∧
    (closing = lineAt "func f() \x7b\n  x := 1\n\x7d\n".toList o →
      openTag "f.go" ⟨[⟨"f", "f.go", closing⟩], []⟩
          (lineAt "func f() \x7b\n  x := 1\n\x7d\n".toList o) ⟨o, true, 5, norm⟩
        = .openSpan tarpClassName "5".toList) := by
  have hc : (0 : Int) < (⟨o, true, 5, norm⟩ : Boundary).Count := by show (0 : Int) < 5; decide
  refine ⟨?_, ?_, ?_⟩
  · have hlen : "func f() \x7b\n  x := 1\n\x7d\n".toList.length = 22 := by decide
    exact htmlGen_single_span "f.go" _ _ ⟨o, true, 5, norm⟩ ⟨e, false, 0, ⟨0, 0, by decide⟩⟩
      o e rfl rfl (by omega) (by rw [hlen]; omega)
  · intro hcl
    subst hcl
    obtain ⟨hn, hlo, hhi, hiff⟩ := coverLevel_unit ⟨o, true, 5, norm⟩ hc h0 h1
    have hn2 : coverLevel ⟨o, true, 5, norm⟩ = ⌊roundF64 (norm.toRat * 9)⌋ + 1 := hn
    rw [← hn2]
    refine ⟨?_, hlo, hhi, hiff⟩
    have hnf : (relevantFunc "f.go" [⟨"f", "f.go", 3⟩]
        (lineAt "func f() \x7b\n  x := 1\n\x7d\n".toList o)).Name = "" := by
      rcases scenario_line o ho with h | h <;> rw [h] <;> decide
    rw [openTag_not_found "f.go" ⟨[⟨"f", "f.go", 3⟩], []⟩ _ _ hnf]
    rfl
  · intro hcl
    have hrf : relevantFunc "f.go" [⟨"f", "f.go", closing⟩]
        (lineAt "func f() \x7b\n  x := 1\n\x7d\n".toList o) = ⟨"f", "f.go", closing⟩ := by
      have hsc : stringsContains "f.go".toList "f.go".toList = true := by decide
      show (if stringsContains "f.go".toList "f.go".toList = true then
          (if closing = lineAt "func f() \x7b\n  x := 1\n\x7d\n".toList o then
            (⟨"f", "f.go", closing⟩ : tarpFunc)
          else tarpFunc.zero)
        else tarpFunc.zero) = _
      rw [if_pos hsc, if_pos hcl]
    rw [openTag_of_uncalled "f.go" ⟨[⟨"f", "f.go", closing⟩], []⟩ _ ⟨o, true, 5, norm⟩ hc h0 h1
      (by rw [hrf]; show "f" ≠ ""; decide) (by rw [hrf]; simp)]
    rfl

set_option maxRecDepth 100000 in
theorem scenario_rendering_witness :
    htmlGen "func f() \x7b\n  x := 1\n\x7d\n".toList "f.go"
        [⟨9, true, 5, ⟨1, -1, by decide⟩⟩, ⟨21, false, 0, ⟨0, 0, by decide⟩⟩]
        ⟨[⟨"f", "f.go", 3⟩], []⟩
      = "func f() <span class=\"cov5\" title=\"5\">\x7b\n  x := 1\n\x7d</span>\n".toList :=
  (scenario_rendering ⟨1, -1, by decide⟩ 9 21 3 (by norm_num [Float64.toRat])
    (by norm_num [Float64.toRat]) (by decide) (by decide) (by decide)).1.trans (by decide)

/-- C2, as stated, fails: a declaration with the empty name is selected for
the boundary, its name is absent from the called set and `Count > 0`, yet the
opening tag has the class `cov10`, not `tarp-uncovered`: `htmlGen` takes the
empty name for "no function found". -/
theorem openTag_tarp_empty_name :
    relevantFunc "f.go" [⟨"", "f.go", 1⟩] 1 = ⟨"", "f.go", 1⟩ ∧
    (relevantFunc "f.go" [⟨"", "f.go", 1⟩] 1).Name ∉ ([] : List String) ∧
    openTag "f.go" ⟨[⟨"", "f.go", 1⟩], []⟩ 1 ⟨0, true, 5, ⟨1, 0, by decide⟩⟩
      = .openSpan "cov10".toList "5".toList ∧
    openTag "f.go" ⟨[⟨"", "f.go", 1⟩], []⟩ 1 ⟨0, true, 5, ⟨1, 0, by decide⟩⟩
      ≠ .openSpan tarpClassName "5".toList := by
  decide

/-- C2 (amended): for every start boundary with `Count > 0` and `Norm` in
`[0,1]` whose selected declaration has a non-empty name that is absent from
`report.Called`, the opening tag has the class `tarp-uncovered` and carries
`Count` as its title. -/
theorem openTag_tarp (filename : String) (report : tarpReport) (currentLine : Int) (b : Boundary)
    (hc : 0 < b.Count) (h0 : 0 ≤ b.Norm.toRat) (h1 : b.Norm.toRat ≤ 1)
    (hname : (relevantFunc filename report.DeclaredDetails currentLine).Name ≠ "")
    (habsent : (relevantFunc filename report.DeclaredDetails currentLine).Name ∉ report.Called) :
    openTag filename report currentLine b = .openSpan tarpClassName (fmtInt b.Count) ∧
    (openTag filename report currentLine b).render
      = "<span class=\"tarp-uncovered\" title=\"".toList ++ fmtInt b.Count ++ "\">".toList := by
  have h := openTag_of_uncalled filename report currentLine b hc h0 h1 hname habsent
  refine ⟨h, ?_⟩
  rw [h]
  simp [Piece.render, tarpClassName]

theorem openTag_tarp_witness :
    openTag "f.go" ⟨[⟨"f", "f.go", 1⟩], []⟩ 1 ⟨0, true, 5, ⟨1, 0, by decide⟩⟩
      = .openSpan tarpClassName (fmtInt 5) :=
  (openTag_tarp "f.go" ⟨[⟨"f", "f.go", 1⟩], []⟩ 1 ⟨0, true, 5, ⟨1, 0, by decide⟩⟩ (by decide)
    (by norm_num [Float64.toRat]) (by norm_num [Float64.toRat]) (by decide) (by decide)).1

/-- C3: for every start boundary with `Count > 0` and `Norm` in `[0,1]` whose
selected declaration has a name present in `report.Called`, the opening tag has
the class `cov{n}` with `n = floor(Norm*9) + 1` and `1 <= n <= 10`, which is not
`tarp-uncovered`. -/
theorem openTag_called (filename : String) (report : tarpReport) (currentLine : Int)
    (b : Boundary) (hc : 0 < b.Count) (h0 : 0 ≤ b.Norm.toRat) (h1 : b.Norm.toRat ≤ 1)
    (hcalled : (relevantFunc filename report.DeclaredDetails currentLine).Name ∈ report.Called) :
    openTag filename report currentLine b
      = .openSpan ("cov".toList ++ fmtInt (coverLevel b)) (fmtInt b.Count) ∧
    coverLevel b = ⌊pairValue (mulNine b.Norm)⌋ + 1 ∧
    1 ≤ coverLevel b ∧ coverLevel b ≤ 10 ∧
    "cov".toList ++ fmtInt (coverLevel b) ≠ tarpClassName := by
  obtain ⟨hlo, hhi, -⟩ := coverLevel_bounds b hc h0 h1
  refine ⟨?_, ?_, hlo, hhi, cov_ne_tarp _⟩
  · simp [openTag, tarpReport.calledHas, hcalled]
  · rw [← floorInt_eq_floor]
    exact coverLevel_of_small b hc (by have := (floor_mulNine b.Norm h0 h1).1; omega)
      (by have := (floor_mulNine b.Norm h0 h1).2.1; omega)

theorem openTag_called_witness :
    openTag "f.go" ⟨[⟨"f", "f.go", 1⟩], ["f"]⟩ 1 ⟨0, true, 5, ⟨1, -1, by decide⟩⟩
      = .openSpan "cov5".toList "5".toList := by
  have h := (openTag_called "f.go" ⟨[⟨"f", "f.go", 1⟩], ["f"]⟩ 1 ⟨0, true, 5, ⟨1, -1, by decide⟩⟩
    (by decide) (by norm_num [Float64.toRat]) (by norm_num [Float64.toRat]) (by decide)).1
  rw [h]
  decide

/-- C4: for every start boundary with `Count == 0` the opening tag is exactly
`<span class="cov0" title="0">`, whatever the declarations, the called set,
the line and `Norm`; it is not a `tarp-uncovered` tag. -/
theorem openTag_zero (filename : String) (report : tarpReport) (currentLine : Int)
    (b : Boundary) (hc : b.Count = 0) :
    openTag filename report currentLine b = .openSpan "cov0".toList "0".toList ∧
    (openTag filename report currentLine b).render = "<span class=\"cov0\" title=\"0\">".toList ∧
    openTag filename report currentLine b ≠ .openSpan tarpClassName (fmtInt b.Count) := by
  have hn : coverLevel b = 0 := by simp [coverLevel, hc]
  have ht : openTag filename report currentLine b = .openSpan "cov0".toList "0".toList := by
    simp only [openTag, hn, hc, gt_iff_lt, lt_self_iff_false, false_and, and_false, if_false]
    decide
  refine ⟨ht, ?_, ?_⟩
  · rw [ht]; decide
  · rw [ht]
    intro h
    injection h with hcls _
    exact absurd hcls (by decide)

theorem openTag_zero_witness :
    (openTag "f.go" ⟨[⟨"f", "f.go", 1⟩], []⟩ 1 ⟨0, true, 0, ⟨1, 0, by decide⟩⟩).render
      = "<span class=\"cov0\" title=\"0\">".toList :=
  (openTag_zero "f.go" ⟨[⟨"f", "f.go", 1⟩], []⟩ 1 ⟨0, true, 0, ⟨1, 0, by decide⟩⟩ rfl).2.1

/-- C5: with no boundaries the output of `htmlGen` is the concatenation, over
the bytes of the source in order, of their escaped forms, where `<`, `>`, `&`
become `&lt;`, `&gt;`, `&amp;`, a tab becomes four spaces and every other byte
(newline included) is written as it is. -/
theorem htmlGen_no_boundaries (filename : String) (report : tarpReport) (src : List Char) :
    htmlGen src filename [] report = (src.map escapeByte).flatten ∧
    escapeByte '<' = "&lt;".toList ∧ escapeByte '>' = "&gt;".toList ∧
    escapeByte '&' = "&amp;".toList ∧ escapeByte '\t' = "    ".toList ∧
    escapeByte '\n' = ['\n'] ∧
    ∀ b : Char, b ≠ '<' → b ≠ '>' → b ≠ '&' → b ≠ '\t' → escapeByte b = [b] := by
  refine ⟨?_, by decide, by decide, by decide, by decide, by decide, ?_⟩
  · rw [htmlGen_nil_boundaries, escape, List.flatMap_def]
  · intro b h1 h2 h3 h4
    simp [escapeByte, h1, h2, h3, h4]

theorem htmlGen_no_boundaries_witness : escapeByte 'a' = ['a'] :=
  (htmlGen_no_boundaries "f.go" ⟨[], []⟩ []).2.2.2.2.2.2 'a' (by decide) (by decide) (by decide)
    (by decide)

/-- C6: for every source and every boundary list, the text that `htmlGen`
writes outside the span tags it generates (the output bytes outside every
`<...>`, which are the writes that are not tags) is the escaped source; it
holds no `<` and no `>`, and each `&` in it is the first byte of `&lt;`, `&gt;`
or `&amp;`. -/
theorem text_outside_tags_safe (filename : String) (report : tarpReport) (src : List Char)
    (boundaries : List Boundary) :
    stripTags (htmlGen src filename boundaries report)
      = textOf (htmlGenPieces src filename boundaries report) ∧
    textOf (htmlGenPieces src filename boundaries report) = escape src ∧
    '<' ∉ textOf (htmlGenPieces src filename boundaries report) ∧
    '>' ∉ textOf (htmlGenPieces src filename boundaries report) ∧
    ∀ pre post : List Char,
      textOf (htmlGenPieces src filename boundaries report) = pre ++ '&' :: post →
        ("lt;".toList <+: post ∨ "gt;".toList <+: post ∨ "amp;".toList <+: post) := by
  have h : textOf (htmlGenPieces src filename boundaries report) = escape src :=
    textOf_scan filename report 1 0 src boundaries
  rw [stripTags_htmlGen, h]
  exact ⟨rfl, rfl, (escape_not_mem src).1, (escape_not_mem src).2, ampersandsEscaped_escape src⟩

theorem text_outside_tags_safe_witness :
    "lt;".toList <+: "lt;b".toList ∨ "gt;".toList <+: "lt;b".toList
      ∨ "amp;".toList <+: "lt;b".toList :=
  (text_outside_tags_safe "f.go" ⟨[], []⟩ "a<b".toList
    [⟨0, true, 1, ⟨1, 0, by decide⟩⟩, ⟨2, false, 0, ⟨0, 0, by decide⟩⟩]).2.2.2.2
    "a".toList "lt;b".toList (by decide)

set_option maxRecDepth 100000 in
/-- C7, as stated, fails: for the source `x` and the offset-ordered,
well-nested list of a start boundary at offset 0 and its end boundary at
offset 1 (the length of the source), one opening tag is written and no closing
tag. -/
theorem span_tags_unbalanced_at_end :
    offsetOrdered [⟨0, true, 1, ⟨1, 0, by decide⟩⟩, ⟨1, false, 0, ⟨0, 0, by decide⟩⟩] ∧
    wellNested [⟨0, true, 1, ⟨1, 0, by decide⟩⟩, ⟨1, false, 0, ⟨0, 0, by decide⟩⟩] ∧
    (htmlGenPieces "x".toList "f.go"
        [⟨0, true, 1, ⟨1, 0, by decide⟩⟩, ⟨1, false, 0, ⟨0, 0, by decide⟩⟩] ⟨[], []⟩).countP
      Piece.isOpen = 1 ∧
    (htmlGenPieces "x".toList "f.go"
        [⟨0, true, 1, ⟨1, 0, by decide⟩⟩, ⟨1, false, 0, ⟨0, 0, by decide⟩⟩] ⟨[], []⟩).countP
      Piece.isClose = 0 ∧
    htmlGen "x".toList "f.go"
        [⟨0, true, 1, ⟨1, 0, by decide⟩⟩, ⟨1, false, 0, ⟨0, 0, by decide⟩⟩] ⟨[], []⟩
      = "<span class=\"cov10\" title=\"1\">x".toList ∧
    countOcc "<span ".toList (htmlGen "x".toList "f.go"
        [⟨0, true, 1, ⟨1, 0, by decide⟩⟩, ⟨1, false, 0, ⟨0, 0, by decide⟩⟩] ⟨[], []⟩)
      ≠ countOcc "</span>".toList (htmlGen "x".toList "f.go"
        [⟨0, true, 1, ⟨1, 0, by decide⟩⟩, ⟨1, false, 0, ⟨0, 0, by decide⟩⟩] ⟨[], []⟩) := by
  decide

/-- C7 (amended): for every source and every boundary list that is ordered by
offset, well nested and has all its offsets in `[0, len(src))`, `htmlGen`
writes as many opening tags as closing tags, and its output holds as many
`<span ` as `</span>`. -/
theorem span_tags_balanced (filename : String) (report : tarpReport) (src : List Char)
    (bs : List Boundary)
    (hord : offsetOrdered bs) (hin : offsetsWithin src.length bs) (hnest : wellNested bs) :
    (htmlGenPieces src filename bs report).countP Piece.isOpen
      = (htmlGenPieces src filename bs report).countP Piece.isClose ∧
    countOcc "<span ".toList (htmlGen src filename bs report)
      = countOcc "</span>".toList (htmlGen src filename bs report) := by
  have h := countP_open_eq_close filename report src bs hord hin hnest
  have hc := countOcc_htmlGen filename report src bs
  exact ⟨h, by rw [hc.1, hc.2, h]⟩

theorem span_tags_balanced_witness :
    countOcc "<span ".toList (htmlGen "a<b".toList "f.go"
        [⟨0, true, 1, ⟨1, 0, by decide⟩⟩, ⟨2, false, 0, ⟨0, 0, by decide⟩⟩] ⟨[], []⟩)
    = countOcc "</span>".toList (htmlGen "a<b".toList "f.go"
        [⟨0, true, 1, ⟨1, 0, by decide⟩⟩, ⟨2, false, 0, ⟨0, 0, by decide⟩⟩] ⟨[], []⟩) :=
  (span_tags_balanced "f.go" ⟨[], []⟩ "a<b".toList
    [⟨0, true, 1, ⟨1, 0, by decide⟩⟩, ⟨2, false, 0, ⟨0, 0, by decide⟩⟩]
    (by decide) (by decide) (by decide)).2

set_option maxRecDepth 100000 in
/-- C8, as stated, fails: for the source `ab` and the offset-ordered,
well-nested pair of a start boundary at offset 1 and an end boundary at offset
2 (the length of the source), no closing tag is written, so there is no output
between the opening tag and a closing tag of the pair. -/
theorem span_text_no_closing_tag :
    offsetOrdered [⟨1, true, 1, ⟨1, 0, by decide⟩⟩, ⟨2, false, 0, ⟨0, 0, by decide⟩⟩] ∧
    wellNested [⟨1, true, 1, ⟨1, 0, by decide⟩⟩, ⟨2, false, 0, ⟨0, 0, by decide⟩⟩] ∧
    Piece.closeSpan ∉ htmlGenPieces "ab".toList "f.go"
        [⟨1, true, 1, ⟨1, 0, by decide⟩⟩, ⟨2, false, 0, ⟨0, 0, by decide⟩⟩] ⟨[], []⟩ ∧
    htmlGen "ab".toList "f.go"
        [⟨1, true, 1, ⟨1, 0, by decide⟩⟩, ⟨2, false, 0, ⟨0, 0, by decide⟩⟩] ⟨[], []⟩
      = "a<span class=\"cov10\" title=\"1\">b".toList := by
  decide

/-- C8 (amended): removing all tags from the output (from its bytes, or from
the list of writes) yields the escaped form of `src`, for every source and
every boundary list.  For every offset-ordered
boundary list with all offsets in `[0, len(src))`, and for every start boundary
`s` and end boundary `e` after it in the list (in particular a matching pair),
the writes are those before the opening tag of `s`, that tag, the writes `M`
between the two tags, the closing tag of `e`, and the rest; the tags in `M` are
the tags of the boundaries between `s` and `e`, and `M` with those tags removed
is the escaped form of `src[s.Offset : e.Offset]`. -/
theorem span_text_escaped (filename : String) (report : tarpReport) (src : List Char) :
    (∀ bs : List Boundary, stripTags (htmlGen src filename bs report) = escape src ∧
      textOf (htmlGenPieces src filename bs report) = escape src) ∧
    ∀ (pre mid post : List Boundary) (s e : Boundary),
      offsetOrdered (pre ++ s :: (mid ++ e :: post)) →
      offsetsWithin src.length (pre ++ s :: (mid ++ e :: post)) →
      s.Start = true → e.Start = false →
      ∃ P M Q : List Piece,
        htmlGenPieces src filename (pre ++ s :: (mid ++ e :: post)) report
          = P ++ openTag filename report (lineAt src s.Offset.toNat) s
              :: (M ++ Piece.closeSpan :: Q) ∧
        tagsOf P
          = pre.map (fun a => boundaryTag filename report (lineAt src a.Offset.toNat) a) ∧
        tagsOf M
          = mid.map (fun a => boundaryTag filename report (lineAt src a.Offset.toNat) a) ∧
        textOf M
          = escape ((src.drop s.Offset.toNat).take (e.Offset.toNat - s.Offset.toNat)) := by
  refine ⟨fun bs => ⟨stripTags_htmlGen filename report src bs,
    textOf_scan filename report 1 0 src bs⟩, ?_⟩
  intro pre mid post s e hord hin hs he
  obtain ⟨P, M, Q, h1, h2, h3, h4⟩ :=
    pieces_between filename report src pre mid post s e hord hin
  refine ⟨P, M, Q, ?_, h2, h3, h4⟩
  rw [h1]
  simp [boundaryTag, hs, he]

theorem span_text_escaped_witness :
    ∃ P M Q : List Piece,
      htmlGenPieces "a<b".toList "f.go"
          ([] ++ ⟨0, true, 1, ⟨1, 0, by decide⟩⟩ :: ([] ++ ⟨2, false, 0, ⟨0, 0, by decide⟩⟩ :: []))
          ⟨[], []⟩
        = P ++ openTag "f.go" ⟨[], []⟩
              (lineAt "a<b".toList (⟨0, true, 1, ⟨1, 0, by decide⟩⟩ : Boundary).Offset.toNat)
              ⟨0, true, 1, ⟨1, 0, by decide⟩⟩
            :: (M ++ Piece.closeSpan :: Q) ∧
      tagsOf P = ([] : List Boundary).map
        (fun a => boundaryTag "f.go" ⟨[], []⟩ (lineAt "a<b".toList a.Offset.toNat) a) ∧
      tagsOf M = ([] : List Boundary).map
        (fun a => boundaryTag "f.go" ⟨[], []⟩ (lineAt "a<b".toList a.Offset.toNat) a) ∧
      textOf M = escape (("a<b".toList.drop
            (⟨0, true, 1, ⟨1, 0, by decide⟩⟩ : Boundary).Offset.toNat).take
          ((⟨2, false, 0, ⟨0, 0, by decide⟩⟩ : Boundary).Offset.toNat
            - (⟨0, true, 1, ⟨1, 0, by decide⟩⟩ : Boundary).Offset.toNat)) :=
  (span_text_escaped "f.go" ⟨[], []⟩ "a<b".toList).2 [] [] []
    ⟨0, true, 1, ⟨1, 0, by decide⟩⟩ ⟨2, false, 0, ⟨0, 0, by decide⟩⟩
    (by decide) (by decide) rfl rfl

set_option maxRecDepth 100000 in
/-- C9 fails as stated.  For `Count = -1`, which is not `0`, the level is `0`,
not `floor(Norm*9) + 1 = 10`.  For `Count = 1` and `Norm` the `float64`
nearest to one third, the exact product is just below `3` and
`floor(Norm*9) + 1 = 3`, but the `float64` product is `3` and the level is
`4`.  For `Count = 1` and `Norm = 2^62` the product is beyond the range of
`int` and the level is `-2^63 + 1`. -/
theorem coverLevel_not_formula :
    (coverLevel ⟨0, true, -1, ⟨1, 0, by decide⟩⟩ = 0 ∧
      ⌊(⟨1, 0, by decide⟩ : Float64).toRat * 9⌋ + 1 = 10) ∧
    (coverLevel ⟨0, true, 1, ⟨0x15555555555555, -54, by decide⟩⟩ = 4 ∧
      0 ≤ (⟨0x15555555555555, -54, by decide⟩ : Float64).toRat ∧
      (⟨0x15555555555555, -54, by decide⟩ : Float64).toRat ≤ 1 ∧
      ⌊(⟨0x15555555555555, -54, by decide⟩ : Float64).toRat * 9⌋ + 1 = 3) ∧
    (coverLevel ⟨0, true, 1, ⟨1, 62, by decide⟩⟩ = -9223372036854775807 ∧
      ⌊(⟨1, 62, by decide⟩ : Float64).toRat * 9⌋ + 1 = 41505174165846491137) := by
  refine ⟨⟨by decide, ?_⟩, ⟨by decide, ?_, ?_, ?_⟩, by decide, ?_⟩
  · have h : ⌊(⟨1, 0, by decide⟩ : Float64).toRat * 9⌋ = 9 := by
      rw [Int.floor_eq_iff]
      norm_num [Float64.toRat]
    rw [h]
    rfl
  · norm_num [Float64.toRat]
  · norm_num [Float64.toRat]
  · rw [floor_third_example.1]
    rfl
  · have h : ⌊(⟨1, 62, by decide⟩ : Float64).toRat * 9⌋ = 41505174165846491136 := by
      rw [Int.floor_eq_iff]
      norm_num [Float64.toRat]
    rw [h]
    rfl

set_option maxRecDepth 100000 in
/-- C9 (amended): the level of a start boundary is `0` when `Count <= 0`.
When `Count > 0` it is `int(floor(p)) + 1` in `int` arithmetic, where `p` is
the `float64` product `Norm*9`: the exact product rounded to the nearest
`float64`, ties to even, which is the exact product whenever that needs no
rounding.  So it is `floor(p) + 1` whenever `floor(p)` and `floor(p) + 1` lie
in the range of `int` (the conversion of a value outside the range gives
`-2^63`, as on amd64).  For `Count > 0` and `Norm` in `[0,1]` it is
`floor(p) + 1`, lies in `1..10`, and is `10` exactly when `Norm = 1`.  For
the `float64` nearest to one third the product is `3` and the level `4`. -/
theorem coverLevel_spec (b : Boundary) :
    (b.Count ≤ 0 → coverLevel b = 0) ∧
    (0 < b.Count → coverLevel b = wrap64 (toInt64 ⌊roundF64 (b.Norm.toRat * 9)⌋ + 1)) ∧
    (0 < b.Count → -2 ^ 63 ≤ ⌊roundF64 (b.Norm.toRat * 9)⌋ →
      ⌊roundF64 (b.Norm.toRat * 9)⌋ + 1 < 2 ^ 63 →
      coverLevel b = ⌊roundF64 (b.Norm.toRat * 9)⌋ + 1) ∧
    (9 * b.Norm.mant.natAbs < 2 ^ 53 → roundF64 (b.Norm.toRat * 9) = b.Norm.toRat * 9) ∧
    (0 < b.Count → 0 ≤ b.Norm.toRat → b.Norm.toRat ≤ 1 →
      coverLevel b = ⌊roundF64 (b.Norm.toRat * 9)⌋ + 1 ∧
      1 ≤ coverLevel b ∧ coverLevel b ≤ 10 ∧ (coverLevel b = 10 ↔ b.Norm.toRat = 1)) ∧
    (roundF64 ((⟨0x15555555555555, -54, by decide⟩ : Float64).toRat * 9) = 3 ∧
      coverLevel ⟨0, true, 1, ⟨0x15555555555555, -54, by decide⟩⟩ = 4) := by
  refine ⟨?_, coverLevel_eq_round b, ?_, ?_, coverLevel_unit b,
    floor_third_example.2, by decide⟩
  · intro h
    unfold coverLevel
    rw [if_neg (by omega)]
  · intro hc h1 h2
    rw [coverLevel_eq_round b hc, toInt64_small _ h1 (by omega),
      wrap64_small _ (by omega) h2]
  · intro hx
    rw [← mulNine_eq_roundF64, mulNine_exact b.Norm hx]

theorem coverLevel_spec_witness :
    (0 : Int) < 5 ∧ (0 : ℚ) ≤ (⟨1, 0, by decide⟩ : Float64).toRat ∧
      (⟨1, 0, by decide⟩ : Float64).toRat ≤ 1 ∧
      coverLevel ⟨0, true, 5, ⟨1, 0, by decide⟩⟩ = 10 := by
  have h0 : (0 : ℚ) ≤ (⟨1, 0, by decide⟩ : Float64).toRat := by norm_num [Float64.toRat]
  have h1 : (⟨1, 0, by decide⟩ : Float64).toRat ≤ 1 := by norm_num [Float64.toRat]
  have h := (coverLevel_spec ⟨0, true, 5, ⟨1, 0, by decide⟩⟩).2.2.2.2.1 (by decide) h0 h1
  exact ⟨by decide, h0, h1, h.2.2.2.2 (by norm_num [Float64.toRat])⟩

/-- C10: every opening tag that `htmlGen` writes is the tag of a start boundary
`b` of the list, and when `b` has `Count >= 0` and `Norm` in `[0,1]` the tag is
`<span class="C" title="K">` where `K` is `Count` in decimal and `C` is
`tarp-uncovered` or `cov` followed by the decimal form of an integer in
`0..10`. -/
theorem openTag_form (filename : String) (report : tarpReport) (src : List Char)
    (bs : List Boundary) (p : Piece) (hp : p ∈ htmlGenPieces src filename bs report)
    (ho : p.isOpen = true) :
    ∃ b ∈ bs, ∃ l : Int, b.Start = true ∧ p = openTag filename report l b ∧
      (0 ≤ b.Count → 0 ≤ b.Norm.toRat → b.Norm.toRat ≤ 1 →
        ∃ C : List Char,
          p.render = "<span class=\"".toList ++ C ++ "\" title=\"".toList
              ++ Nat.toDigits 10 b.Count.toNat ++ "\">".toList ∧
          (C = "tarp-uncovered".toList ∨
            ∃ n : Nat, n ≤ 10 ∧ C = "cov".toList ++ Nat.toDigits 10 n)) := by
  obtain ⟨b, hb, l, hs, rfl⟩ := mem_htmlGenPieces_open filename report src bs p hp ho
  exact ⟨b, hb, l, hs, rfl, openTag_form_core filename report l b⟩

theorem openTag_form_witness :
    ∃ b ∈ [(⟨0, true, 5, ⟨1, 0, by decide⟩⟩ : Boundary)], ∃ l : Int, b.Start = true ∧
      Piece.openSpan "cov10".toList "5".toList = openTag "f.go" ⟨[], []⟩ l b ∧
      (0 ≤ b.Count → 0 ≤ b.Norm.toRat → b.Norm.toRat ≤ 1 →
        ∃ C : List Char,
          (Piece.openSpan "cov10".toList "5".toList).render
            = "<span class=\"".toList ++ C ++ "\" title=\"".toList
              ++ Nat.toDigits 10 b.Count.toNat ++ "\">".toList ∧
          (C = "tarp-uncovered".toList ∨
            ∃ n : Nat, n ≤ 10 ∧ C = "cov".toList ++ Nat.toDigits 10 n)) :=
  openTag_form "f.go" ⟨[], []⟩ "x".toList [⟨0, true, 5, ⟨1, 0, by decide⟩⟩]
    (Piece.openSpan "cov10".toList "5".toList) (by decide) rfl

/-- C11 fails as stated: four covered blocks of `2^62` statements have
`total = 2^64`, which is not zero, and the reference value
`covered / total * 100` is 100; the `int64` accumulators of `percentCovered`
wrap to 0 and it returns 0. -/
theorem percentCovered_wraps :
    totalStmts [⟨2 ^ 62, 1⟩, ⟨2 ^ 62, 1⟩, ⟨2 ^ 62, 1⟩, ⟨2 ^ 62, 1⟩] ≠ 0 ∧
    percentReference [⟨2 ^ 62, 1⟩, ⟨2 ^ 62, 1⟩, ⟨2 ^ 62, 1⟩, ⟨2 ^ 62, 1⟩] = 100 ∧
    percentCovered [⟨2 ^ 62, 1⟩, ⟨2 ^ 62, 1⟩, ⟨2 ^ 62, 1⟩, ⟨2 ^ 62, 1⟩] = 0 ∧
    percentCovered [⟨2 ^ 62, 1⟩, ⟨2 ^ 62, 1⟩, ⟨2 ^ 62, 1⟩, ⟨2 ^ 62, 1⟩]
      ≠ percentReference [⟨2 ^ 62, 1⟩, ⟨2 ^ 62, 1⟩, ⟨2 ^ 62, 1⟩, ⟨2 ^ 62, 1⟩] := by
  have ht : totalStmts [⟨2 ^ 62, 1⟩, ⟨2 ^ 62, 1⟩, ⟨2 ^ 62, 1⟩, ⟨2 ^ 62, 1⟩] = 2 ^ 64 := by
    decide
  have hc : coveredStmts [⟨2 ^ 62, 1⟩, ⟨2 ^ 62, 1⟩, ⟨2 ^ 62, 1⟩, ⟨2 ^ 62, 1⟩] = 2 ^ 64 := by
    decide
  have hr : percentReference [⟨2 ^ 62, 1⟩, ⟨2 ^ 62, 1⟩, ⟨2 ^ 62, 1⟩, ⟨2 ^ 62, 1⟩] = 100 := by
    unfold percentReference
    rw [ht, hc, if_neg (by norm_num)]
    have h1 : roundF64 (((2 : Int) ^ 64 : Int) : ℚ) = 2 ^ 64 := by
      rw [roundF64_eq _ 1 64 (by norm_num) (by norm_num)]
      norm_num
    rw [h1, div_self (by norm_num), roundF64_eq 1 1 0 (by norm_num) (by norm_num), one_mul]
    exact roundF64_eq 100 25 2 (by norm_num) (by norm_num)
  have hp : percentCovered [⟨2 ^ 62, 1⟩, ⟨2 ^ 62, 1⟩, ⟨2 ^ 62, 1⟩, ⟨2 ^ 62, 1⟩] = 0 := by
    rw [percentCovered_eq, ht, if_pos (by decide)]
  refine ⟨by rw [ht]; norm_num, hr, hp, ?_⟩
  rw [hr, hp]
  norm_num

/-- C11, amended: the accumulators `total` and `covered` of `percentCovered`
are the sum of `NumStmt` over all blocks and over the blocks with `Count > 0`,
each wrapped to 64 bits; it returns 0 when every block has `NumStmt = 0`; and
when both sums fit in an `int64`, `percentCovered` equals its reference
definition: it returns exactly 0 when `total == 0`, and
`covered / total * 100` in `float64` arithmetic otherwise. -/
theorem percentCovered_reference (blocks : List ProfileBlock) :
    percentSums blocks (0, 0)
      = (wrap64 (totalStmts blocks), wrap64 (coveredStmts blocks)) ∧
    ((∀ b ∈ blocks, b.NumStmt = 0) → percentCovered blocks = 0) ∧
    (-2 ^ 63 ≤ totalStmts blocks ∧ totalStmts blocks < 2 ^ 63 →
      -2 ^ 63 ≤ coveredStmts blocks ∧ coveredStmts blocks < 2 ^ 63 →
      percentSums blocks (0, 0) = (totalStmts blocks, coveredStmts blocks) ∧
      percentCovered blocks = percentReference blocks ∧
      (totalStmts blocks = 0 → percentCovered blocks = 0) ∧
      (totalStmts blocks ≠ 0 →
        percentCovered blocks
          = roundF64 (roundF64 (roundF64 (coveredStmts blocks)
              / roundF64 (totalStmts blocks)) * 100))) := by
  refine ⟨percentSums_zero blocks, ?_, ?_⟩
  · intro h
    rw [percentCovered_eq, totalStmts_of_zero blocks h, if_pos (by decide)]
  · intro ht hc
    have et := wrap64_small _ ht.1 ht.2
    have ec := wrap64_small _ hc.1 hc.2
    refine ⟨by rw [percentSums_zero, et, ec], ?_, ?_, ?_⟩
    · rw [percentCovered_eq, et, ec]
      rfl
    · intro h0
      rw [percentCovered_eq, et, if_pos h0]
    · intro h0
      rw [percentCovered_eq, et, ec, if_neg h0]

theorem percentCovered_reference_witness :
    percentCovered [] = 0 ∧
    percentCovered [⟨3, 1⟩, ⟨1, 0⟩] = percentReference [⟨3, 1⟩, ⟨1, 0⟩] :=
  ⟨(percentCovered_reference []).2.1 (by simp),
    ((percentCovered_reference [⟨3, 1⟩, ⟨1, 0⟩]).2.2 (by decide) (by decide)).2.1⟩

/-- C12 fails as stated: for a covered block and an uncovered block of `2^62`
statements each, `total` wraps to `-2^63` while `covered` is `2^62`, so
`covered > total` and the result is -50; for the blocks `(-1, 1)` and `(2, 0)`
the sums are `total = 1`, `covered = -1` and the result is -100. -/
theorem percentCovered_negative :
    (percentSums [⟨2 ^ 62, 1⟩, ⟨2 ^ 62, 0⟩] (0, 0) = (-2 ^ 63, 2 ^ 62) ∧
      ¬ (percentSums [⟨2 ^ 62, 1⟩, ⟨2 ^ 62, 0⟩] (0, 0)).2
          ≤ (percentSums [⟨2 ^ 62, 1⟩, ⟨2 ^ 62, 0⟩] (0, 0)).1 ∧
      percentCovered [⟨2 ^ 62, 1⟩, ⟨2 ^ 62, 0⟩] = -50 ∧
      ¬ 0 ≤ percentCovered [⟨2 ^ 62, 1⟩, ⟨2 ^ 62, 0⟩]) ∧
    (percentSums [⟨-1, 1⟩, ⟨2, 0⟩] (0, 0) = (1, -1) ∧
      percentCovered [⟨-1, 1⟩, ⟨2, 0⟩] = -100 ∧
      ¬ 0 ≤ percentCovered [⟨-1, 1⟩, ⟨2, 0⟩]) := by
  have hs : percentSums [⟨2 ^ 62, 1⟩, ⟨2 ^ 62, 0⟩] (0, 0) = (-2 ^ 63, 2 ^ 62) := by decide
  have hs2 : percentSums [⟨-1, 1⟩, ⟨2, 0⟩] (0, 0) = (1, -1) := by decide
  have hp : percentCovered [⟨2 ^ 62, 1⟩, ⟨2 ^ 62, 0⟩] = -50 := by
    unfold percentCovered
    rw [hs]
    simp only
    rw [if_neg (by norm_num)]
    rw [roundF64_eq (((2 : Int) ^ 62 : Int) : ℚ) 1 62 (by norm_num) (by norm_num),
      roundF64_eq (((-2 ^ 63 : Int) : Int) : ℚ) (-1) 63 (by norm_num) (by norm_num)]
    have e : (((2 : Int) ^ 62 : Int) : ℚ) / (((-2 ^ 63 : Int) : Int) : ℚ) = -(1 / 2) := by
      norm_num
    have e2 : (-(1 / 2) : ℚ) * 100 = -50 := by norm_num
    rw [e, roundF64_eq (-(1 / 2)) (-1) (-1) (by norm_num) (by norm_num), e2]
    exact roundF64_eq (-50) (-25) 1 (by norm_num) (by norm_num)
  have hp2 : percentCovered [⟨-1, 1⟩, ⟨2, 0⟩] = -100 := by
    unfold percentCovered
    rw [hs2]
    simp only
    rw [if_neg (by norm_num)]
    rw [roundF64_eq (((-1 : Int) : Int) : ℚ) (-1) 0 (by norm_num) (by norm_num),
      roundF64_eq (((1 : Int) : Int) : ℚ) 1 0 (by norm_num) (by norm_num)]
    have e : (((-1 : Int) : Int) : ℚ) / (((1 : Int) : Int) : ℚ) = -1 := by norm_num
    have e2 : (-1 : ℚ) * 100 = -100 := by norm_num
    rw [e, roundF64_eq (-1) (-1) 0 (by norm_num) (by norm_num), e2]
    exact roundF64_eq (-100) (-25) 2 (by norm_num) (by norm_num)
  refine ⟨⟨hs, ?_, hp, ?_⟩, hs2, hp2, ?_⟩
  · rw [hs]
    norm_num
  · rw [hp]
    norm_num
  · rw [hp2]
    norm_num

/-- C12, amended: for every list of coverage blocks whose `NumStmt` are all
non-negative and whose sum of `NumStmt` is below `2^63`, the sums computed by
`percentCovered` satisfy `0 <= covered <= total`, and its result `p`
satisfies `0 <= p <= 100`. -/
theorem percentCovered_bounds (blocks : List ProfileBlock)
    (hn : ∀ b ∈ blocks, 0 ≤ b.NumStmt) (ht : totalStmts blocks < 2 ^ 63) :
    0 ≤ (percentSums blocks (0, 0)).2 ∧
    (percentSums blocks (0, 0)).2 ≤ (percentSums blocks (0, 0)).1 ∧
    0 ≤ percentCovered blocks ∧ percentCovered blocks ≤ 100 := by
  obtain ⟨hc0, hct⟩ := coveredStmts_le blocks hn
  have et : wrap64 (totalStmts blocks) = totalStmts blocks :=
    wrap64_small _ (by norm_num; omega) ht
  have ec : wrap64 (coveredStmts blocks) = coveredStmts blocks :=
    wrap64_small _ (by norm_num; omega) (by omega)
  rw [percentCovered_eq, percentSums_zero, et, ec]
  refine ⟨hc0, hct, ?_⟩
  by_cases h0 : totalStmts blocks = 0
  · rw [if_pos h0]
    norm_num
  · rw [if_neg h0]
    exact percent_bounds _ _ hc0 hct (by omega)

theorem percentCovered_bounds_witness :
    0 ≤ (percentSums [⟨1, 1⟩, ⟨2, 0⟩] (0, 0)).2 ∧
    (percentSums [⟨1, 1⟩, ⟨2, 0⟩] (0, 0)).2 ≤ (percentSums [⟨1, 1⟩, ⟨2, 0⟩] (0, 0)).1 ∧
    0 ≤ percentCovered [⟨1, 1⟩, ⟨2, 0⟩] ∧ percentCovered [⟨1, 1⟩, ⟨2, 0⟩] ≤ 100 :=
  percentCovered_bounds [⟨1, 1⟩, ⟨2, 0⟩] (by decide) (by decide)

/-- C13: `rgb(0)` is the fixed red `rgb(192, 0, 0)`; for `n` in `1..10`,
`rgb(n)` is `rgb(r, g, b)` with `r = 128 - 12(n-1)`, `g = 128 + 12(n-1)`,
`b = 128 + 3(n-1)`; for `1 <= m < n <= 10` the red channel of `rgb(n)` is
strictly smaller and the green channel strictly larger than those of `rgb(m)`;
from one level to the next red falls by 12, green rises by 12 and blue rises by
3, a smaller step. -/
theorem rgb_gradient :
    rgb 0 = "rgb(192, 0, 0)".toList ∧
    (∀ n : Int, rgb n = fmtRGB (rgbChannels n)) ∧
    (∀ n : Int, 1 ≤ n → n ≤ 10 →
      rgbChannels n = (128 - 12 * (n - 1), 128 + 12 * (n - 1), 128 + 3 * (n - 1)) ∧
      rgb n = "rgb(".toList ++ fmtInt (128 - 12 * (n - 1)) ++ ", ".toList
        ++ fmtInt (128 + 12 * (n - 1)) ++ ", ".toList ++ fmtInt (128 + 3 * (n - 1))
        ++ ")".toList) ∧
    (∀ m n : Int, 1 ≤ m → m < n → n ≤ 10 →
      (rgbChannels n).1 < (rgbChannels m).1 ∧ (rgbChannels m).2.1 < (rgbChannels n).2.1) ∧
    (∀ n : Int, 1 ≤ n → n < 10 →
      (rgbChannels n).1 - (rgbChannels (n + 1)).1 = 12 ∧
      (rgbChannels (n + 1)).2.1 - (rgbChannels n).2.1 = 12 ∧
      (rgbChannels (n + 1)).2.2 - (rgbChannels n).2.2 = 3 ∧ (3 : Int) < 12) := by
  refine ⟨by decide, rgb_eq_fmtRGB, ?_, ?_, ?_⟩
  · intro n h1 h2
    have hc := rgbChannels_level n h1 h2
    refine ⟨hc, ?_⟩
    rw [rgb_eq_fmtRGB, hc]
    rfl
  · intro m n h1 h2 h3
    rw [rgbChannels_level n (by omega) h3, rgbChannels_level m h1 (by omega)]
    constructor <;> simp only <;> omega
  · intro n h1 h2
    rw [rgbChannels_level n h1 (by omega), rgbChannels_level (n + 1) (by omega) (by omega)]
    refine ⟨?_, ?_, ?_, by decide⟩ <;> simp only <;> omega

theorem rgb_gradient_witness :
    rgbChannels 2 = (116, 140, 131) ∧ rgb 2 = "rgb(116, 140, 131)".toList := by
  have h := (rgb_gradient.2.2.1 2 (by decide) (by decide))
  exact ⟨h.1.trans (by decide), h.2.trans (by decide)⟩

set_option maxRecDepth 100000 in
/-- C14: `CSScolors` writes twelve style rules: for `i = 0..10` in increasing
order the rule `.cov{i} { color: {rgb(i)} }`, then the rule
`.tarp-uncovered { color: rgb(252, 242, 106) }`; it has no input, so its
value is one fixed string. -/
theorem CSScolors_rules :
    CSScolors
      = ((List.range 11).map (fun i =>
            ".cov".toList ++ Nat.toDigits 10 i ++ " \x7b color: ".toList ++ rgb i
              ++ " \x7d".toList ++ "\n\t\t\t".toList)).flatten
          ++ (".tarp-uncovered \x7b color: rgb(252, 242, 106) \x7d".toList ++ "\n".toList) ∧
    CSScolors = ".cov0 \x7b color: rgb(192, 0, 0) \x7d\n\t\t\t.cov1 \x7b color: rgb(128, 128, 128) \x7d\n\t\t\t.cov2 \x7b color: rgb(116, 140, 131) \x7d\n\t\t\t.cov3 \x7b color: rgb(104, 152, 134) \x7d\n\t\t\t.cov4 \x7b color: rgb(92, 164, 137) \x7d\n\t\t\t.cov5 \x7b color: rgb(80, 176, 140) \x7d\n\t\t\t.cov6 \x7b color: rgb(68, 188, 143) \x7d\n\t\t\t.cov7 \x7b color: rgb(56, 200, 146) \x7d\n\t\t\t.cov8 \x7b color: rgb(44, 212, 149) \x7d\n\t\t\t.cov9 \x7b color: rgb(32, 224, 152) \x7d\n\t\t\t.cov10 \x7b color: rgb(20, 236, 155) \x7d\n\t\t\t.tarp-uncovered \x7b color: rgb(252, 242, 106) \x7d\n".toList ∧
    countOcc " \x7b color: ".toList CSScolors = 12 ∧
    countOcc "\x7d".toList CSScolors = 12 := by
  decide

set_option maxRecDepth 100000 in
/-- C15 fails as stated: for the one file `a.go` whose body is `<pre>` the
document holds two occurrences of `<pre`, not one: the body, of type
`template.HTML`, is written as it is. -/
theorem htmlTemplateExecute_body_markup :
    countOcc "<pre".toList
        (htmlTemplateExecute
          ⟨[⟨"a.go".toList, "<pre>".toList, .finite false 75⟩], false⟩) = 2 ∧
    countOcc "<pre".toList
        (htmlTemplateExecute
          ⟨[⟨"a.go".toList, "<pre>".toList, .finite false 75⟩], false⟩)
      ≠ [(⟨"a.go".toList, "<pre>".toList, .finite false 75⟩ : templateFile)].length := by
  have h : countOcc "<pre".toList
      (htmlTemplateExecute
        ⟨[⟨"a.go".toList, "<pre>".toList, .finite false 75⟩], false⟩) = 2 := by
    have e : rangeFiles preBody 0
          [(⟨"a.go".toList, "<pre>".toList, .finite false 75⟩ : templateFile)] ++ tmplTail
        = "\n\t\t<pre class=\"file\" id=\"file0\" ><pre></pre>\n".toList ++ tmplTail := by
      decide
    rw [countOcc_eq_length, tailsWith_pre_skip]
    simp only
    rw [e, tailsWith_append _ _ _ (by decide), List.length_append, List.length_map]
    decide
  rw [h]
  exact ⟨rfl, by decide⟩

set_option maxRecDepth 100000 in
/-- C15 (amended): for every ordered list of `k` rendered files whose bodies
hold no `<option` and no `<pre` (every output of `htmlGen` is such a body),
the document produced from `tmplHTML` holds exactly `k` occurrences of
`<option` and exactly `k` of `<pre`; the `N`-th of them (0-based) starts the
`option` element of the `N`-th file, of value `file{N}`, and the `pre` block
of the `N`-th file, of id `file{N}` and with the body of the file.  The label
of the option is the escaped form of `{Name} ({Coverage with one decimal
place}%)`: it stands for the name (one without NUL), followed by the text of
`%.1f`, which for a finite coverage is the sign, the digits of `t / 10`, a
point and the digit `t % 10`, `t` being the integer nearest to ten times the
magnitude (the even one of two equally near).  The start tag of the block of
index 0 carries no `style="display: none"` and that of every index above 0
carries it.  For the two files `a+b.go` (coverage 75.25) and `b.go`
(coverage negative zero) the options are `a&#43;b.go (75.2%)` and
`b.go (-0.0%)`, and only the first of the two blocks is not hidden. -/
theorem htmlTemplateExecute_elements (d : templateData)
    (hbody : ∀ f ∈ d.Files,
      countOcc "<option".toList f.Body = 0 ∧ countOcc "<pre".toList f.Body = 0) :
    countOcc "<option".toList (htmlTemplateExecute d) = d.Files.length ∧
    countOcc "<pre".toList (htmlTemplateExecute d) = d.Files.length ∧
    (∀ N f, d.Files[N]? = some f →
      (∃ t, (tailsWith "<option".toList (htmlTemplateExecute d))[N]?
        = some (optionElement N f ++ t)) ∧
      (∃ t, (tailsWith "<pre".toList (htmlTemplateExecute d))[N]?
        = some (preElement N f ++ t)) ∧
      optionElement N f
        = "<option value=\"file".toList ++ fmtInt N ++ "\">".toList
            ++ htmlEscape f.Name ++ " (".toList ++ htmlEscape (fmtFixed1 f.Coverage)
            ++ "%)</option>".toList ∧
      ((∀ c ∈ f.Name, c ≠ '\x00') →
        decodeText (optionLabel f)
          = f.Name ++ " (".toList ++ fmtFixed1 f.Coverage ++ "%)".toList) ∧
      (∀ (negative : Bool) (magnitude : ℚ), f.Coverage = .finite negative magnitude →
        htmlEscape (fmtFixed1 f.Coverage) = fmtFixed1 f.Coverage ∧
        ∃ t : Nat, |(t : ℚ) - |magnitude| * 10| ≤ 1 / 2 ∧
          (|(t : ℚ) - |magnitude| * 10| = 1 / 2 → t % 2 = 0) ∧
          fmtFixed1 f.Coverage
            = (if negative then ['-'] else []) ++ Nat.toDigits 10 (t / 10)
                ++ '.' :: Nat.toDigits 10 (t % 10)) ∧
      preElement N f = preTag N ++ f.Body ++ "</pre>".toList ∧
      ("<pre class=\"file\" id=\"file".toList ++ fmtInt N ++ "\" ".toList) <+: preTag N) ∧
    hiddenTag (preTag 0) = false ∧
    (∀ N, 0 < N → hiddenTag (preTag N) = true) ∧
    (∀ (src : List Char) (filename : String) (bs : List Boundary) (report : tarpReport),
      countOcc "<option".toList (htmlGen src filename bs report) = 0 ∧
      countOcc "<pre".toList (htmlGen src filename bs report) = 0) ∧
    ((∃ t0 t1,
        tailsWith "<option".toList
            (htmlTemplateExecute
              ⟨[⟨"a+b.go".toList, htmlGen "x<y".toList "a+b.go" [] ⟨[], []⟩,
                  .finite false (301 / 4)⟩,
                ⟨"b.go".toList, [], .finite true 0⟩], true⟩)
          = ["<option value=\"file0\">a&#43;b.go (75.2%)</option>".toList ++ t0,
              "<option value=\"file1\">b.go (-0.0%)</option>".toList ++ t1]) ∧
      (∃ t0 t1,
        tailsWith "<pre".toList
            (htmlTemplateExecute
              ⟨[⟨"a+b.go".toList, htmlGen "x<y".toList "a+b.go" [] ⟨[], []⟩,
                  .finite false (301 / 4)⟩,
                ⟨"b.go".toList, [], .finite true 0⟩], true⟩)
          = ["<pre class=\"file\" id=\"file0\" >x&lt;y</pre>".toList ++ t0,
              "<pre class=\"file\" id=\"file1\" style=\"display: none\"></pre>".toList
                ++ t1])) := by
  have ho : ∀ f ∈ d.Files, tailsWith "<option".toList f.Body = [] := by
    intro f hf
    have h := (hbody f hf).1
    rw [countOcc_eq_length] at h
    exact List.length_eq_zero.1 h
  have hp : ∀ f ∈ d.Files, tailsWith "<pre".toList f.Body = [] := by
    intro f hf
    have h := (hbody f hf).2
    rw [countOcc_eq_length] at h
    exact List.length_eq_zero.1 h
  have h1 := tailsWith_option_document d ho
  have h2 := tailsWith_pre_document d hp
  refine ⟨by rw [countOcc_eq_length, h1.1], by rw [countOcc_eq_length, h2.1], ?_, ?_, ?_,
    ?_, ?_⟩
  · intro N f hf
    refine ⟨h1.2 N f hf, h2.2 N f hf, ?_, decodeText_optionLabel f, ?_, rfl, ?_⟩
    · have e : "%)</option>".toList = "%)".toList ++ "</option>".toList := by decide
      unfold optionElement optionLabel
      rw [e]
      simp only [List.append_assoc]
    · intro negative magnitude hcov
      rw [hcov]
      exact ⟨htmlEscape_fmtFixed1 negative magnitude, fmtFixed1_finite negative magnitude⟩
    · by_cases h0 : N = 0
      · subst h0
        exact ⟨">".toList, by decide⟩
      · unfold preTag
        rw [if_neg h0]
        have h3 : "\" style=\"display: none\">".toList
            = "\" ".toList ++ "style=\"display: none\">".toList := by decide
        rw [h3, ← List.append_assoc]
        exact List.prefix_append _ _
  · rw [hiddenTag_preTag]
    rfl
  · intro N hN
    rw [hiddenTag_preTag, decide_eq_true (by omega)]
  · intro src filename bs report
    have h := tailsWith_htmlGen src filename bs report
    rw [countOcc_eq_length, countOcc_eq_length, h.1, h.2]
    exact ⟨rfl, rfl⟩
  · exact document_example

set_option maxRecDepth 100000 in
theorem htmlTemplateExecute_elements_witness :
    countOcc "<option".toList
        (htmlTemplateExecute
          ⟨[⟨"a.go".toList, htmlGen "x<y".toList "a.go" [] ⟨[], []⟩, .finite false 75⟩,
            ⟨"b.go".toList, htmlGen "z\n".toList "b.go" [] ⟨[], []⟩, .finite false 0⟩],
            true⟩) = 2 ∧
    countOcc "<pre".toList
        (htmlTemplateExecute
          ⟨[⟨"a.go".toList, htmlGen "x<y".toList "a.go" [] ⟨[], []⟩, .finite false 75⟩,
            ⟨"b.go".toList, htmlGen "z\n".toList "b.go" [] ⟨[], []⟩, .finite false 0⟩],
            true⟩) = 2 :=
  ⟨(htmlTemplateExecute_elements
      ⟨[⟨"a.go".toList, htmlGen "x<y".toList "a.go" [] ⟨[], []⟩, .finite false 75⟩,
        ⟨"b.go".toList, htmlGen "z\n".toList "b.go" [] ⟨[], []⟩, .finite false 0⟩], true⟩
      (by
        intro f hf
        rcases List.mem_pair.1 hf with rfl | rfl
        · decide
        · decide)).1,
    (htmlTemplateExecute_elements
      ⟨[⟨"a.go".toList, htmlGen "x<y".toList "a.go" [] ⟨[], []⟩, .finite false 75⟩,
        ⟨"b.go".toList, htmlGen "z\n".toList "b.go" [] ⟨[], []⟩, .finite false 0⟩], true⟩
      (by
        intro f hf
        rcases List.mem_pair.1 hf with rfl | rfl
        · decide
        · decide)).2.1⟩

/-- C16: for every source and every boundary list ordered by non-decreasing
offset with all offsets in `[0, len(src))`, the writes of `htmlGen` are the
reference rendering: for `i = 0 .. len(src)-1` in order, the tags of all
boundaries with `Offset == i`, in list order, each classified with
`currentLine = 1 +` the number of newlines in `src[0:i]`, followed by the
escaped byte `src[i]`; the output is the concatenation of these writes, and
every boundary produces exactly one tag. -/
theorem htmlGen_reference (filename : String) (report : tarpReport) (src : List Char)
    (bs : List Boundary) (hord : offsetOrdered bs) (hin : offsetsWithin src.length bs) :
    htmlGenPieces src filename bs report
      = src.enum.flatMap (fun ic =>
          (bs.filter (fun b => b.Offset = (ic.1 : Int))).map
              (fun b => boundaryTag filename report
                (1 + (((src.take ic.1).count '\n' : Nat) : Int)) b)
            ++ [Piece.text (escapeByte ic.2)]) ∧
    htmlGen src filename bs report
      = ((referenceRendering src filename bs report).map Piece.render).flatten ∧
    tagsOf (htmlGenPieces src filename bs report)
      = bs.map (fun b => boundaryTag filename report
          (1 + (((src.take b.Offset.toNat).count '\n' : Nat) : Int)) b) ∧
    (tagsOf (htmlGenPieces src filename bs report)).length = bs.length := by
  have href := htmlGenPieces_eq_reference filename report src bs hord (fun b hb => (hin b hb).1)
  have htags := tagsOf_htmlGenPieces filename report src bs hord hin
  refine ⟨?_, ?_, htags, ?_⟩
  · rw [href]
    exact referenceFrom_eq_flatMap filename report src bs src 0
  · unfold htmlGen
    rw [href]
  · rw [htags, List.length_map]

theorem htmlGen_reference_witness :
    (tagsOf (htmlGenPieces "a<b".toList "f.go"
        [⟨0, true, 1, ⟨1, 0, by decide⟩⟩, ⟨0, true, 0, ⟨0, 0, by decide⟩⟩,
          ⟨2, false, 0, ⟨0, 0, by decide⟩⟩, ⟨2, false, 0, ⟨0, 0, by decide⟩⟩]
        ⟨[], []⟩)).length = 4 :=
  (htmlGen_reference "f.go" ⟨[], []⟩ "a<b".toList
    [⟨0, true, 1, ⟨1, 0, by decide⟩⟩, ⟨0, true, 0, ⟨0, 0, by decide⟩⟩,
      ⟨2, false, 0, ⟨0, 0, by decide⟩⟩, ⟨2, false, 0, ⟨0, 0, by decide⟩⟩]
    (by decide) (by decide)).2.2.2

/-- C17: when no declaration has both a filename that contains the rendered
filename and a closing line equal to the current line, no function is
attributed to the start boundary (the selected declaration is the zero value)
and the opening tag has the class `cov{n}`, `n` the level computed from `Count`
and `Norm`, and the title `Count`, whatever the called set holds. -/
theorem openTag_unattributed (filename : String) (report : tarpReport) (currentLine : Int)
    (b : Boundary)
    (h : ∀ d ∈ report.DeclaredDetails,
      ¬ (filename.toList <:+: d.Filename.toList ∧ d.RBraceLine = currentLine)) :
    relevantFunc filename report.DeclaredDetails currentLine = tarpFunc.zero ∧
    openTag filename report currentLine b
      = .openSpan ("cov".toList ++ fmtInt (coverLevel b)) (fmtInt b.Count) ∧
    (openTag filename report currentLine b).render
      = "<span class=\"cov".toList ++ fmtInt (coverLevel b) ++ "\" title=\"".toList
          ++ fmtInt b.Count ++ "\">".toList := by
  have hz : relevantFunc filename report.DeclaredDetails currentLine = tarpFunc.zero := by
    apply relevantFunc_none
    intro d hd hboth
    exact h d hd ⟨(stringsContains_iff _ _).1 hboth.1, hboth.2⟩
  have ht := openTag_not_found filename report currentLine b (by rw [hz]; rfl)
  refine ⟨hz, ht, ?_⟩
  rw [ht]
  simp [Piece.render]

theorem openTag_unattributed_witness :
    openTag "f.go" ⟨[⟨"f", "f.go", 3⟩, ⟨"g", "other.go", 1⟩], []⟩ 1
        ⟨9, true, 5, ⟨1, 0, by decide⟩⟩
      = .openSpan "cov10".toList "5".toList :=
  (openTag_unattributed "f.go" ⟨[⟨"f", "f.go", 3⟩, ⟨"g", "other.go", 1⟩], []⟩ 1
    ⟨9, true, 5, ⟨1, 0, by decide⟩⟩ (by decide)).2.1.trans (by decide)

/-- C18: the declaration selected for a start boundary is the first one, in
list order, whose `Filename` contains the rendered filename as a contiguous
part and whose closing line is the current line; so a boundary of the file
`foo.go` is attributed to a declaration of the file `barfoo.go`, and classed
`tarp-uncovered` because of it. -/
theorem relevantFunc_first_match (filename : String) (decls : List tarpFunc)
    (currentLine : Int) :
    relevantFunc filename decls currentLine
      = (decls.find? (fun d =>
          decide (filename.toList <:+: d.Filename.toList)
            && decide (d.RBraceLine = currentLine))).getD tarpFunc.zero ∧
    (relevantFunc "foo.go" [⟨"g", "barfoo.go", 1⟩] 1 = ⟨"g", "barfoo.go", 1⟩ ∧
      openTag "foo.go" ⟨[⟨"g", "barfoo.go", 1⟩], []⟩ 1 ⟨0, true, 5, ⟨1, 0, by decide⟩⟩
        = .openSpan tarpClassName "5".toList ∧
      openTag "foo.go" ⟨[], []⟩ 1 ⟨0, true, 5, ⟨1, 0, by decide⟩⟩
        = .openSpan "cov10".toList "5".toList) := by
  refine ⟨?_, by decide⟩
  rw [relevantFunc_eq_find]
  congr 2
  funext d
  congr 1
  rw [Bool.eq_iff_iff]
  simp [stringsContains_iff]

/-- C19: for every source and every boundary list, well formed or not,
`htmlGen` yields an output (the embedding is a total function: both loops end
and no index leaves its range), and the boundaries it renders are a run at the
head of the list: the longest one whose offsets do not decrease and lie in
`[0, len(src))`.  The output is that of this run alone, its tags are the tags
of the run, in order, and the boundary after the run (whose offset is negative,
is `len(src)` or more, or is smaller than an offset already rendered) and all
boundaries after it produce no tag.  For the empty source the output is empty
for every boundary list. -/
theorem htmlGen_renders_run (filename : String) (report : tarpReport) (src : List Char)
    (bs : List Boundary) :
    htmlGen src filename bs report
      = htmlGen src filename (renderedRun src.length 0 bs) report ∧
    htmlGenPieces src filename bs report
      = htmlGenPieces src filename (renderedRun src.length 0 bs) report ∧
    renderedRun src.length 0 bs <+: bs ∧
    offsetOrdered (renderedRun src.length 0 bs) ∧
    offsetsWithin src.length (renderedRun src.length 0 bs) ∧
    tagsOf (htmlGenPieces src filename bs report)
      = (renderedRun src.length 0 bs).map
          (fun a => boundaryTag filename report (lineAt src a.Offset.toNat) a) ∧
    (∀ (b : Boundary) (rest : List Boundary),
      bs = renderedRun src.length 0 bs ++ b :: rest →
      b.Offset < 0 ∨ (src.length : Int) ≤ b.Offset
        ∨ ∃ a ∈ renderedRun src.length 0 bs, b.Offset < a.Offset) ∧
    htmlGen [] filename bs report = [] := by
  have hp : htmlGenPieces src filename bs report
      = htmlGenPieces src filename (renderedRun src.length 0 bs) report := by
    have h := scan_renderedRun filename report bs 1 0 src
    simpa [htmlGenPieces] using h
  have hord := renderedRun_ordered src.length bs 0
  have hin : offsetsWithin src.length (renderedRun src.length 0 bs) :=
    fun a ha => renderedRun_bounds src.length bs 0 a ha
  refine ⟨?_, hp, renderedRun_isPrefix _ bs 0, hord, hin, ?_,
    renderedRun_maximal src.length bs 0, rfl⟩
  · unfold htmlGen
    rw [hp]
  · rw [hp, tagsOf_htmlGenPieces filename report src _ hord hin]

theorem htmlGen_renders_run_witness :
    (⟨5, false, 0, ⟨0, 0, by decide⟩⟩ : Boundary).Offset < 0
      ∨ ("ab".toList.length : Int) ≤ (⟨5, false, 0, ⟨0, 0, by decide⟩⟩ : Boundary).Offset
      ∨ ∃ a ∈ renderedRun "ab".toList.length 0
            [⟨1, true, 1, ⟨1, 0, by decide⟩⟩, ⟨5, false, 0, ⟨0, 0, by decide⟩⟩,
              ⟨1, false, 0, ⟨0, 0, by decide⟩⟩],
          (⟨5, false, 0, ⟨0, 0, by decide⟩⟩ : Boundary).Offset < a.Offset :=
  (htmlGen_renders_run "f.go" ⟨[], []⟩ "ab".toList
    [⟨1, true, 1, ⟨1, 0, by decide⟩⟩, ⟨5, false, 0, ⟨0, 0, by decide⟩⟩,
      ⟨1, false, 0, ⟨0, 0, by decide⟩⟩]).2.2.2.2.2.2.1
    ⟨5, false, 0, ⟨0, 0, by decide⟩⟩ [⟨1, false, 0, ⟨0, 0, by decide⟩⟩] (by decide)

/-- C20: for every level `n` in `0..10` each channel of `rgb(n)` lies in
`[0, 255]`; the eleven colours `rgb(0..10)` are pairwise distinct, and none of
them is the tarp colour `rgb(252, 242, 106)`. -/
theorem rgb_channels_valid :
    (∀ n : Int, 0 ≤ n → n ≤ 10 →
      (0 ≤ (rgbChannels n).1 ∧ (rgbChannels n).1 ≤ 255) ∧
      (0 ≤ (rgbChannels n).2.1 ∧ (rgbChannels n).2.1 ≤ 255) ∧
      (0 ≤ (rgbChannels n).2.2 ∧ (rgbChannels n).2.2 ≤ 255) ∧
      rgb n = fmtRGB (rgbChannels n) ∧
      rgb n ≠ tarpColor ∧ rgbChannels n ≠ (252, 242, 106)) ∧
    (∀ m n : Int, 0 ≤ m → m < n → n ≤ 10 →
      rgb m ≠ rgb n ∧ rgbChannels m ≠ rgbChannels n) := by
  constructor
  · intro n h1 h2
    interval_cases n <;> decide
  · intro m n h1 h2 h3
    have hm : m ≤ 9 := by omega
    have hn : 1 ≤ n := by omega
    interval_cases m <;> interval_cases n <;> first | omega | decide

theorem rgb_channels_valid_witness : rgb 0 ≠ rgb 10 ∧ rgbChannels 0 ≠ rgbChannels 10 :=
  rgb_channels_valid.2 0 10 (by decide) (by decide) (by decide)

end Tarp
